import Mathlib

/-! Verification of the command-line argument parser `args` (src/args/args.go)

The embedding follows the Go source:

* a Go `string` is its sequence of bytes (`len`, indexing and slicing in the
  source are all byte-based), a `rune` is an integer;
* a Go `map` is a finite map, kept as an association list with distinct keys;
* `Parser.Parse` is a `for` loop: `body` is one pass through the loop body and
  `loop` iterates it, counting the iterations it may still perform;
* an `error` made by `errors.New` is kept as its message, the only thing a
  caller can observe of it.
-/

namespace Args

/-! ## Strings and runes -/

/-- One byte of a Go string. -/
abbrev Byte := Fin 256

/-- Go strings, as byte sequences. -/
abbrev GoString := List Byte

/-- Go `rune` (an `int32`); the parser only compares runes for equality. -/
abbrev Rune := Int

/-- The conversion `rune(b)` of a byte. -/
def runeOf (b : Byte) : Rune := (b.val : Int)

/-- The byte of an ASCII character; used to write string literals. -/
def byteOf (c : Char) : Byte := ⟨c.toNat % 256, Nat.mod_lt _ (by decide)⟩

/-- The Go string literal with the given ASCII text. -/
def str (s : String) : GoString := s.toList.map byteOf

/-- The byte `'-'`. -/
def dash : Byte := 45

/-- The byte `'='`. -/
def equalsSign : Byte := 61

/-- The byte `'"'`. -/
def quote : Byte := 34

/-- The token `"--"`. -/
def terminator : GoString := [dash, dash]

/-- The byte with the value `n` (taken modulo 256). -/
def byteOfNat (n : Nat) : Byte := ⟨n % 256, Nat.mod_lt _ (by decide)⟩

/-- Go `strings.IndexRune(s, c)` for an ASCII `c`: the index of the first byte
equal to `c`, or `-1`. -/
def IndexRune : GoString → Byte → Int
  | [], _ => -1
  | b :: s, c => if b = c then 0 else
      if IndexRune s c = -1 then -1 else IndexRune s c + 1

/-- Go `s[k]`; `none` stands for the index-out-of-range panic. -/
def byteAt (s : GoString) (k : Int) : Option Byte :=
  if 0 ≤ k then s.get? k.toNat else none

/-- Go `s[lo:]`; `none` stands for the slice-bounds panic. -/
def sliceFrom (s : GoString) (lo : Int) : Option GoString :=
  if 0 ≤ lo ∧ lo ≤ (s.length : Int) then some (s.drop lo.toNat) else none

/-- Go `s[lo:hi]`; `none` stands for the slice-bounds panic. -/
def slice (s : GoString) (lo hi : Int) : Option GoString :=
  if 0 ≤ lo ∧ lo ≤ hi ∧ hi ≤ (s.length : Int) then
    some ((s.take hi.toNat).drop lo.toNat)
  else none

/-! ## Go maps -/

/-- Replace the value bound to `k` in an association list, or append the
binding when `k` is absent. -/
def setEntries {κ ν : Type} [DecidableEq κ] : List (κ × ν) → κ → ν → List (κ × ν)
  | [], k, v => [(k, v)]
  | (k1, v1) :: m, k, v =>
      if k1 = k then (k, v) :: m else (k1, v1) :: setEntries m k v

/-- Look a key up in an association list. -/
def getEntries {κ ν : Type} [DecidableEq κ] : List (κ × ν) → κ → Option ν
  | [], _ => none
  | (k1, v1) :: m, k => if k1 = k then some v1 else getEntries m k

/-- Go `map[κ]ν`: a finite map. -/
structure GoMap (κ ν : Type) [DecidableEq κ] where
  entries : List (κ × ν)
  nodup : (entries.map Prod.fst).Nodup

namespace GoMap

variable {κ ν : Type} [DecidableEq κ]

/-- The map literal `map[κ]ν{}`. -/
def empty : GoMap κ ν := ⟨[], List.nodup_nil⟩

/-- The two-valued lookup `v, found := m[k]`. -/
def get? (m : GoMap κ ν) (k : κ) : Option ν := getEntries m.entries k

/-- The test `_, found := m[k]`. -/
def contains (m : GoMap κ ν) (k : κ) : Bool := (m.get? k).isSome

/-- The assignment `m[k] = v`. -/
def set (m : GoMap κ ν) (k : κ) (v : ν) : GoMap κ ν :=
  ⟨setEntries m.entries k v, by
    have keys : ∀ l : List (κ × ν), (setEntries l k v).map Prod.fst =
        if k ∈ l.map Prod.fst then l.map Prod.fst else l.map Prod.fst ++ [k] := by
      intro l
      induction l with
      | nil => simp [setEntries]
      | cons e l ih =>
        obtain ⟨k1, v1⟩ := e
        by_cases h : k1 = k
        · subst h; simp [setEntries]
        · have h2 : ¬ k = k1 := fun e => h e.symm
          simp only [setEntries, h, if_false, List.map_cons, ih, List.mem_cons, h2, false_or]
          split <;> simp
    rw [keys]
    split
    · exact m.nodup
    · rename_i hk
      rw [List.nodup_append]
      refine ⟨m.nodup, List.nodup_singleton k, ?_⟩
      intro a ha hb
      rw [List.mem_singleton] at hb
      subst hb
      exact hk ha⟩

/-- The length `len(m)`. -/
def len (m : GoMap κ ν) : Nat := m.entries.length

instance instDecidableEq [DecidableEq ν] : DecidableEq (GoMap κ ν) := fun a b =>
  decidable_of_iff (a.entries = b.entries)
    ⟨fun h => by cases a; cases b; cases h; rfl, fun h => by rw [h]⟩

end GoMap

/-! ## Data model (src/args/args.go, lines 33-92) -/

/-- The parse results: `type Results struct`. -/
structure Results where
  Flag : GoMap GoString Bool
  Option : GoMap GoString GoString
  Positional : List GoString
  Command : GoString
  deriving DecidableEq

/-- The registered data of an option: `type option struct`. -/
structure option where
  Help : GoString
  DefaultsTo : GoString
  Allowed : List GoString
  deriving DecidableEq

/-- The zero value of `option`, which a Go map lookup yields for a missing key. -/
def option.zero : option := ⟨[], [], []⟩

/-- The registry: `type Parser struct`.  The fields that only the `Help`
printer reads (header texts and colours, `positional`, `cachedHelp`) are left
out. -/
structure Parser where
  flags : GoMap GoString GoString
  flagsAbbr : GoMap Rune GoString
  options : GoMap GoString option
  optionsAbbr : GoMap Rune GoString
  commands : GoMap GoString GoString
  name : GoString
  description : GoString
  CommandRequired : Bool
  deriving DecidableEq

/-- Go `string(r)` of an integer `r`: the UTF-8 encoding of the code point `r`,
and that of U+FFFD when `r` is not a valid code point. -/
def stringOfRune (r : Rune) : GoString :=
  if r < 0 ∨ 0x10FFFF < r ∨ (0xD800 ≤ r ∧ r ≤ 0xDFFF) then [0xEF, 0xBF, 0xBD]
  else
    let n := r.toNat
    if n < 0x80 then [byteOfNat n]
    else if n < 0x800 then [byteOfNat (0xC0 + n / 0x40), byteOfNat (0x80 + n % 0x40)]
    else if n < 0x10000 then
      [byteOfNat (0xE0 + n / 0x1000), byteOfNat (0x80 + n / 0x40 % 0x40),
        byteOfNat (0x80 + n % 0x40)]
    else
      [byteOfNat (0xF0 + n / 0x40000), byteOfNat (0x80 + n / 0x1000 % 0x40),
        byteOfNat (0x80 + n / 0x40 % 0x40), byteOfNat (0x80 + n % 0x40)]

/-- The value of `errors.New(msg)`: an error of which only the message `msg` can
be observed, so two errors with the same message are the same error. -/
structure Error where
  message : GoString
  deriving DecidableEq

/-- The message `"duplicate argument: %s"` with `name` (lines 174, 204, 219). -/
def Error.duplicateName (name : GoString) : Error :=
  ⟨str "duplicate argument: " ++ name⟩

/-- The message `"duplicate argument: %s"` with `string(abbr)` (lines 171, 200). -/
def Error.duplicateAbbr (abbr : Rune) : Error :=
  ⟨str "duplicate argument: " ++ stringOfRune abbr⟩

/-- The message `"invalid argument: \"%s\" is not a command"` with `args[i]`
(line 420). -/
def Error.notACommand (arg : GoString) : Error :=
  ⟨str "invalid argument: " ++ quote :: (arg ++ quote :: str " is not a command")⟩

/-- The message `"invalid value: %s -> %s"` with `string(args[i][1])` and the
value (line 446). -/
def Error.invalidValueAbbr (c : Byte) (val : GoString) : Error :=
  ⟨str "invalid value: " ++ (stringOfRune (runeOf c) ++ (str " -> " ++ val))⟩

/-- The message `"invalid value: %s -> %s"` with the option name and the value
(lines 526, 548). -/
def Error.invalidValue (op val : GoString) : Error :=
  ⟨str "invalid value: " ++ (op ++ (str " -> " ++ val))⟩

/-- The message `"missing value: %s"` with `string(args[i][1])` (lines 451, 474,
480, 493). -/
def Error.missingValueAbbr (c : Byte) : Error :=
  ⟨str "missing value: " ++ stringOfRune (runeOf c)⟩

/-- The message `"missing value: %s"` with a string (lines 519, 553, 559, 591,
597). -/
def Error.missingValue (arg : GoString) : Error :=
  ⟨str "missing value: " ++ arg⟩

/-- The message `"invalid argument: flag %s does not exist"` with
`string(args[i][ii])` (lines 462, 503). -/
def Error.flagDoesNotExist (c : Byte) : Error :=
  ⟨str "invalid argument: flag " ++ (stringOfRune (runeOf c) ++ str " does not exist")⟩

/-- The message `"invalid argument: %s"` with a string (line 565). -/
def Error.invalidArgument (arg : GoString) : Error :=
  ⟨str "invalid argument: " ++ arg⟩

/-- The message `"invalid argument: %s"` with `string(args[i][1])` (line 603). -/
def Error.invalidArgumentAbbr (c : Byte) : Error :=
  ⟨str "invalid argument: " ++ stringOfRune (runeOf c)⟩

/-- The message starts with `"missing value: "`. -/
def Error.isMissingValue (e : Error) : Bool :=
  (str "missing value: ").isPrefixOf e.message

/-- The message starts with `"invalid value: "`. -/
def Error.isInvalidValue (e : Error) : Bool :=
  (str "invalid value: ").isPrefixOf e.message

/-- The message starts with `"invalid argument: "`. -/
def Error.isInvalidArgument (e : Error) : Bool :=
  (str "invalid argument: ").isPrefixOf e.message

/-- The message starts with `"duplicate argument: "`. -/
def Error.isDuplicate (e : Error) : Bool :=
  (str "duplicate argument: ").isPrefixOf e.message

/-- How a piece of code ends: normally with a value, by `return nil, err`, or
with a run-time panic (index or slice bounds out of range). -/
inductive Outcome (α : Type) where
  | ok (a : α)
  | err (e : Error)
  | panic
  deriving DecidableEq

/-- Continue with the value of an index or slice expression, or panic. -/
def orPanic {α β : Type} (o : Option α) (k : α → Outcome β) : Outcome β :=
  match o with
  | some a => k a
  | none => .panic

/-! ## The registry (lines 112-223) -/

/-- `Parser.isAllowedOptionValue` (lines 112-128). -/
def isAllowedOptionValue (ap : Parser) (opt val : GoString) : Bool :=
  let op := (ap.options.get? opt).getD option.zero
  if op.Allowed.length ≠ 0 then op.Allowed.any (fun a => decide (a = val)) else true

/-- `Parser.Init` (lines 131-154), on the fields of the model. -/
def Init (ap : Parser) (name description : GoString) : Parser :=
  { flags := GoMap.empty
    flagsAbbr := GoMap.empty
    options := GoMap.empty
    optionsAbbr := GoMap.empty
    commands := GoMap.empty
    name := if name ≠ [] then name else ap.name
    description := if description ≠ [] then description else ap.description
    CommandRequired := false }

/-- The zero value `var parser Parser`, with the maps not yet made. -/
def Parser.zero : Parser :=
  ⟨GoMap.empty, GoMap.empty, GoMap.empty, GoMap.empty, GoMap.empty, [], [], false⟩

/-- `Parser.AddFlag` (lines 161-178): the registry after the call and the
returned error (`none` for `nil`). -/
def AddFlag (ap : Parser) (name help : GoString) (abbr : Rune) : Parser × Option Error :=
  if !ap.flags.contains name && !ap.options.contains name then
    let ap1 := { ap with flags := ap.flags.set name help }
    if !ap1.flagsAbbr.contains abbr && !ap1.optionsAbbr.contains abbr then
      ({ ap1 with flagsAbbr := ap1.flagsAbbr.set abbr name }, none)
    else
      (ap1, some (.duplicateAbbr abbr))
  else
    (ap, some (.duplicateName name))

/-- `Parser.AddOption` (lines 187-208). -/
def AddOption (ap : Parser) (name help : GoString) (abbr : Rune) (defaultsTo : GoString)
    (allowed : List GoString) : Parser × Option Error :=
  if !ap.options.contains name && !ap.flags.contains name then
    let ap1 := { ap with options := ap.options.set name ⟨help, defaultsTo, allowed⟩ }
    if abbr ≠ 0 then
      if !ap1.optionsAbbr.contains abbr && !ap1.flagsAbbr.contains abbr then
        ({ ap1 with optionsAbbr := ap1.optionsAbbr.set abbr name }, none)
      else
        (ap1, some (.duplicateAbbr abbr))
    else
      (ap1, none)
  else
    (ap, some (.duplicateName name))

/-- `Parser.AddCommand` (lines 214-223). -/
def AddCommand (ap : Parser) (name help : GoString) : Parser × Option Error :=
  if !ap.commands.contains name then
    ({ ap with commands := ap.commands.set name help }, none)
  else
    (ap, some (.duplicateName name))

/-- The registries a program can build: `Init`, then any calls of `AddFlag`,
`AddOption`, `AddCommand` (whatever they return) and assignments to the public
field `CommandRequired`. -/
inductive Reachable : Parser → Prop where
  | init (ap : Parser) (name description : GoString) : Reachable (Init ap name description)
  | addFlag (ap : Parser) (name help : GoString) (abbr : Rune) :
      Reachable ap → Reachable (AddFlag ap name help abbr).1
  | addOption (ap : Parser) (name help : GoString) (abbr : Rune) (defaultsTo : GoString)
      (allowed : List GoString) :
      Reachable ap → Reachable (AddOption ap name help abbr defaultsTo allowed).1
  | addCommand (ap : Parser) (name help : GoString) :
      Reachable ap → Reachable (AddCommand ap name help).1
  | setCommandRequired (ap : Parser) (b : Bool) :
      Reachable ap → Reachable { ap with CommandRequired := b }

/-! ## `Parser.Parse` (lines 394-620) -/

/-- The variables of the scan loop: the cursor `i`, `skipCommandCheck` and the
results under construction. -/
structure State where
  i : Nat
  skipCommandCheck : Bool
  results : Results
  deriving DecidableEq

/-- The assignment `results.Flag[fl] = true`. -/
def Results.setFlag (r : Results) (fl : GoString) : Results :=
  { r with Flag := r.Flag.set fl true }

/-- The assignment `results.Option[op] = val`. -/
def Results.setOption (r : Results) (op val : GoString) : Results :=
  { r with Option := r.Option.set op val }

/-- The statement `results.Positional = append(results.Positional, arg)`. -/
def Results.addPositional (r : Results) (arg : GoString) : Results :=
  { r with Positional := r.Positional ++ [arg] }

/-- The results before the scan (lines 395-404): every flag `false`, every
option at its `DefaultsTo`. -/
def initResults (ap : Parser) : Results :=
  { Flag := ap.flags.entries.foldl (fun m kv => m.set kv.1 false) GoMap.empty
    Option := ap.options.entries.foldl (fun m kv => m.set kv.1 kv.2.DefaultsTo) GoMap.empty
    Positional := []
    Command := [] }

/-- The loops `for ii := lo; ii < hi; ii++` of lines 456-465 and 497-506, which
set the flag of every abbreviation `cur[ii]`; `n` counts the passes that are
left (`hi - ii`). -/
def flagLoop (ap : Parser) (cur : GoString) : Nat → Int → Results → Outcome Results
  | 0, _, r => .ok r
  | n + 1, ii, r =>
      orPanic (byteAt cur ii) fun c =>
      match ap.flagsAbbr.get? (runeOf c) with
      | some fl => flagLoop ap cur n (ii + 1) (r.setFlag fl)
      | none => .err (.flagDoesNotExist c)

/-- Lines 433-509: a token longer than 2 that starts with one dash. -/
def parseShort (ap : Parser) (cur : GoString) (s : State) : Outcome State :=
  let curArgLen : Int := cur.length
  let equals := IndexRune cur equalsSign
  if equals ≠ -1 then
    if equals = 2 then
      -- option
      orPanic (byteAt cur 1) fun c1 =>
      match ap.optionsAbbr.get? (runeOf c1) with
      | some op =>
          if curArgLen > 3 then
            orPanic (sliceFrom cur 3) fun tmp =>
            if isAllowedOptionValue ap op tmp then
              .ok { s with results := s.results.setOption op tmp, i := s.i + 1 }
            else .err (.invalidValueAbbr c1 tmp)
          else .err (.missingValueAbbr c1)
      | none => .ok s
    else
      -- multiple flags and one option
      match flagLoop ap cur (equals - 1 - 1).toNat 1 s.results with
      | .ok r =>
          if equals + 1 < curArgLen then
            orPanic (byteAt cur (equals - 1)) fun co =>
            match ap.optionsAbbr.get? (runeOf co) with
            | some op =>
                orPanic (sliceFrom cur (equals + 1)) fun tmp =>
                if isAllowedOptionValue ap op tmp then
                  .ok { s with results := r.setOption op tmp, i := s.i + 1 }
                else orPanic (byteAt cur 1) fun c1 => .err (.missingValueAbbr c1)
            | none => .ok { s with results := r, i := s.i + 1 }
          else orPanic (byteAt cur 1) fun c1 => .err (.missingValueAbbr c1)
      | .err e => .err e
      | .panic => .panic
  else
    -- option and value with no space
    orPanic (byteAt cur 1) fun c1 =>
    match ap.optionsAbbr.get? (runeOf c1) with
    | some op =>
        orPanic (sliceFrom cur 2) fun tmp =>
        if isAllowedOptionValue ap op tmp then
          .ok { s with results := s.results.setOption op tmp, i := s.i + 1 }
        else .err (.missingValueAbbr c1)
    | none =>
        -- multiple flags
        match flagLoop ap cur (curArgLen - 1).toNat 1 s.results with
        | .ok r => .ok { s with results := r, i := s.i + 1 }
        | .err e => .err e
        | .panic => .panic

/-- Lines 510-569: a token longer than 2 that starts with two dashes. -/
def parseLong (ap : Parser) (args : List GoString) (cur : GoString) (s : State) :
    Outcome State :=
  let curArgLen : Int := cur.length
  let equals := IndexRune cur equalsSign
  if equals ≠ -1 then
    orPanic (slice cur 2 equals) fun op =>
    if equals + 1 < curArgLen then
      orPanic (sliceFrom cur (equals + 1)) fun val =>
      if isAllowedOptionValue ap op val then
        .ok { s with results := s.results.setOption op val, i := s.i + 1 }
      else .err (.invalidValue op val)
    else .err (.missingValue op)
  else
    orPanic (sliceFrom cur 2) fun arg =>
    match ap.flags.get? arg with
    | some _ => .ok { s with results := s.results.setFlag arg, i := s.i + 1 }
    | none =>
        match ap.options.get? arg with
        | some _ =>
            if s.i + 1 < args.length then
              orPanic (args.get? (s.i + 1)) fun next =>
              if next.length = 0 then
                .ok { s with results := s.results.setOption arg next, i := s.i + 2 }
              else
                orPanic (byteAt next 0) fun n0 =>
                if n0 ≠ dash then
                  if isAllowedOptionValue ap arg next then
                    .ok { s with results := s.results.setOption arg next, i := s.i + 2 }
                  else .err (.invalidValue arg next)
                else .err (.missingValue arg)
            else .err (.missingValue arg)
        | none => .err (.invalidArgument arg)

/-- Lines 574-610: a token of length 2. -/
def parseTwo (ap : Parser) (args : List GoString) (cur : GoString) (s : State) :
    Outcome State :=
  orPanic (byteAt cur 0) fun c0 =>
  if c0 = dash then
    orPanic (byteAt cur 1) fun c1 =>
    match ap.flagsAbbr.get? (runeOf c1) with
    | some fl => .ok { s with results := s.results.setFlag fl, i := s.i + 1 }
    | none =>
        match ap.optionsAbbr.get? (runeOf c1) with
        | some op =>
            if s.i + 1 < args.length then
              orPanic (args.get? (s.i + 1)) fun next =>
              if next.length = 0 then
                .ok { s with results := s.results.setOption op next, i := s.i + 2 }
              else
                orPanic (byteAt next 0) fun n0 =>
                if n0 ≠ dash then
                  .ok { s with results := s.results.setOption op next, i := s.i + 2 }
                else .err (.missingValue cur)
            else .err (.missingValue cur)
        | none => .err (.invalidArgumentAbbr c1)
  else
    .ok { s with results := s.results.addPositional cur, i := s.i + 1 }

/-- Lines 432-614: the classification of a token by its length and its first
two bytes. -/
def classify (ap : Parser) (args : List GoString) (cur : GoString) (s : State) :
    Outcome State :=
  if cur.length > 2 then
    -- `args[i][0] == '-' && args[i][1] != '-'`, else `args[i][0] == '-' && args[i][1] == '-'`
    orPanic (byteAt cur 0) fun c0 =>
    if c0 = dash then
      orPanic (byteAt cur 1) fun c1 =>
      if c1 ≠ dash then parseShort ap cur s else parseLong ap args cur s
    else
      .ok { s with results := s.results.addPositional cur, i := s.i + 1 }
  else if cur.length = 2 then
    parseTwo ap args cur s
  else
    .ok { s with results := s.results.addPositional cur, i := s.i + 1 }

/-- One pass through the body of `for i < argsLen` (lines 411-616), entered
with `i < argsLen`. -/
def body (ap : Parser) (args : List GoString) (s : State) : Outcome State :=
  orPanic (args.get? s.i) fun cur =>
  if !s.skipCommandCheck && s.i == 0 && ap.commands.len != 0 then
    match ap.commands.get? cur with
    | some _ =>
        .ok { results := { s.results with Command := cur }, i := s.i + 1,
              skipCommandCheck := true }
    | none =>
        if ap.CommandRequired then .err (.notACommand cur)
        else .ok { s with skipCommandCheck := true }
  else if cur = terminator then
    -- the loop of lines 427-429 appends args[i+1], ..., args[argsLen-1] in order
    .ok { s with
          results := { s.results with
                       Positional := s.results.Positional ++ args.drop (s.i + 1) },
          i := args.length }
  else classify ap args cur s

/-- The loop `for i < argsLen` of lines 410-617 followed by `return results, nil`;
the first argument bounds the number of passes, and `none` says that the bound
was reached with the loop still running. -/
def loop (ap : Parser) (args : List GoString) : Nat → State → Option (Outcome Results)
  | 0, s => if s.i < args.length then none else some (.ok s.results)
  | fuel + 1, s =>
      if s.i < args.length then
        match body ap args s with
        | .ok s1 => loop ap args fuel s1
        | .err e => some (.err e)
        | .panic => some .panic
      else some (.ok s.results)

/-- The variables on entry to the loop (lines 395-409). -/
def initState (ap : Parser) : State :=
  { i := 0, skipCommandCheck := false, results := initResults ap }

/-- `Parser.Parse` on the tokens `args` (the source reads `os.Args[1:]`), run for
at most `fuel` passes of its loop. -/
def ParseFuel (ap : Parser) (args : List GoString) (fuel : Nat) : Option (Outcome Results) :=
  loop ap args fuel (initState ap)

/-- `Parse` returns `out` on `args`. -/
def Returns (ap : Parser) (args : List GoString) (out : Outcome Results) : Prop :=
  ∃ fuel, ParseFuel ap args fuel = some out

/-- `Parse` never returns on `args`: its loop runs forever. -/
def Diverges (ap : Parser) (args : List GoString) : Prop :=
  ∀ fuel, ParseFuel ap args fuel = none

/-! ## Notions used in the statements -/

/-- No long name is both a flag and an option, no rune abbreviates both a flag
and an option, and every abbreviation is bound to a declared name of its kind. -/
def Parser.Invariant (ap : Parser) : Prop :=
  (∀ n, ap.flags.get? n ≠ none → ap.options.get? n = none) ∧
  (∀ c, ap.flagsAbbr.get? c ≠ none → ap.optionsAbbr.get? c = none) ∧
  (∀ c n, ap.flagsAbbr.get? c = some n → ap.flags.get? n ≠ none) ∧
  (∀ c n, ap.optionsAbbr.get? c = some n → ap.options.get? n ≠ none)

/-- The state is past the command check of lines 412-424. -/
def State.pastCommandCheck (ap : Parser) (s : State) : Prop :=
  s.skipCommandCheck = true ∨ s.i ≠ 0 ∨ ap.commands.len = 0

/-- What `Parse` returns on tokens none of which starts with a dash. -/
def expectedWithoutDash (ap : Parser) : List GoString → Outcome Results
  | [] => .ok (initResults ap)
  | a :: rest =>
      if ap.commands.len ≠ 0 then
        match ap.commands.get? a with
        | some _ => .ok { initResults ap with Command := a, Positional := rest }
        | none =>
            if ap.CommandRequired then .err (.notACommand a)
            else .ok { initResults ap with Positional := a :: rest }
      else .ok { initResults ap with Positional := a :: rest }

/-- Append tokens to the positional list of returned results. -/
def appendPositional (post : List GoString) : Outcome Results → Outcome Results
  | .ok r => .ok { r with Positional := r.Positional ++ post }
  | .err e => .err e
  | .panic => .panic

/-- What `Parse` returns for a value `v` given to the option `n` with the
registered data `o`, on the paths that check the allowed values: the initial
results with `n` set to `v`, or the error `e`. -/
def valueOutcome (ap : Parser) (o : option) (n v : GoString) (e : Error) : Outcome Results :=
  if o.Allowed = [] ∨ v ∈ o.Allowed then .ok ((initResults ap).setOption n v) else .err e

/-- Apply a function to the value of a normal outcome. -/
def Outcome.map {α β : Type} (f : α → β) : Outcome α → Outcome β
  | .ok a => .ok (f a)
  | .err e => .err e
  | .panic => .panic

/-- The results with `Command` set to `c`. -/
def Results.withCommand (r : Results) (c : GoString) : Results :=
  { r with Command := c }

/-- The state of a scan of `c :: rest` that matches a state of a scan of `rest`
once `c` has been consumed as the command: the cursor is one further, the
command check is behind and the command is `c`. -/
def State.afterCommand (c : GoString) (s : State) : State :=
  { i := s.i + 1, skipCommandCheck := true, results := s.results.withCommand c }

/-- The registry with the same flags and options and no command. -/
def Parser.withoutCommands (ap : Parser) : Parser :=
  { ap with commands := GoMap.empty }

/-- The token is empty, is the lone `-`, or does not start with `-`. -/
def isPositionalShaped (t : GoString) : Bool :=
  t.head? != some dash || t == [dash]

/-- The flags that a token `--n` or `-c1...ck` names: `n`, or the flags that
`c1`, ..., `ck` abbreviate. -/
def namedFlags (ap : Parser) (t : GoString) : List GoString :=
  if t.get? 1 = some dash then [t.drop 2]
  else (t.drop 1).filterMap fun c => ap.flagsAbbr.get? (runeOf c)

/-- Set every flag of a list. -/
def Results.setFlags (r : Results) (names : List GoString) : Results :=
  names.foldl (fun r1 f => r1.setFlag f) r

/-- Some token of `args` names the flag `f`: `--f` is a token, or a token
`-c1...ck` has a byte that abbreviates `f`. -/
def flagOccurs (ap : Parser) (args : List GoString) (f : GoString) : Prop :=
  (dash :: dash :: f) ∈ args ∨
  ∃ c cs, (dash :: cs) ∈ args ∧ cs.head? ≠ some dash ∧ c ∈ cs ∧
    ap.flagsAbbr.get? (runeOf c) = some f

/-- The token `--n=v`. -/
def longEquals (n v : GoString) : GoString := dash :: dash :: (n ++ equalsSign :: v)

/-- The token `--n`. -/
def longName (n : GoString) : GoString := dash :: dash :: n

/-- The value `v` is accepted by the allowed list of the option data `o`. -/
def option.accepts (o : option) (v : GoString) : Prop :=
  o.Allowed = [] ∨ v ∈ o.Allowed

/-- Assign the values `vs` to the option `n`, one after the other. -/
def Results.setOptionEach (r : Results) (n : GoString) (vs : List GoString) : Results :=
  vs.foldl (fun r1 v => r1.setOption n v) r

/-- The token `-f1...fk o=v`: a dash, the bytes `fs`, the byte `o`, `=` and `v`. -/
def combinedToken (fs : GoString) (o : Byte) (v : GoString) : GoString :=
  dash :: (fs ++ o :: equalsSign :: v)

/-- The states in which the loop of `Parse` on `args` reaches its condition
`i < argsLen`: the state on entry, and the state after each pass that ends
normally. -/
inductive Visits (ap : Parser) (args : List GoString) : State → Prop where
  | entry : Visits ap args (initState ap)
  | pass (s s1 : State) : Visits ap args s → s.i < args.length → body ap args s = .ok s1 →
      Visits ap args s1

/-- The text `"a" is not a command` that follows `invalid argument: ` in the
message of the command check (line 420). -/
def notACommandText (a : GoString) : GoString :=
  quote :: (a ++ quote :: str " is not a command")

/-- The text of a token before its first `=` (the whole token when it has none). -/
def beforeEquals (t : GoString) : GoString := t.takeWhile fun b => b != equalsSign

/-- The text of a token after its first `=` (empty when it has none). -/
def afterEquals (t : GoString) : GoString := (t.dropWhile fun b => b != equalsSign).drop 1

/-- The "token that assigns an option" of the statement on the last occurrence,
for a token that holds the value itself, read off the shape of the token alone:
`--name=value` gives `value` to `name`; in `-x=value` and `-f1...fk o=value` the
byte before the `=` abbreviates the option; in `-xvalue`, without `=`, the byte
after the dash does.  A token with nothing after its `=` holds no value. -/
def specAttached (ap : Parser) (t : GoString) : Option (GoString × GoString) :=
  match t with
  | d :: c :: b :: rest =>
      if d ≠ dash then none
      else if equalsSign ∈ t then
        if afterEquals t = [] then none
        else if c = dash then some ((beforeEquals t).drop 2, afterEquals t)
        else
          match (beforeEquals t).getLast? with
          | some o => (ap.optionsAbbr.get? (runeOf o)).map fun n => (n, afterEquals t)
          | none => none
      else if c = dash then none
      else (ap.optionsAbbr.get? (runeOf c)).map fun n => (n, b :: rest)
  | _ => none

/-- The "token pair that assigns an option" of the statement on the last
occurrence: the option that a token names when its value is the token after
it, which is the long form `--name` with `name` a declared option and not a
flag, and the short form `-x` with `x` an option abbreviation and not a flag
abbreviation. -/
def specSeparate (ap : Parser) (t : GoString) : Option GoString :=
  match t with
  | [d, x] =>
      if d = dash ∧ ap.flagsAbbr.get? (runeOf x) = none then ap.optionsAbbr.get? (runeOf x)
      else none
  | d :: c :: b :: rest =>
      if d = dash ∧ c = dash ∧ equalsSign ∉ t ∧ ap.flags.get? (b :: rest) = none ∧
          ap.options.get? (b :: rest) ≠ none then
        some (b :: rest)
      else none
  | _ => none

/-- The assignments `(option, value)` that the tokens of a sequence make, in
order, read off the tokens from left to right: a token that names an option
whose value is the next token takes that token with it, any other token stands
alone, and nothing is read after the terminator `--`. -/
def specAssignments (ap : Parser) : List GoString → List (GoString × GoString)
  | [] => []
  | [t] =>
      if t = terminator then []
      else
        match specSeparate ap t with
        | some _ => []
        | none => (specAttached ap t).toList
  | t :: v :: rest =>
      if t = terminator then []
      else
        match specSeparate ap t with
        | some n => (n, v) :: specAssignments ap rest
        | none => (specAttached ap t).toList ++ specAssignments ap (v :: rest)

/-- The tokens that follow the command: the sequence without its first token
when commands are registered and that token is one of them. -/
def specClassified (ap : Parser) : List GoString → List GoString
  | [] => []
  | a :: rest => if ap.commands.len ≠ 0 ∧ ap.commands.get? a ≠ none then rest else a :: rest

/-- The values that the assignments of a list give to the option `n`, in order. -/
def valuesOf (n : GoString) (as : List (GoString × GoString)) : List GoString :=
  (as.filter fun p => p.1 == n).map Prod.snd

/-- The values that the tokens of `args` assign to the option `n`, in order; the
last of them is the value of "the last token (pair) that assigned it". -/
def specAssignedValues (ap : Parser) (n : GoString) (args : List GoString) : List GoString :=
  valuesOf n (specAssignments ap (specClassified ap args))

/-! ## Sample registries -/

/-- The registry straight after `Init`. -/
def emptyRegistry : Parser := Init Parser.zero (str "Test") []

/-- The rune of an ASCII character. -/
def runeOfChar (c : Char) : Rune := (c.toNat : Int)

/-- A registry with the flag `verbose` (`-v`), the option `mode` (`-m`), which
allows `fast` and `slow` and defaults to `fast`, and the option `out` (`-o`),
which allows any value. -/
def sampleRegistry : Parser :=
  let p := (AddFlag emptyRegistry (str "verbose") [] (runeOfChar 'v')).1
  let p := (AddOption p (str "mode") [] (runeOfChar 'm') (str "fast") [str "fast", str "slow"]).1
  (AddOption p (str "out") [] (runeOfChar 'o') [] []).1

/-- The sample registry with the command `run` added. -/
def sampleWithCommand : Parser := (AddCommand sampleRegistry (str "run") []).1

/-- A registry whose only entry is a command named `--`. -/
def terminatorCommandRegistry : Parser := (AddCommand emptyRegistry terminator []).1

/-- A registry whose only entry is the option `n` with the abbreviation `=` and
the default `d`. -/
def equalsAbbrRegistry : Parser :=
  (AddOption emptyRegistry (str "n") [] (runeOfChar '=') (str "d") []).1

/-- A registry whose only entry is the option `n` with the abbreviation `-` and
the default `d`. -/
def dashAbbrRegistry : Parser :=
  (AddOption emptyRegistry (str "n") [] (runeOfChar '-') (str "d") []).1

/-- A registry whose only entry is a flag with the empty name, abbreviated `e`. -/
def emptyNameFlagRegistry : Parser := (AddFlag emptyRegistry [] [] (runeOfChar 'e')).1

/-- The registry of `TestParseFlags` (args_test.go, lines 13-17). -/
def flagsTestRegistry : Parser :=
  let p := (AddFlag emptyRegistry (str "flag01") [] 0).1
  let p := (AddFlag p (str "flag02") [] (runeOfChar 'f')).1
  let p := (AddFlag p (str "flag03") [] (runeOfChar 'F')).1
  (AddFlag p (str "flag04") [] 0).1

/-- A registry whose only entry is an option with the empty name and the
default `d`. -/
def emptyNameOptionRegistry : Parser := (AddOption emptyRegistry [] [] 0 (str "d") []).1

theorem getEntries_setEntries_self {κ ν : Type} [DecidableEq κ] (m : List (κ × ν)) (k : κ)
    (v : ν) : getEntries (setEntries m k v) k = some v := by
  induction m with
  | nil => simp [setEntries, getEntries]
  | cons e m ih =>
    obtain ⟨k1, v1⟩ := e
    by_cases h : k1 = k
    · simp [setEntries, getEntries, h]
    · simp [setEntries, getEntries, h, ih]

theorem getEntries_setEntries_ne {κ ν : Type} [DecidableEq κ] (m : List (κ × ν)) (k k2 : κ)
    (v : ν) (hne : k2 ≠ k) : getEntries (setEntries m k v) k2 = getEntries m k2 := by
  induction m with
  | nil =>
    have h : ¬ k = k2 := fun e => hne e.symm
    simp [setEntries, getEntries, h]
  | cons e m ih =>
    obtain ⟨k1, v1⟩ := e
    by_cases h : k1 = k
    · have h2 : ¬ k = k2 := fun e => hne e.symm
      have h3 : ¬ k1 = k2 := fun e => h2 (h ▸ e)
      simp [setEntries, getEntries, h, h2]
    · by_cases h4 : k1 = k2
      · subst h4
        simp [setEntries, getEntries, h]
      · simp [setEntries, getEntries, h, h4, ih]

theorem getEntries_eq_none {κ ν : Type} [DecidableEq κ] (m : List (κ × ν)) (k : κ) :
    getEntries m k = none ↔ k ∉ m.map Prod.fst := by
  induction m with
  | nil => simp [getEntries]
  | cons e m ih =>
    obtain ⟨k1, v1⟩ := e
    by_cases h : k1 = k
    · simp [getEntries, h]
    · have h2 : ¬ k = k1 := fun e => h e.symm
      simp [getEntries, h, h2, ih]

theorem getEntries_of_mem {κ ν : Type} [DecidableEq κ] (m : List (κ × ν)) (k : κ) (v : ν)
    (hnd : (m.map Prod.fst).Nodup) (hmem : (k, v) ∈ m) : getEntries m k = some v := by
  induction m with
  | nil => simp at hmem
  | cons e m ih =>
    obtain ⟨k1, v1⟩ := e
    simp only [List.map_cons, List.nodup_cons] at hnd
    rcases List.mem_cons.mp hmem with h | h
    · cases h
      simp [getEntries]
    · have hk : k ∈ m.map Prod.fst := List.mem_map.mpr ⟨(k, v), h, rfl⟩
      have hne : ¬ k1 = k := fun e => hnd.1 (e ▸ hk)
      simp [getEntries, hne, ih hnd.2 h]

theorem mem_of_getEntries {κ ν : Type} [DecidableEq κ] (m : List (κ × ν)) (k : κ) (v : ν)
    (h : getEntries m k = some v) : (k, v) ∈ m := by
  induction m with
  | nil => simp [getEntries] at h
  | cons e m ih =>
    obtain ⟨k1, v1⟩ := e
    by_cases hk : k1 = k
    · simp [getEntries, hk] at h
      simp [hk, h]
    · simp only [getEntries, hk, if_false] at h
      exact List.mem_cons_of_mem _ (ih h)

namespace GoMap

variable {κ ν : Type} [DecidableEq κ]

theorem ext_entries (m1 m2 : GoMap κ ν) (h : m1.entries = m2.entries) : m1 = m2 := by
  cases m1; cases m2; cases h; rfl

@[simp] theorem get?_empty (k : κ) : (empty : GoMap κ ν).get? k = none := rfl

@[simp] theorem get?_set_self (m : GoMap κ ν) (k : κ) (v : ν) : (m.set k v).get? k = some v :=
  getEntries_setEntries_self m.entries k v

theorem get?_set_ne (m : GoMap κ ν) (k k2 : κ) (v : ν) (hne : k2 ≠ k) :
    (m.set k v).get? k2 = m.get? k2 :=
  getEntries_setEntries_ne m.entries k k2 v hne

theorem get?_set (m : GoMap κ ν) (k k2 : κ) (v : ν) :
    (m.set k v).get? k2 = if k2 = k then some v else m.get? k2 := by
  by_cases h : k2 = k
  · subst h; simp
  · simp [h, get?_set_ne]

@[simp] theorem contains_empty (k : κ) : (empty : GoMap κ ν).contains k = false := rfl

theorem contains_eq_false (m : GoMap κ ν) (k : κ) : m.contains k = false ↔ m.get? k = none := by
  simp [contains]

theorem contains_eq_true (m : GoMap κ ν) (k : κ) : m.contains k = true ↔ m.get? k ≠ none := by
  simp [contains, Option.isSome_iff_ne_none]

theorem len_eq_zero (m : GoMap κ ν) : m.len = 0 ↔ ∀ k, m.get? k = none := by
  obtain ⟨l, hl⟩ := m
  cases l with
  | nil => simp [len, get?, getEntries]
  | cons e l =>
    obtain ⟨k1, v1⟩ := e
    constructor
    · intro h
      simp [len] at h
    · intro h
      have := h k1
      simp [get?, getEntries] at this

end GoMap

/-! ## Error messages -/

theorem isPrefixOf_append_self (p x : GoString) : p.isPrefixOf (p ++ x) = true := by
  induction p with
  | nil => simp
  | cons a p ih => simp [ih]

theorem isInvalidArgument_flagDoesNotExist (c : Byte) :
    (Error.flagDoesNotExist c).isInvalidArgument = true := by
  have h : str "invalid argument: flag " = str "invalid argument: " ++ str "flag " := by decide
  unfold Error.isInvalidArgument Error.flagDoesNotExist
  rw [h, List.append_assoc]
  exact isPrefixOf_append_self _ _

/-! ## The registry -/

theorem AddFlag_of_declared (ap : Parser) (name help : GoString) (abbr : Rune)
    (h : ap.flags.get? name ≠ none ∨ ap.options.get? name ≠ none) :
    AddFlag ap name help abbr = (ap, some (.duplicateName name)) := by
  have h2 : ¬ (ap.flags.contains name = false ∧ ap.options.contains name = false) := by
    rw [GoMap.contains_eq_false, GoMap.contains_eq_false]
    tauto
  simp [AddFlag, h2]

theorem AddOption_of_declared (ap : Parser) (name help : GoString) (abbr : Rune)
    (defaultsTo : GoString) (allowed : List GoString)
    (h : ap.flags.get? name ≠ none ∨ ap.options.get? name ≠ none) :
    AddOption ap name help abbr defaultsTo allowed = (ap, some (.duplicateName name)) := by
  have h2 : ¬ (ap.options.contains name = false ∧ ap.flags.contains name = false) := by
    rw [GoMap.contains_eq_false, GoMap.contains_eq_false]
    tauto
  simp [AddOption, h2]

theorem AddCommand_of_declared (ap : Parser) (name help : GoString)
    (h : ap.commands.get? name ≠ none) :
    AddCommand ap name help = (ap, some (.duplicateName name)) := by
  have h2 : ap.commands.contains name = true := (GoMap.contains_eq_true _ _).mpr h
  simp [AddCommand, h2]

/-- C8: registering a flag or an option under a name that is already a declared
flag or option, or a command under a name that is already a declared command,
returns the duplicate-argument error for that name and leaves the registry, so
all five of its maps, exactly as it was. -/
theorem duplicate_name_rejected_atomically (ap : Parser) (name help : GoString) (abbr : Rune)
    (defaultsTo : GoString) (allowed : List GoString) (cname chelp : GoString) :
    (ap.flags.get? name ≠ none ∨ ap.options.get? name ≠ none →
      AddFlag ap name help abbr = (ap, some (.duplicateName name)) ∧
      AddOption ap name help abbr defaultsTo allowed = (ap, some (.duplicateName name))) ∧
    (ap.commands.get? cname ≠ none →
      AddCommand ap cname chelp = (ap, some (.duplicateName cname))) :=
  ⟨fun hname => ⟨AddFlag_of_declared ap name help abbr hname,
     AddOption_of_declared ap name help abbr defaultsTo allowed hname⟩,
   fun hcmd => AddCommand_of_declared ap cname chelp hcmd⟩

theorem duplicate_name_rejected_atomically_witness :
    (sampleWithCommand.flags.get? (str "verbose") ≠ none ∨
      sampleWithCommand.options.get? (str "verbose") ≠ none) ∧
    sampleWithCommand.commands.get? (str "run") ≠ none ∧
    (AddFlag sampleWithCommand (str "verbose") (str "again") (runeOfChar 'w') =
      (sampleWithCommand, some (.duplicateName (str "verbose"))) ∧
    AddOption sampleWithCommand (str "verbose") (str "again") (runeOfChar 'w') (str "d") [] =
      (sampleWithCommand, some (.duplicateName (str "verbose")))) ∧
    AddCommand sampleWithCommand (str "run") (str "again") =
      (sampleWithCommand, some (.duplicateName (str "run"))) :=
  have h := duplicate_name_rejected_atomically sampleWithCommand (str "verbose") (str "again")
    (runeOfChar 'w') (str "d") [] (str "run") (str "again")
  ⟨by decide, by decide, h.1 (by decide), h.2 (by decide)⟩

/-- C9: `AddFlag` and `AddOption` with a fresh name and an abbreviation other
than `'\0'` that is already bound (to a flag or to an option) return the
duplicate-argument error for the abbreviation; the registry afterwards is the
old one with only the new long name added to `flags`, respectively `options`
(with its help, default and allowed values), so both abbreviation maps are
unchanged. -/
theorem abbreviation_collision_keeps_name (ap : Parser) (name help : GoString) (abbr : Rune)
    (defaultsTo : GoString) (allowed : List GoString)
    (hfl : ap.flags.get? name = none) (hop : ap.options.get? name = none)
    (habbr : abbr ≠ 0)
    (hbound : ap.flagsAbbr.get? abbr ≠ none ∨ ap.optionsAbbr.get? abbr ≠ none) :
    AddFlag ap name help abbr =
      ({ ap with flags := ap.flags.set name help }, some (.duplicateAbbr abbr)) ∧
    AddOption ap name help abbr defaultsTo allowed =
      ({ ap with options := ap.options.set name ⟨help, defaultsTo, allowed⟩ },
        some (.duplicateAbbr abbr)) ∧
    (AddFlag ap name help abbr).1.flags.get? name = some help ∧
    (AddOption ap name help abbr defaultsTo allowed).1.options.get? name =
      some ⟨help, defaultsTo, allowed⟩ ∧
    (AddFlag ap name help abbr).1.flagsAbbr = ap.flagsAbbr ∧
    (AddFlag ap name help abbr).1.optionsAbbr = ap.optionsAbbr ∧
    (AddOption ap name help abbr defaultsTo allowed).1.flagsAbbr = ap.flagsAbbr ∧
    (AddOption ap name help abbr defaultsTo allowed).1.optionsAbbr = ap.optionsAbbr := by
  have h1 : ap.flags.contains name = false := (GoMap.contains_eq_false _ _).mpr hfl
  have h2 : ap.options.contains name = false := (GoMap.contains_eq_false _ _).mpr hop
  have h3 : ¬ (ap.flagsAbbr.contains abbr = false ∧ ap.optionsAbbr.contains abbr = false) := by
    rw [GoMap.contains_eq_false, GoMap.contains_eq_false]
    tauto
  have h4 : ¬ (ap.optionsAbbr.contains abbr = false ∧ ap.flagsAbbr.contains abbr = false) :=
    fun h => h3 ⟨h.2, h.1⟩
  have hF : AddFlag ap name help abbr =
      ({ ap with flags := ap.flags.set name help }, some (.duplicateAbbr abbr)) := by
    simp [AddFlag, h1, h2, h3]
  have hO : AddOption ap name help abbr defaultsTo allowed =
      ({ ap with options := ap.options.set name ⟨help, defaultsTo, allowed⟩ },
        some (.duplicateAbbr abbr)) := by
    simp [AddOption, h1, h2, h4, habbr]
  refine ⟨hF, hO, ?_, ?_, ?_, ?_, ?_, ?_⟩ <;> simp [hF, hO]

theorem abbreviation_collision_keeps_name_witness :
    sampleRegistry.flags.get? (str "quiet") = none ∧
    sampleRegistry.options.get? (str "quiet") = none ∧
    runeOfChar 'v' ≠ 0 ∧
    (sampleRegistry.flagsAbbr.get? (runeOfChar 'v') ≠ none ∨
      sampleRegistry.optionsAbbr.get? (runeOfChar 'v') ≠ none) ∧
    (AddFlag sampleRegistry (str "quiet") [] (runeOfChar 'v')).2 =
      some (.duplicateAbbr (runeOfChar 'v')) ∧
    (AddFlag sampleRegistry (str "quiet") [] (runeOfChar 'v')).1.flags.get? (str "quiet") =
      some [] ∧
    (AddFlag sampleRegistry (str "quiet") [] (runeOfChar 'v')).1.flagsAbbr.get? (runeOfChar 'v') =
      some (str "verbose") :=
  have h := abbreviation_collision_keeps_name sampleRegistry (str "quiet") [] (runeOfChar 'v')
    (str "d") [] (by decide) (by decide) (by decide) (by decide)
  ⟨by decide, by decide, by decide, by decide, by rw [h.1], h.2.2.1, by rw [h.2.2.2.2.1]; decide⟩

/-- C10 (what the code does): the first `AddFlag` with abbreviation `'\0'` binds
`'\0'` in `flagsAbbr`, and a second flag registered with `'\0'` gets the
duplicate-argument error for that abbreviation. -/
theorem AddFlag_zero_abbreviation_collides :
    (AddFlag emptyRegistry (str "flag01") [] 0).2 = none ∧
    (AddFlag emptyRegistry (str "flag01") [] 0).1.flagsAbbr.get? 0 = some (str "flag01") ∧
    (AddFlag (AddFlag emptyRegistry (str "flag01") [] 0).1 (str "flag04") [] 0).2 =
      some (.duplicateAbbr 0) ∧
    (AddFlag (AddFlag emptyRegistry (str "flag01") [] 0).1 (str "flag04") [] 0).1.flagsAbbr.get? 0 =
      some (str "flag01") := by
  decide

/-! ## The scan loop -/

theorem loop_done (ap : Parser) (args : List GoString) (fuel : Nat) (s : State)
    (h : ¬ s.i < args.length) : loop ap args fuel s = some (.ok s.results) := by
  cases fuel <;> simp [loop, h]

theorem loop_succ (ap : Parser) (args : List GoString) (fuel : Nat) (s : State)
    (h : s.i < args.length) :
    loop ap args (fuel + 1) s =
      match body ap args s with
      | .ok s1 => loop ap args fuel s1
      | .err e => some (.err e)
      | .panic => some .panic := by
  simp [loop, h]

theorem loop_succ_ok (ap : Parser) (args : List GoString) (fuel : Nat) (s s1 : State)
    (h : s.i < args.length) (hb : body ap args s = .ok s1) :
    loop ap args (fuel + 1) s = loop ap args fuel s1 := by
  rw [loop_succ ap args fuel s h, hb]

theorem loop_succ_err (ap : Parser) (args : List GoString) (fuel : Nat) (s : State) (e : Error)
    (h : s.i < args.length) (hb : body ap args s = .err e) :
    loop ap args (fuel + 1) s = some (.err e) := by
  rw [loop_succ ap args fuel s h, hb]

/-- More passes do not change what the loop returns. -/
theorem loop_mono (ap : Parser) (args : List GoString) (fuel : Nat) :
    ∀ (s : State) (out : Outcome Results), loop ap args fuel s = some out →
      loop ap args (fuel + 1) s = some out := by
  induction fuel with
  | zero =>
    intro s out h
    by_cases hi : s.i < args.length
    · simp [loop, hi] at h
    · rw [loop_done _ _ _ _ hi] at h
      rw [loop_done _ _ _ _ hi, h]
  | succ n ih =>
    intro s out h
    by_cases hi : s.i < args.length
    · rw [loop_succ _ _ _ _ hi] at h
      rw [loop_succ _ _ _ _ hi]
      cases hb : body ap args s with
      | ok s1 =>
        rw [hb] at h
        exact ih s1 out h
      | err e => rw [hb] at h; exact h
      | panic => rw [hb] at h; exact h
    · rw [loop_done _ _ _ _ hi] at h
      rw [loop_done _ _ _ _ hi, h]

theorem loop_mono_add (ap : Parser) (args : List GoString) (fuel k : Nat) (s : State)
    (out : Outcome Results) (h : loop ap args fuel s = some out) :
    loop ap args (fuel + k) s = some out := by
  induction k with
  | zero => exact h
  | succ k ih => exact loop_mono ap args (fuel + k) s out ih

theorem loop_mono_le (ap : Parser) (args : List GoString) (f1 f2 : Nat) (hle : f1 ≤ f2)
    (s : State) (out : Outcome Results) (h : loop ap args f1 s = some out) :
    loop ap args f2 s = some out := by
  obtain ⟨k, rfl⟩ := Nat.exists_eq_add_of_le hle
  exact loop_mono_add ap args f1 k s out h

/-- What `Parse` returns does not depend on the bound on the passes. -/
theorem Returns_unique (ap : Parser) (args : List GoString) (o1 o2 : Outcome Results)
    (h1 : Returns ap args o1) (h2 : Returns ap args o2) : o1 = o2 := by
  obtain ⟨f1, h1⟩ := h1
  obtain ⟨f2, h2⟩ := h2
  have e1 := loop_mono_le ap args f1 (max f1 f2) (le_max_left _ _) _ o1 h1
  have e2 := loop_mono_le ap args f2 (max f1 f2) (le_max_right _ _) _ o2 h2
  rw [e1] at e2
  injection e2

/-- A pass that leaves the state as it is repeats forever. -/
theorem loop_stuck (ap : Parser) (args : List GoString) (s : State) (hi : s.i < args.length)
    (hb : body ap args s = .ok s) : ∀ fuel, loop ap args fuel s = none := by
  intro fuel
  induction fuel with
  | zero => simp [loop, hi]
  | succ n ih => rw [loop_succ_ok ap args n s s hi hb, ih]

/-- C1 (what the code does): with no option abbreviated `x`, the token `-x=v`
takes the branch of lines 436-454, whose `if found` has no `else`: the pass
changes neither the cursor nor anything else, and `Parse` never returns. -/
theorem Parse_diverges_on_unbound_short_option :
    Diverges emptyRegistry [str "-x=v"] ∧ Diverges sampleRegistry [str "--verbose", str "-x=v"] := by
  constructor
  · exact loop_stuck emptyRegistry [str "-x=v"] _ (by decide) (by decide)
  · intro fuel
    cases fuel with
    | zero => rfl
    | succ n =>
      have h1 : ParseFuel sampleRegistry [str "--verbose", str "-x=v"] (n + 1) =
          loop sampleRegistry [str "--verbose", str "-x=v"] n
            { i := 1, skipCommandCheck := false,
              results := (initResults sampleRegistry).setFlag (str "verbose") } :=
        loop_succ_ok _ _ _ _ _ (by decide) (by decide)
      rw [h1]
      exact loop_stuck _ _ _ (by decide) (by decide) n

/-! ## The results before the scan -/

theorem get?_foldl_set {κ α β : Type} [DecidableEq κ] (f : α → β) (l : List (κ × α)) :
    ∀ (m0 : GoMap κ β) (k : κ), (l.map Prod.fst).Nodup →
      (l.foldl (fun m kv => m.set kv.1 (f kv.2)) m0).get? k =
        match getEntries l k with
        | some a => some (f a)
        | none => m0.get? k := by
  induction l with
  | nil => intro m0 k _; simp [getEntries]
  | cons e l ih =>
    intro m0 k hnd
    obtain ⟨k1, a1⟩ := e
    simp only [List.map_cons, List.nodup_cons] at hnd
    rw [List.foldl_cons, ih _ k hnd.2]
    by_cases h : k1 = k
    · subst h
      have hn : getEntries l k1 = none := (getEntries_eq_none l k1).mpr hnd.1
      simp [getEntries, hn]
    · have h2 : k ≠ k1 := fun e => h e.symm
      simp only [getEntries, h, if_false]
      cases getEntries l k with
      | none => simp [GoMap.get?_set_ne _ _ _ _ h2]
      | some a => rfl

theorem initResults_Flag (ap : Parser) (k : GoString) :
    (initResults ap).Flag.get? k = if ap.flags.get? k = none then none else some false := by
  refine (get?_foldl_set (fun _ : GoString => false) ap.flags.entries GoMap.empty k
    ap.flags.nodup).trans ?_
  split <;> rename_i h <;> simp [GoMap.get?, h, GoMap.empty, getEntries]

theorem initResults_Option (ap : Parser) (k : GoString) :
    (initResults ap).Option.get? k = (ap.options.get? k).map (fun o => o.DefaultsTo) := by
  refine (get?_foldl_set (fun o : option => o.DefaultsTo) ap.options.entries GoMap.empty k
    ap.options.nodup).trans ?_
  split <;> rename_i h <;> simp [GoMap.get?, h, GoMap.empty, getEntries]

/-! ## Tokens that do not start with a dash -/

theorem commandCheck_eq_false (ap : Parser) (s : State) (h : s.pastCommandCheck ap) :
    (!s.skipCommandCheck && s.i == 0 && ap.commands.len != 0) = false := by
  rcases h with h | h | h <;> simp [h]

theorem body_positional (ap : Parser) (args : List GoString) (s : State) (cur : GoString)
    (hcur : args.get? s.i = some cur) (hpast : s.pastCommandCheck ap)
    (hd : cur.head? ≠ some dash) :
    body ap args s = .ok { s with results := s.results.addPositional cur, i := s.i + 1 } := by
  have hc := commandCheck_eq_false ap s hpast
  have ht : cur ≠ terminator := by
    intro e; subst e; simp [terminator] at hd
  unfold body
  rw [hcur]
  simp only [orPanic, hc, ht, if_false, Bool.false_eq_true]
  cases cur with
  | nil => simp [classify]
  | cons c0 rest =>
    have h0 : c0 ≠ dash := by
      intro e; subst e; simp at hd
    simp [classify, byteAt, parseTwo, orPanic, h0]

theorem body_commandCheck (ap : Parser) (args : List GoString) (s : State) (cur : GoString)
    (hcur : args.get? s.i = some cur) (hskip : s.skipCommandCheck = false) (hi : s.i = 0)
    (hlen : ap.commands.len ≠ 0) :
    body ap args s =
      match ap.commands.get? cur with
      | some _ => .ok { results := { s.results with Command := cur }, i := s.i + 1,
                        skipCommandCheck := true }
      | none => if ap.CommandRequired then .err (.notACommand cur)
                else .ok { s with skipCommandCheck := true } := by
  unfold body
  rw [hcur]
  simp [orPanic, hskip, hi, hlen]

theorem loop_positional (ap : Parser) (args : List GoString)
    (hargs : ∀ t ∈ args, t.head? ≠ some dash) (n : Nat) :
    ∀ s : State, s.pastCommandCheck ap → args.length - s.i ≤ n →
      loop ap args n s =
        some (.ok { s.results with Positional := s.results.Positional ++ args.drop s.i }) := by
  induction n with
  | zero =>
    intro s _ hn
    have hi : ¬ s.i < args.length := by omega
    rw [loop_done _ _ _ _ hi, List.drop_eq_nil_of_le (by omega)]
    simp
  | succ n ih =>
    intro s hpast hn
    by_cases hi : s.i < args.length
    · have hcur : args.get? s.i = some (args.get ⟨s.i, hi⟩) := List.get?_eq_get hi
      have hd := hargs _ (List.get_mem args s.i hi)
      rw [loop_succ_ok _ _ _ _ _ hi (body_positional ap args s _ hcur hpast hd)]
      rw [ih _ (Or.inr (Or.inl (Nat.succ_ne_zero _))) (by simp; omega)]
      have hdrop : args.drop s.i = args.get ⟨s.i, hi⟩ :: args.drop (s.i + 1) := by
        rw [List.get_eq_getElem]
        exact List.drop_eq_getElem_cons hi
      rw [hdrop]
      simp [Results.addPositional]
    · rw [loop_done _ _ _ _ hi, List.drop_eq_nil_of_le (by omega)]
      simp

theorem ParseFuel_without_dash (ap : Parser) (args : List GoString)
    (hargs : ∀ t ∈ args, t.head? ≠ some dash) (fuel : Nat) (hfuel : args.length + 1 ≤ fuel) :
    ParseFuel ap args fuel = some (expectedWithoutDash ap args) := by
  obtain ⟨n, rfl⟩ : ∃ n, fuel = n + 1 := ⟨fuel - 1, by omega⟩
  cases args with
  | nil => rfl
  | cons a rest =>
    have hn : rest.length + 1 ≤ n := by
      simp only [List.length_cons] at hfuel
      omega
    unfold ParseFuel
    by_cases hlen : ap.commands.len = 0
    · rw [loop_positional ap (a :: rest) hargs (n + 1) _ (Or.inr (Or.inr hlen))
        (by simp; omega)]
      simp [expectedWithoutDash, hlen, initResults, initState]
    · have hb := body_commandCheck ap (a :: rest) (initState ap) a rfl rfl rfl hlen
      rw [loop_succ _ _ _ _ (by simp [initState])]
      rw [hb]
      simp only [expectedWithoutDash, hlen, ne_eq, not_false_eq_true, if_true]
      cases hc : ap.commands.get? a with
      | some v =>
        simp only
        rw [loop_positional ap (a :: rest) hargs n _ (Or.inl rfl)
          (by simp only [List.length_cons, initState]; omega)]
        simp [initResults, initState]
      | none =>
        simp only
        by_cases hr : ap.CommandRequired = true
        · simp [hr]
        · simp only [hr, if_false, Bool.false_eq_true]
          rw [loop_positional ap (a :: rest) hargs n _ (Or.inl rfl)
            (by simp only [List.length_cons, initState]; omega)]
          simp [initResults, initState]

theorem expectedWithoutDash_ok (ap : Parser) (args : List GoString) (r : Results)
    (h : expectedWithoutDash ap args = .ok r) :
    r.Flag = (initResults ap).Flag ∧ r.Option = (initResults ap).Option := by
  cases args with
  | nil =>
    simp only [expectedWithoutDash, Outcome.ok.injEq] at h
    subst h
    exact ⟨rfl, rfl⟩
  | cons a rest =>
    simp only [expectedWithoutDash] at h
    split at h
    · split at h
      · simp only [Outcome.ok.injEq] at h
        subst h
        exact ⟨rfl, rfl⟩
      · split at h
        · cases h
        · simp only [Outcome.ok.injEq] at h
          subst h
          exact ⟨rfl, rfl⟩
    · simp only [Outcome.ok.injEq] at h
      subst h
      exact ⟨rfl, rfl⟩

/-- C2: on tokens none of which begins with `-` (the empty sequence included)
`Parse` returns, and whenever it returns results they map every declared flag
to `false` and every declared option to its `DefaultsTo`. -/
theorem defaults_without_dash_tokens (ap : Parser) (args : List GoString)
    (hargs : ∀ t ∈ args, t.head? ≠ some dash) :
    (∃ out, Returns ap args out) ∧
    ∀ r, Returns ap args (.ok r) →
      (∀ k, ap.flags.get? k ≠ none → r.Flag.get? k = some false) ∧
      (∀ k o, ap.options.get? k = some o → r.Option.get? k = some o.DefaultsTo) := by
  have hR : Returns ap args (expectedWithoutDash ap args) :=
    ⟨args.length + 1, ParseFuel_without_dash ap args hargs _ (Nat.le_refl _)⟩
  refine ⟨⟨_, hR⟩, ?_⟩
  intro r hr
  have he := Returns_unique ap args _ _ hR hr
  obtain ⟨hF, hO⟩ := expectedWithoutDash_ok ap args r he
  constructor
  · intro k hk
    rw [hF, initResults_Flag]
    simp [hk]
  · intro k o hk
    rw [hO, initResults_Option, hk]
    rfl

theorem defaults_without_dash_tokens_witness :
    (∀ t ∈ [str "run", str "file"], t.head? ≠ some dash) ∧
    Returns sampleWithCommand [str "run", str "file"]
      (.ok { initResults sampleWithCommand with
             Command := str "run", Positional := [str "file"] }) ∧
    ({ initResults sampleWithCommand with
       Command := str "run", Positional := [str "file"] } : Results).Flag.get? (str "verbose") =
      some false ∧
    ({ initResults sampleWithCommand with
       Command := str "run", Positional := [str "file"] } : Results).Option.get? (str "mode") =
      some (str "fast") :=
  have h := (defaults_without_dash_tokens sampleWithCommand [str "run", str "file"]
    (by decide)).2 _ ⟨3, by decide⟩
  ⟨by decide, ⟨3, by decide⟩, h.1 (str "verbose") (by decide),
   h.2 (str "mode") ⟨[], str "fast", [str "fast", str "slow"]⟩ (by decide)⟩

/-! ## How a pass moves the cursor -/

theorem byteAt_zero (t : GoString) : byteAt t 0 = t.head? := by
  cases t <;> simp [byteAt]

theorem parseShort_cursor (ap : Parser) (cur : GoString) (s s1 : State)
    (h : parseShort ap cur s = .ok s1) : s1.i = s.i ∨ s1.i = s.i + 1 := by
  unfold parseShort at h
  simp only [orPanic] at h
  repeat' split at h
  all_goals (cases h <;> simp)

theorem parseLong_cursor (ap : Parser) (args : List GoString) (cur : GoString) (s s1 : State)
    (h : parseLong ap args cur s = .ok s1) :
    s1.i = s.i + 1 ∨
      (s1.i = s.i + 2 ∧ ∃ next, args.get? (s.i + 1) = some next ∧ next.head? ≠ some dash) := by
  unfold parseLong at h
  simp only [orPanic] at h
  repeat' split at h
  all_goals (cases h <;> simp_all [byteAt_zero])

theorem parseTwo_cursor (ap : Parser) (args : List GoString) (cur : GoString) (s s1 : State)
    (h : parseTwo ap args cur s = .ok s1) :
    s1.i = s.i + 1 ∨
      (s1.i = s.i + 2 ∧ ∃ next, args.get? (s.i + 1) = some next ∧ next.head? ≠ some dash) := by
  unfold parseTwo at h
  simp only [orPanic] at h
  repeat' split at h
  all_goals (cases h <;> simp_all [byteAt_zero])

theorem classify_cursor (ap : Parser) (args : List GoString) (cur : GoString) (s s1 : State)
    (h : classify ap args cur s = .ok s1) :
    s1.i = s.i ∨ s1.i = s.i + 1 ∨
      (s1.i = s.i + 2 ∧ ∃ next, args.get? (s.i + 1) = some next ∧ next.head? ≠ some dash) := by
  unfold classify at h
  simp only [orPanic] at h
  repeat' split at h
  · rcases parseShort_cursor ap cur s s1 h with h1 | h1
    · exact Or.inl h1
    · exact Or.inr (Or.inl h1)
  · exact Or.inr (parseLong_cursor ap args cur s s1 h)
  · cases h
  · cases h; simp
  · cases h
  · exact Or.inr (parseTwo_cursor ap args cur s s1 h)
  · cases h; simp

theorem body_of_past (ap : Parser) (args : List GoString) (s : State) (cur : GoString)
    (hcur : args.get? s.i = some cur) (hpast : s.pastCommandCheck ap) :
    body ap args s =
      if cur = terminator then
        .ok { s with
              results := { s.results with
                           Positional := s.results.Positional ++ args.drop (s.i + 1) },
              i := args.length }
      else classify ap args cur s := by
  unfold body
  rw [hcur]
  simp only [orPanic, commandCheck_eq_false ap s hpast, if_false, Bool.false_eq_true]

/-- The classification of a token reads the token list only through the next
token and through the test `i + 1 < argsLen`. -/
theorem classify_congr (ap : Parser) (args1 args2 : List GoString) (cur : GoString) (s : State)
    (hnext : args1.get? (s.i + 1) = args2.get? (s.i + 1))
    (hlt : s.i + 1 < args1.length ↔ s.i + 1 < args2.length) :
    classify ap args1 cur s = classify ap args2 cur s := by
  unfold classify parseLong parseTwo
  simp only [hnext, hlt]

/-! ## The terminator `--` -/

theorem get?_append_cons_le (pre post : List GoString) (x : GoString) :
    ∀ i, i ≤ pre.length → (pre ++ x :: post).get? i = (pre ++ [x]).get? i := by
  induction pre with
  | nil =>
    intro i hi
    have : i = 0 := by simpa using hi
    subst this
    rfl
  | cons a pre ih =>
    intro i hi
    cases i with
    | zero => rfl
    | succ j =>
      simp only [List.cons_append, List.get?_cons_succ]
      exact ih j (by simpa using hi)

theorem get?_append_singleton_length (pre : List GoString) (x : GoString) :
    (pre ++ [x]).get? pre.length = some x := by
  induction pre with
  | nil => rfl
  | cons a pre ih => simp [ih]

theorem not_pastCommandCheck (ap : Parser) (s : State) (h : ¬ s.pastCommandCheck ap) :
    s.skipCommandCheck = false ∧ s.i = 0 ∧ ap.commands.len ≠ 0 := by
  unfold State.pastCommandCheck at h
  push_neg at h
  exact ⟨by simpa using h.1, h.2.1, h.2.2⟩

theorem loop_terminator (ap : Parser) (pre post : List GoString)
    (hcmd : pre = [] → ap.commands.get? terminator = none) (fuel : Nat) :
    ∀ s : State, s.i ≤ pre.length →
      loop ap (pre ++ terminator :: post) fuel s =
        (loop ap (pre ++ [terminator]) fuel s).map (appendPositional post) := by
  induction fuel with
  | zero =>
    intro s hs
    have hA : s.i < (pre ++ [terminator]).length := by simp; omega
    have hB : s.i < (pre ++ terminator :: post).length := by simp; omega
    simp only [loop, hA, hB, if_true]
    rfl
  | succ n ih =>
    intro s hs
    have hA : s.i < (pre ++ [terminator]).length := by simp; omega
    have hB : s.i < (pre ++ terminator :: post).length := by simp; omega
    have hget := get?_append_cons_le pre post terminator s.i hs
    have hcurA : (pre ++ [terminator]).get? s.i = some ((pre ++ [terminator]).get ⟨s.i, hA⟩) :=
      List.get?_eq_get hA
    generalize (pre ++ [terminator]).get ⟨s.i, hA⟩ = cur at hcurA
    have hcurB : (pre ++ terminator :: post).get? s.i = some cur := by rw [hget, hcurA]
    rw [loop_succ _ _ _ _ hA, loop_succ _ _ _ _ hB]
    by_cases hpast : s.pastCommandCheck ap
    · rw [body_of_past ap _ s cur hcurA hpast, body_of_past ap _ s cur hcurB hpast]
      by_cases ht : cur = terminator
      · simp only [ht, if_true]
        rw [loop_done _ _ _ _ (by simp), loop_done _ _ _ _ (by simp)]
        have hdrop : List.drop (s.i + 1) (pre ++ terminator :: post) =
            List.drop (s.i + 1) (pre ++ [terminator]) ++ post := by
          have e : pre ++ terminator :: post = (pre ++ [terminator]) ++ post := by simp
          rw [e, List.drop_append_of_le_length (by simp; omega)]
        simp [appendPositional, hdrop]
      · have hlt : s.i < pre.length := by
          rcases Nat.lt_or_ge s.i pre.length with h | h
          · exact h
          · have e : s.i = pre.length := Nat.le_antisymm hs h
            rw [e, get?_append_singleton_length] at hcurA
            exact absurd (Option.some.inj hcurA).symm ht
        simp only [ht, if_false]
        have hnext := get?_append_cons_le pre post terminator (s.i + 1) hlt
        rw [classify_congr ap (pre ++ terminator :: post) (pre ++ [terminator]) cur s hnext
          (by simp; omega)]
        cases hc : classify ap (pre ++ [terminator]) cur s with
        | ok s1 =>
          simp only
          apply ih
          rcases classify_cursor ap _ cur s s1 hc with h1 | h1 | ⟨h1, next, hn, hd⟩
          · omega
          · omega
          · rcases Nat.lt_or_ge (s.i + 1) pre.length with h | h
            · omega
            · have e : s.i + 1 = pre.length := by omega
              rw [e, get?_append_singleton_length] at hn
              cases hn
              simp [terminator] at hd
        | err e => rfl
        | panic => rfl
    · obtain ⟨hskip, hi0, hlen⟩ := not_pastCommandCheck ap s hpast
      rw [body_commandCheck ap _ s cur hcurA hskip hi0 hlen,
        body_commandCheck ap _ s cur hcurB hskip hi0 hlen]
      cases hc : ap.commands.get? cur with
      | some v =>
        simp only
        apply ih
        simp only [hi0]
        cases pre with
        | nil =>
          have e : cur = terminator := by
            rw [hi0] at hcurA
            simpa using hcurA.symm
          rw [e, hcmd rfl] at hc
          cases hc
        | cons a pre => simp
      | none =>
        simp only
        by_cases hr : ap.CommandRequired = true
        · simp [hr, appendPositional]
        · simp only [hr, if_false, Bool.false_eq_true]
          exact ih _ hs

theorem ParseFuel_terminator (ap : Parser) (pre post : List GoString)
    (hcmd : pre = [] → ap.commands.get? terminator = none) (fuel : Nat) :
    ParseFuel ap (pre ++ [terminator] ++ post) fuel =
      (ParseFuel ap (pre ++ [terminator]) fuel).map (appendPositional post) := by
  have e : pre ++ [terminator] ++ post = pre ++ terminator :: post := by simp
  rw [e]
  exact loop_terminator ap pre post hcmd fuel _ (Nat.zero_le _)

/-- C3 (as the code has it): unless `pre` is empty and `--` is a declared
command, `Parse` returns results on `pre ++ ["--"] ++ post` exactly when it
does on `pre ++ ["--"]`; the two results have the same flags, options and
command, and the positional list of the first is that of the second followed
by `post`. -/
theorem terminator_passes_rest (ap : Parser) (pre post : List GoString)
    (hcmd : pre = [] → ap.commands.get? terminator = none) :
    (∀ r0, Returns ap (pre ++ [terminator]) (.ok r0) →
      Returns ap (pre ++ [terminator] ++ post)
        (.ok { r0 with Positional := r0.Positional ++ post })) ∧
    (∀ r, Returns ap (pre ++ [terminator] ++ post) (.ok r) →
      ∃ r0, Returns ap (pre ++ [terminator]) (.ok r0) ∧ r.Flag = r0.Flag ∧
        r.Option = r0.Option ∧ r.Command = r0.Command ∧
        r.Positional = r0.Positional ++ post) := by
  constructor
  · rintro r0 ⟨fuel, h⟩
    refine ⟨fuel, ?_⟩
    rw [ParseFuel_terminator ap pre post hcmd fuel, h]
    rfl
  · rintro r ⟨fuel, h⟩
    rw [ParseFuel_terminator ap pre post hcmd fuel] at h
    cases h0 : ParseFuel ap (pre ++ [terminator]) fuel with
    | none => rw [h0] at h; cases h
    | some out =>
      rw [h0] at h
      cases out with
      | ok r0 =>
        simp only [Option.map_some', appendPositional, Option.some.injEq,
          Outcome.ok.injEq] at h
        subst h
        exact ⟨r0, ⟨fuel, h0⟩, rfl, rfl, rfl, rfl⟩
      | err e => simp [appendPositional] at h
      | panic => simp [appendPositional] at h

theorem terminator_passes_rest_witness :
    ([str "--verbose"] = [] → sampleRegistry.commands.get? terminator = none) ∧
    Returns sampleRegistry ([str "--verbose"] ++ [terminator])
      (.ok ((initResults sampleRegistry).setFlag (str "verbose"))) ∧
    Returns sampleRegistry ([str "--verbose"] ++ [terminator] ++ [str "-x=v", str "--mode"])
      (.ok { (initResults sampleRegistry).setFlag (str "verbose") with
             Positional := [] ++ [str "-x=v", str "--mode"] }) :=
  ⟨(fun h => by cases h), ⟨2, by decide⟩,
   (terminator_passes_rest sampleRegistry [str "--verbose"] [str "-x=v", str "--mode"]
     (fun h => by cases h)).1 _ ⟨2, by decide⟩⟩

/-- C3 fails when `--` is itself a declared command: as the first token it is
taken by the command check, so `["--"]` parses to the command `--`, while in
`["--", "-z"]` the token after it is classified and rejected. -/
theorem terminator_command_counterexample :
    Returns terminatorCommandRegistry ([] ++ [terminator])
      (.ok { initResults terminatorCommandRegistry with Command := terminator }) ∧
    Returns terminatorCommandRegistry ([] ++ [terminator] ++ [str "-z"])
      (.err (.invalidArgumentAbbr (byteOf 'z'))) ∧
    ¬ ∃ r, Returns terminatorCommandRegistry ([] ++ [terminator] ++ [str "-z"]) (.ok r) := by
  have h2 : Returns terminatorCommandRegistry ([] ++ [terminator] ++ [str "-z"])
      (.err (.invalidArgumentAbbr (byteOf 'z'))) := ⟨2, by decide⟩
  refine ⟨⟨1, by decide⟩, h2, ?_⟩
  rintro ⟨r, hr⟩
  cases Returns_unique _ _ _ _ h2 hr

/-! ## Strings of a given shape -/

theorem IndexRune_cons (b : Byte) (t : GoString) (c : Byte) :
    IndexRune (b :: t) c =
      if b = c then 0 else if IndexRune t c = -1 then -1 else IndexRune t c + 1 := rfl

theorem IndexRune_of_not_mem (t : GoString) (c : Byte) (h : c ∉ t) : IndexRune t c = -1 := by
  induction t with
  | nil => rfl
  | cons b t ih =>
    simp only [List.mem_cons, not_or] at h
    have hb : ¬ b = c := fun e => h.1 e.symm
    simp [IndexRune, hb, ih h.2]

theorem IndexRune_append_cons (a b : GoString) (c : Byte) (h : c ∉ a) :
    IndexRune (a ++ c :: b) c = (a.length : Int) := by
  induction a with
  | nil => simp [IndexRune]
  | cons b0 a ih =>
    simp only [List.mem_cons, not_or] at h
    have hb : ¬ b0 = c := fun e => h.1 e.symm
    have hne : ¬ ((a.length : Int) = -1) := by omega
    rw [List.cons_append, IndexRune_cons, if_neg hb, ih h.2, if_neg hne, List.length_cons]
    push_cast
    rfl

theorem isAllowedOptionValue_iff (ap : Parser) (n v : GoString) (o : option)
    (ho : ap.options.get? n = some o) :
    isAllowedOptionValue ap n v = true ↔ (o.Allowed = [] ∨ v ∈ o.Allowed) := by
  unfold isAllowedOptionValue
  rw [ho]
  cases hA : o.Allowed with
  | nil => simp [hA]
  | cons a l =>
    simp only [Option.getD_some, hA, List.length_cons, ne_eq, Nat.add_one_ne_zero,
      not_false_eq_true, if_true, List.any_eq_true, decide_eq_true_eq, false_or]
    constructor
    · rintro ⟨w, hw, rfl⟩
      exact Or.inr hw
    · intro hv
      rcases hv with h | h
      · cases h
      · exact ⟨v, h, rfl⟩

theorem isAllowedOptionValue_of_undeclared (ap : Parser) (n v : GoString)
    (ho : ap.options.get? n = none) : isAllowedOptionValue ap n v = true := by
  simp [isAllowedOptionValue, ho, option.zero]

theorem slice_two_length (n rest : GoString) (a b : Byte) :
    slice (a :: b :: (n ++ rest)) 2 ((n.length + 2 : Nat) : Int) = some n := by
  have h : (2 : Int) ≤ ((n.length + 2 : Nat) : Int) ∧
      ((n.length + 2 : Nat) : Int) ≤ ((a :: b :: (n ++ rest)).length : Int) := by
    simp only [List.length_cons, List.length_append]
    omega
  have e2 : (2 : Int).toNat = 2 := rfl
  have et : List.take (n.length + 2) (a :: b :: (n ++ rest)) = a :: b :: n := by
    simp [List.take_append_eq_append_take]
  unfold slice
  rw [if_pos ⟨by decide, h.1, h.2⟩, Int.toNat_ofNat, e2, et]
  rfl

theorem sliceFrom_after (pre v : GoString) :
    sliceFrom (pre ++ v) (pre.length : Int) = some v := by
  unfold sliceFrom
  rw [if_pos ⟨by omega, by simp⟩]
  simp

theorem classify_to_parseLong (ap : Parser) (args : List GoString) (s : State) (c : Byte)
    (rest : GoString) :
    classify ap args (dash :: dash :: c :: rest) s =
      parseLong ap args (dash :: dash :: c :: rest) s := by
  simp [classify, byteAt, orPanic]

theorem classify_to_parseShort (ap : Parser) (args : List GoString) (s : State) (x c : Byte)
    (rest : GoString) (hx : x ≠ dash) :
    classify ap args (dash :: x :: c :: rest) s = parseShort ap (dash :: x :: c :: rest) s := by
  simp [classify, byteAt, orPanic, hx]

theorem classify_to_parseTwo (ap : Parser) (args : List GoString) (s : State) (a b : Byte) :
    classify ap args [a, b] s = parseTwo ap args [a, b] s := by
  simp [classify]

/-! ## Single tokens that carry an option value -/

theorem parseLong_equals (ap : Parser) (args : List GoString) (s : State)
    (n v : GoString) (hne : equalsSign ∉ n) (hv : v ≠ []) :
    parseLong ap args (dash :: dash :: (n ++ equalsSign :: v)) s =
      if isAllowedOptionValue ap n v then
        .ok { s with results := s.results.setOption n v, i := s.i + 1 }
      else .err (.invalidValue n v) := by
  have hidx : IndexRune (dash :: dash :: (n ++ equalsSign :: v)) equalsSign =
      ((n.length + 2 : Nat) : Int) := by
    have h := IndexRune_append_cons (dash :: dash :: n) v equalsSign
      (by simp [hne]; decide)
    simpa using h
  have hvl : 0 < v.length := List.length_pos.mpr hv
  have hsl := slice_two_length n (equalsSign :: v) dash dash
  have hsf : sliceFrom (dash :: dash :: (n ++ equalsSign :: v)) (((n.length + 2 : Nat) : Int) + 1)
      = some v := by
    have h := sliceFrom_after (dash :: dash :: (n ++ [equalsSign])) v
    simpa using h
  have h1 : ((n.length + 2 : Nat) : Int) ≠ -1 := by omega
  have h2 : ((n.length + 2 : Nat) : Int) + 1 <
      ((dash :: dash :: (n ++ equalsSign :: v)).length : Int) := by
    simp only [List.length_cons, List.length_append]
    omega
  unfold parseLong
  simp only [hidx, h1, ne_eq, not_false_eq_true, if_true, hsl, orPanic, h2, hsf]

/-! ## The invariant of the registry -/

theorem Invariant_Init (ap : Parser) (name description : GoString) :
    (Init ap name description).Invariant := by
  refine ⟨?_, ?_, ?_, ?_⟩ <;> simp [Init]

theorem Invariant_AddFlag (ap : Parser) (name help : GoString) (abbr : Rune)
    (h : ap.Invariant) : (AddFlag ap name help abbr).1.Invariant := by
  obtain ⟨h1, h2, h3, h4⟩ := h
  unfold AddFlag
  by_cases hn : (!ap.flags.contains name && !ap.options.contains name) = true
  · have hn1 : ap.flags.get? name = none := by
      simp only [Bool.and_eq_true, Bool.not_eq_true', GoMap.contains_eq_false] at hn
      exact hn.1
    have hn2 : ap.options.get? name = none := by
      simp only [Bool.and_eq_true, Bool.not_eq_true', GoMap.contains_eq_false] at hn
      exact hn.2
    have hflags : ∀ n, ap.flags.get? n ≠ none → (ap.flags.set name help).get? n ≠ none := by
      intro n hne
      rw [GoMap.get?_set]
      split
      · simp
      · exact hne
    have hflags1 : ∀ n, (ap.flags.set name help).get? n ≠ none → ap.options.get? n = none := by
      intro n hne
      rw [GoMap.get?_set] at hne
      split at hne
      · rename_i e; rw [e]; exact hn2
      · exact h1 n hne
    rw [if_pos hn]
    by_cases ha : (!ap.flagsAbbr.contains abbr && !ap.optionsAbbr.contains abbr) = true
    · have ha2 : ap.optionsAbbr.get? abbr = none := by
        simp only [Bool.and_eq_true, Bool.not_eq_true', GoMap.contains_eq_false] at ha
        exact ha.2
      simp only [ha, if_true]
      refine ⟨hflags1, ?_, ?_, h4⟩
      · intro c hc
        rw [GoMap.get?_set] at hc
        split at hc
        · rename_i e; rw [e]; exact ha2
        · exact h2 c hc
      · intro c n hc
        rw [GoMap.get?_set] at hc
        split at hc
        · cases hc
          simp
        · exact hflags n (h3 c n hc)
    · simp only [ha, if_false, Bool.false_eq_true]
      exact ⟨hflags1, h2, fun c n hc => hflags n (h3 c n hc), h4⟩
  · rw [if_neg hn]
    exact ⟨h1, h2, h3, h4⟩

theorem Invariant_AddOption (ap : Parser) (name help : GoString) (abbr : Rune)
    (defaultsTo : GoString) (allowed : List GoString)
    (h : ap.Invariant) : (AddOption ap name help abbr defaultsTo allowed).1.Invariant := by
  obtain ⟨h1, h2, h3, h4⟩ := h
  unfold AddOption
  by_cases hn : (!ap.options.contains name && !ap.flags.contains name) = true
  · have hn1 : ap.flags.get? name = none := by
      simp only [Bool.and_eq_true, Bool.not_eq_true', GoMap.contains_eq_false] at hn
      exact hn.2
    have hopts : ∀ n, ap.options.get? n ≠ none →
        (ap.options.set name ⟨help, defaultsTo, allowed⟩).get? n ≠ none := by
      intro n hne
      rw [GoMap.get?_set]
      split
      · simp
      · exact hne
    have hopts1 : ∀ n, ap.flags.get? n ≠ none →
        (ap.options.set name ⟨help, defaultsTo, allowed⟩).get? n = none := by
      intro n hne
      rw [GoMap.get?_set]
      split
      · rename_i e; rw [e] at hne; exact absurd hn1 hne
      · exact h1 n hne
    rw [if_pos hn]
    by_cases h0 : abbr ≠ 0
    · rw [if_pos h0]
      by_cases ha : (!ap.optionsAbbr.contains abbr && !ap.flagsAbbr.contains abbr) = true
      · have ha2 : ap.flagsAbbr.get? abbr = none := by
          simp only [Bool.and_eq_true, Bool.not_eq_true', GoMap.contains_eq_false] at ha
          exact ha.2
        simp only [ha, if_true]
        refine ⟨hopts1, ?_, h3, ?_⟩
        · intro c hc
          rw [GoMap.get?_set]
          split
          · rename_i e; rw [e] at hc; exact absurd ha2 hc
          · exact h2 c hc
        · intro c n hc
          rw [GoMap.get?_set] at hc
          split at hc
          · cases hc
            simp
          · exact hopts n (h4 c n hc)
      · simp only [ha, if_false, Bool.false_eq_true]
        exact ⟨hopts1, h2, h3, fun c n hc => hopts n (h4 c n hc)⟩
    · rw [if_neg h0]
      exact ⟨hopts1, h2, h3, fun c n hc => hopts n (h4 c n hc)⟩
  · rw [if_neg hn]
    exact ⟨h1, h2, h3, h4⟩

theorem Invariant_AddCommand (ap : Parser) (name help : GoString)
    (h : ap.Invariant) : (AddCommand ap name help).1.Invariant := by
  unfold AddCommand
  split
  · exact h
  · exact h

theorem Invariant_of_Reachable (ap : Parser) (h : Reachable ap) : ap.Invariant := by
  induction h with
  | init ap name description => exact Invariant_Init ap name description
  | addFlag ap name help abbr _ ih => exact Invariant_AddFlag ap name help abbr ih
  | addOption ap name help abbr d al _ ih => exact Invariant_AddOption ap name help abbr d al ih
  | addCommand ap name help _ ih => exact Invariant_AddCommand ap name help ih
  | setCommandRequired ap b _ ih => exact ih

/-! ## Tokens that name an option -/

theorem sliceFrom_two (a b : Byte) (n : GoString) : sliceFrom (a :: b :: n) 2 = some n := by
  have e2 : (2 : Int).toNat = 2 := rfl
  unfold sliceFrom
  rw [if_pos ⟨by decide, by simp only [List.length_cons]; omega⟩, e2]
  rfl

theorem sliceFrom_three (a b c : Byte) (n : GoString) :
    sliceFrom (a :: b :: c :: n) 3 = some n := by
  have e3 : (3 : Int).toNat = 3 := rfl
  unfold sliceFrom
  rw [if_pos ⟨by decide, by simp only [List.length_cons]; omega⟩, e3]
  rfl

theorem byteAt_one (a b : Byte) (t : GoString) : byteAt (a :: b :: t) 1 = some b := by
  have e1 : (1 : Int).toNat = 1 := rfl
  unfold byteAt
  rw [if_pos (by decide), e1]
  rfl

theorem parseLong_name (ap : Parser) (args : List GoString) (s : State) (n : GoString)
    (o : option) (hne : equalsSign ∉ n) (hfl : ap.flags.get? n = none)
    (hop : ap.options.get? n = some o) :
    parseLong ap args (dash :: dash :: n) s =
      if s.i + 1 < args.length then
        orPanic (args.get? (s.i + 1)) fun next =>
        if next.length = 0 then
          .ok { s with results := s.results.setOption n next, i := s.i + 2 }
        else
          orPanic (byteAt next 0) fun n0 =>
          if n0 ≠ dash then
            if isAllowedOptionValue ap n next then
              .ok { s with results := s.results.setOption n next, i := s.i + 2 }
            else .err (.invalidValue n next)
          else .err (.missingValue n)
      else .err (.missingValue n) := by
  have hidx : IndexRune (dash :: dash :: n) equalsSign = -1 :=
    IndexRune_of_not_mem _ _ (by simp [hne]; decide)
  unfold parseLong
  simp only [hidx, ne_eq, not_true_eq_false, if_false, sliceFrom_two, orPanic, hfl, hop]

theorem parseLong_value (ap : Parser) (args : List GoString) (s : State) (n v : GoString)
    (o : option) (hne : equalsSign ∉ n) (hfl : ap.flags.get? n = none)
    (hop : ap.options.get? n = some o) (hnext : args.get? (s.i + 1) = some v)
    (hv : v ≠ []) (hd : v.head? ≠ some dash) :
    parseLong ap args (dash :: dash :: n) s =
      if isAllowedOptionValue ap n v then
        .ok { s with results := s.results.setOption n v, i := s.i + 2 }
      else .err (.invalidValue n v) := by
  have hlt : s.i + 1 < args.length := (List.get?_eq_some.mp hnext).1
  rw [parseLong_name ap args s n o hne hfl hop, if_pos hlt, hnext]
  cases v with
  | nil => exact absurd rfl hv
  | cons c w =>
    have hc : c ≠ dash := by
      intro e; subst e; simp at hd
    simp [orPanic, byteAt_zero, hc]

theorem parseLong_missing (ap : Parser) (args : List GoString) (s : State) (n : GoString)
    (o : option) (hne : equalsSign ∉ n) (hfl : ap.flags.get? n = none)
    (hop : ap.options.get? n = some o)
    (hnext : ∀ t, args.get? (s.i + 1) = some t → t.head? = some dash) :
    parseLong ap args (dash :: dash :: n) s = .err (.missingValue n) := by
  rw [parseLong_name ap args s n o hne hfl hop]
  by_cases hlt : s.i + 1 < args.length
  · rw [if_pos hlt]
    have hg : args.get? (s.i + 1) = some (args.get ⟨s.i + 1, hlt⟩) := List.get?_eq_get hlt
    generalize args.get ⟨s.i + 1, hlt⟩ = t at hg
    have ht := hnext t hg
    rw [hg]
    cases t with
    | nil => simp at ht
    | cons c w =>
      have hc : c = dash := by simpa using ht
      simp [orPanic, byteAt_zero, hc]
  · rw [if_neg hlt]

theorem parseLong_equals_empty (ap : Parser) (args : List GoString) (s : State)
    (n : GoString) (hne : equalsSign ∉ n) :
    parseLong ap args (dash :: dash :: (n ++ [equalsSign])) s = .err (.missingValue n) := by
  have hidx : IndexRune (dash :: dash :: (n ++ [equalsSign])) equalsSign =
      ((n.length + 2 : Nat) : Int) := by
    have h := IndexRune_append_cons (dash :: dash :: n) [] equalsSign
      (by simp [hne]; decide)
    simpa using h
  have hsl := slice_two_length n [equalsSign] dash dash
  have h1 : ((n.length + 2 : Nat) : Int) ≠ -1 := by omega
  have h2 : ¬ (((n.length + 2 : Nat) : Int) + 1 <
      ((dash :: dash :: (n ++ [equalsSign])).length : Int)) := by
    simp only [List.length_cons, List.length_append, List.length_nil]
    omega
  unfold parseLong
  simp only [hidx, h1, ne_eq, not_false_eq_true, if_true, hsl, orPanic, h2, if_false]

theorem parseTwo_option (ap : Parser) (args : List GoString) (s : State) (x : Byte)
    (n : GoString) (hfl : ap.flagsAbbr.get? (runeOf x) = none)
    (hop : ap.optionsAbbr.get? (runeOf x) = some n) :
    parseTwo ap args [dash, x] s =
      if s.i + 1 < args.length then
        orPanic (args.get? (s.i + 1)) fun next =>
        if next.length = 0 then
          .ok { s with results := s.results.setOption n next, i := s.i + 2 }
        else
          orPanic (byteAt next 0) fun n0 =>
          if n0 ≠ dash then
            .ok { s with results := s.results.setOption n next, i := s.i + 2 }
          else .err (.missingValue [dash, x])
      else .err (.missingValue [dash, x]) := by
  unfold parseTwo
  simp only [byteAt_zero, List.head?_cons, orPanic, if_true, byteAt_one, hfl, hop]

theorem parseTwo_value (ap : Parser) (args : List GoString) (s : State) (x : Byte)
    (n v : GoString) (hfl : ap.flagsAbbr.get? (runeOf x) = none)
    (hop : ap.optionsAbbr.get? (runeOf x) = some n) (hnext : args.get? (s.i + 1) = some v)
    (hd : v.head? ≠ some dash) :
    parseTwo ap args [dash, x] s =
      .ok { s with results := s.results.setOption n v, i := s.i + 2 } := by
  have hlt : s.i + 1 < args.length := (List.get?_eq_some.mp hnext).1
  rw [parseTwo_option ap args s x n hfl hop, if_pos hlt, hnext]
  cases v with
  | nil => simp [orPanic]
  | cons c w =>
    have hc : c ≠ dash := by
      intro e; subst e; simp at hd
    simp [orPanic, byteAt_zero, hc]

theorem parseTwo_missing (ap : Parser) (args : List GoString) (s : State) (x : Byte)
    (n : GoString) (hfl : ap.flagsAbbr.get? (runeOf x) = none)
    (hop : ap.optionsAbbr.get? (runeOf x) = some n)
    (hnext : ∀ t, args.get? (s.i + 1) = some t → t.head? = some dash) :
    parseTwo ap args [dash, x] s = .err (.missingValue [dash, x]) := by
  rw [parseTwo_option ap args s x n hfl hop]
  by_cases hlt : s.i + 1 < args.length
  · rw [if_pos hlt]
    have hg : args.get? (s.i + 1) = some (args.get ⟨s.i + 1, hlt⟩) := List.get?_eq_get hlt
    generalize args.get ⟨s.i + 1, hlt⟩ = t at hg
    have ht := hnext t hg
    rw [hg]
    cases t with
    | nil => simp at ht
    | cons c w =>
      have hc : c = dash := by simpa using ht
      simp [orPanic, byteAt_zero, hc]
  · rw [if_neg hlt]

theorem IndexRune_short_equals (x : Byte) (v : GoString) (hx : x ≠ equalsSign) :
    IndexRune (dash :: x :: equalsSign :: v) equalsSign = 2 := by
  have h := IndexRune_append_cons [dash, x] v equalsSign
    (by simp [Ne.symm hx]; decide)
  simpa using h

theorem parseShort_equals (ap : Parser) (s : State) (x : Byte) (n v : GoString)
    (hx : x ≠ equalsSign) (hop : ap.optionsAbbr.get? (runeOf x) = some n) :
    parseShort ap (dash :: x :: equalsSign :: v) s =
      if v ≠ [] then
        if isAllowedOptionValue ap n v then
          .ok { s with results := s.results.setOption n v, i := s.i + 1 }
        else .err (.invalidValueAbbr x v)
      else .err (.missingValueAbbr x) := by
  have hidx := IndexRune_short_equals x v hx
  unfold parseShort
  simp only [hidx, ne_eq, if_true, byteAt_one, orPanic, hop, sliceFrom_three]
  cases v with
  | nil => simp
  | cons c w =>
    have h3 : ((dash :: x :: equalsSign :: c :: w).length : Int) > 3 := by
      simp only [List.length_cons]
      omega
    rw [if_pos h3]
    simp

theorem parseShort_attached (ap : Parser) (s : State) (x : Byte) (n w : GoString)
    (hx : x ≠ equalsSign) (hw : equalsSign ∉ w)
    (hop : ap.optionsAbbr.get? (runeOf x) = some n) :
    parseShort ap (dash :: x :: w) s =
      if isAllowedOptionValue ap n w then
        .ok { s with results := s.results.setOption n w, i := s.i + 1 }
      else .err (.missingValueAbbr x) := by
  have hidx : IndexRune (dash :: x :: w) equalsSign = -1 :=
    IndexRune_of_not_mem _ _ (by simp [hw, Ne.symm hx]; decide)
  unfold parseShort
  simp only [hidx, ne_eq, not_true_eq_false, if_false, byteAt_one, orPanic, hop, sliceFrom_two]

/-! ## Parsing one option with its value -/

theorem ParseFuel_first_pass (ap : Parser) (args : List GoString) (tok : GoString)
    (hcmd : ap.commands.len = 0) (h0 : args.get? 0 = some tok) (ht : tok ≠ terminator)
    (fuel : Nat) :
    ParseFuel ap args (fuel + 1) =
      match classify ap args tok (initState ap) with
      | .ok s1 => loop ap args fuel s1
      | .err e => some (.err e)
      | .panic => some .panic := by
  have hlt : (initState ap).i < args.length := (List.get?_eq_some.mp h0).1
  unfold ParseFuel
  rw [loop_succ _ _ _ _ hlt, body_of_past ap args (initState ap) tok h0 (Or.inr (Or.inr hcmd)),
    if_neg ht]

theorem Returns_of_classify_ok (ap : Parser) (args : List GoString) (tok : GoString)
    (s1 : State) (hcmd : ap.commands.len = 0) (h0 : args.get? 0 = some tok)
    (ht : tok ≠ terminator) (hc : classify ap args tok (initState ap) = .ok s1)
    (hdone : args.length ≤ s1.i) : Returns ap args (.ok s1.results) := by
  refine ⟨1, ?_⟩
  rw [ParseFuel_first_pass ap args tok hcmd h0 ht 0, hc]
  exact loop_done ap args 0 s1 (by omega)

theorem Returns_of_classify_err (ap : Parser) (args : List GoString) (tok : GoString)
    (e : Error) (hcmd : ap.commands.len = 0) (h0 : args.get? 0 = some tok)
    (ht : tok ≠ terminator) (hc : classify ap args tok (initState ap) = .err e) :
    Returns ap args (.err e) := by
  refine ⟨1, ?_⟩
  rw [ParseFuel_first_pass ap args tok hcmd h0 ht 0, hc]

theorem Returns_of_classify_value (ap : Parser) (args : List GoString) (tok : GoString)
    (o : option) (n v : GoString) (e : Error) (k : Nat) (hcmd : ap.commands.len = 0)
    (h0 : args.get? 0 = some tok) (ht : tok ≠ terminator)
    (ho : ap.options.get? n = some o) (hk : args.length ≤ k)
    (hc : classify ap args tok (initState ap) =
      if isAllowedOptionValue ap n v then
        .ok { initState ap with results := (initState ap).results.setOption n v, i := k }
      else .err e) :
    Returns ap args (valueOutcome ap o n v e) := by
  unfold valueOutcome
  by_cases ha : o.Allowed = [] ∨ v ∈ o.Allowed
  · rw [if_pos ((isAllowedOptionValue_iff ap n v o ho).mpr ha)] at hc
    rw [if_pos ha]
    exact Returns_of_classify_ok ap args tok _ hcmd h0 ht hc hk
  · have hf : ¬ isAllowedOptionValue ap n v = true :=
      fun h => ha ((isAllowedOptionValue_iff ap n v o ho).mp h)
    rw [if_neg hf] at hc
    rw [if_neg ha]
    exact Returns_of_classify_err ap args tok e hcmd h0 ht hc

theorem long_ne_terminator (c : Byte) (rest : GoString) : dash :: dash :: c :: rest ≠ terminator := by
  simp [terminator]

theorem short_ne_terminator (x : Byte) (rest : GoString) (hx : x ≠ dash) :
    dash :: x :: rest ≠ terminator := by
  simp [terminator, hx]

/-- C4 (as the code has it): in a registry without commands, for a declared
option `n` (non-empty, without `=`) with registered data `o` and a non-empty
value `v`, each of `["--n=v"]`, `["--n", v]` (`v` not starting with `-`) and
`["-x=v"]` (`x` a byte other than `-` and `=` that abbreviates `n`) fails with
an invalid-value error when the allowed list is non-empty and lacks `v`, and
otherwise returns the initial results with `n` set to `v`. -/
theorem allowed_values_validated (ap : Parser) (hR : Reachable ap) (hcmd : ap.commands.len = 0)
    (n v : GoString) (o : option) (hn : n ≠ []) (hne : equalsSign ∉ n)
    (ho : ap.options.get? n = some o) (hv : v ≠ []) :
    Returns ap [dash :: dash :: (n ++ equalsSign :: v)]
      (valueOutcome ap o n v (.invalidValue n v)) ∧
    (v.head? ≠ some dash →
      Returns ap [dash :: dash :: n, v] (valueOutcome ap o n v (.invalidValue n v))) ∧
    (∀ x : Byte, x ≠ dash → x ≠ equalsSign → ap.optionsAbbr.get? (runeOf x) = some n →
      Returns ap [dash :: x :: equalsSign :: v]
        (valueOutcome ap o n v (.invalidValueAbbr x v))) ∧
    ((initResults ap).setOption n v).Option.get? n = some v ∧
    (Error.invalidValue n v).isInvalidValue = true ∧
    (∀ x : Byte, (Error.invalidValueAbbr x v).isInvalidValue = true) := by
  have hfl : ap.flags.get? n = none := by
    by_contra hc
    have := (Invariant_of_Reachable ap hR).1 n hc
    rw [ho] at this
    cases this
  refine ⟨?_, ?_, ?_, ?_, isPrefixOf_append_self _ _, fun _ => isPrefixOf_append_self _ _⟩
  · cases n with
    | nil => exact absurd rfl hn
    | cons c m =>
      apply Returns_of_classify_value ap [dash :: dash :: (c :: m ++ equalsSign :: v)]
        (dash :: dash :: (c :: m ++ equalsSign :: v)) o (c :: m) v _ 1 hcmd rfl
        (long_ne_terminator c _) ho (by simp)
      rw [List.cons_append, classify_to_parseLong, ← List.cons_append,
        parseLong_equals ap _ _ (c :: m) v hne hv]
      rfl
  · intro hd
    cases n with
    | nil => exact absurd rfl hn
    | cons c m =>
      apply Returns_of_classify_value ap [dash :: dash :: c :: m, v]
        (dash :: dash :: c :: m) o (c :: m) v _ 2 hcmd rfl
        (long_ne_terminator c _) ho (by simp)
      rw [classify_to_parseLong,
        parseLong_value ap [dash :: dash :: c :: m, v] (initState ap) (c :: m) v o hne hfl ho
          rfl hv hd]
      rfl
  · intro x hxd hxe hx
    apply Returns_of_classify_value ap [dash :: x :: equalsSign :: v]
      (dash :: x :: equalsSign :: v) o n v _ 1 hcmd rfl
      (short_ne_terminator x _ hxd) ho (by simp)
    rw [classify_to_parseShort ap _ _ x equalsSign v hxd, parseShort_equals ap _ x n v hxe hx,
      if_pos hv]
    rfl
  · simp [Results.setOption]

theorem emptyRegistry_reachable : Reachable emptyRegistry :=
  Reachable.init Parser.zero (str "Test") []

theorem sampleRegistry_reachable : Reachable sampleRegistry :=
  Reachable.addOption _ (str "out") [] (runeOfChar 'o') [] []
    (Reachable.addOption _ (str "mode") [] (runeOfChar 'm') (str "fast")
      [str "fast", str "slow"]
      (Reachable.addFlag _ (str "verbose") [] (runeOfChar 'v') emptyRegistry_reachable))

theorem allowed_values_validated_witness :
    Reachable sampleRegistry ∧ sampleRegistry.commands.len = 0 ∧ str "mode" ≠ [] ∧
    equalsSign ∉ str "mode" ∧
    sampleRegistry.options.get? (str "mode") = some ⟨[], str "fast", [str "fast", str "slow"]⟩ ∧
    str "turbo" ≠ [] ∧
    valueOutcome sampleRegistry ⟨[], str "fast", [str "fast", str "slow"]⟩ (str "mode")
      (str "turbo") (.invalidValue (str "mode") (str "turbo")) =
      .err (.invalidValue (str "mode") (str "turbo")) ∧
    Returns sampleRegistry [dash :: dash :: (str "mode" ++ equalsSign :: str "turbo")]
      (valueOutcome sampleRegistry ⟨[], str "fast", [str "fast", str "slow"]⟩ (str "mode")
        (str "turbo") (.invalidValue (str "mode") (str "turbo"))) :=
  ⟨sampleRegistry_reachable, by decide, by decide, by decide, by decide, by decide, by decide,
   (allowed_values_validated sampleRegistry sampleRegistry_reachable (by decide) (str "mode")
     (str "turbo") ⟨[], str "fast", [str "fast", str "slow"]⟩ (by decide) (by decide)
     (by decide) (by decide)).1⟩

/-- C4 fails for an option abbreviated `=`: in `-==v` the first `=` is at index
1, the token is scanned as flags followed by an option, the byte before the `=`
is the dash, which abbreviates nothing, and `Parse` returns with `n` still at
its default `d`. -/
theorem equals_abbreviation_counterexample :
    equalsAbbrRegistry.optionsAbbr.get? (runeOf equalsSign) = some (str "n") ∧
    Returns equalsAbbrRegistry [dash :: equalsSign :: equalsSign :: str "v"]
      (.ok (initResults equalsAbbrRegistry)) ∧
    (initResults equalsAbbrRegistry).Option.get? (str "n") = some (str "d") := by
  refine ⟨by decide, ⟨1, by decide⟩, by decide⟩

/-- C5 (as the code has it): when the scan classifies a token `-x` followed by a
non-empty value `w` without `=`, with `x` a byte other than `-` and `=` that
abbreviates the declared option `n`, the value is checked against the allowed
values of `n`: if the list is empty or holds `w`, the pass sets `n` to `w` and
advances the cursor by 1; otherwise the pass returns an error. -/
theorem attached_short_value_is_validated (ap : Parser) (args : List GoString) (s : State)
    (x : Byte) (n w : GoString) (o : option)
    (hcur : args.get? s.i = some (dash :: x :: w)) (hpast : s.pastCommandCheck ap)
    (hxd : x ≠ dash) (hxe : x ≠ equalsSign) (hw : w ≠ []) (hwe : equalsSign ∉ w)
    (hx : ap.optionsAbbr.get? (runeOf x) = some n) (ho : ap.options.get? n = some o) :
    (o.Allowed = [] ∨ w ∈ o.Allowed →
      body ap args s = .ok { s with results := s.results.setOption n w, i := s.i + 1 }) ∧
    (¬ (o.Allowed = [] ∨ w ∈ o.Allowed) → ∃ e, body ap args s = .err e) := by
  have hb : body ap args s =
      if isAllowedOptionValue ap n w then
        .ok { s with results := s.results.setOption n w, i := s.i + 1 }
      else .err (.missingValueAbbr x) := by
    rw [body_of_past ap args s _ hcur hpast, if_neg (short_ne_terminator x w hxd)]
    cases w with
    | nil => exact absurd rfl hw
    | cons c w1 =>
      rw [classify_to_parseShort ap args s x c w1 hxd, parseShort_attached ap s x n _ hxe hwe hx]
  constructor
  · intro ha
    rw [hb, if_pos ((isAllowedOptionValue_iff ap n w o ho).mpr ha)]
  · intro ha
    have hf : ¬ isAllowedOptionValue ap n w = true :=
      fun h => ha ((isAllowedOptionValue_iff ap n w o ho).mp h)
    exact ⟨_, by rw [hb, if_neg hf]⟩

theorem attached_short_value_is_validated_witness :
    [str "-mslow"].get? (initState sampleRegistry).i = some (dash :: byteOf 'm' :: str "slow") ∧
    (initState sampleRegistry).pastCommandCheck sampleRegistry ∧
    byteOf 'm' ≠ dash ∧ byteOf 'm' ≠ equalsSign ∧ str "slow" ≠ [] ∧ equalsSign ∉ str "slow" ∧
    sampleRegistry.optionsAbbr.get? (runeOf (byteOf 'm')) = some (str "mode") ∧
    sampleRegistry.options.get? (str "mode") = some ⟨[], str "fast", [str "fast", str "slow"]⟩ ∧
    body sampleRegistry [str "-mslow"] (initState sampleRegistry) =
      .ok { initState sampleRegistry with
            results := (initState sampleRegistry).results.setOption (str "mode") (str "slow"),
            i := (initState sampleRegistry).i + 1 } :=
  ⟨by decide, Or.inr (Or.inr (by decide)), by decide, by decide, by decide, by decide,
   by decide, by decide,
   (attached_short_value_is_validated sampleRegistry [str "-mslow"] (initState sampleRegistry)
     (byteOf 'm') (str "mode") (str "slow") ⟨[], str "fast", [str "fast", str "slow"]⟩
     (by decide) (Or.inr (Or.inr (by decide))) (by decide) (by decide) (by decide) (by decide)
     (by decide) (by decide)).1 (Or.inr (by decide))⟩

/-- C5 fails: `mode` allows only `fast` and `slow`, and the attached form
`-mturbo` makes `Parse` return an error. -/
theorem attached_short_value_counterexample :
    sampleRegistry.optionsAbbr.get? (runeOf (byteOf 'm')) = some (str "mode") ∧
    Returns sampleRegistry [str "-mturbo"] (.err (.missingValueAbbr (byteOf 'm'))) ∧
    ¬ ∃ r, Returns sampleRegistry [str "-mturbo"] (.ok r) := by
  have h : Returns sampleRegistry [str "-mturbo"] (.err (.missingValueAbbr (byteOf 'm'))) :=
    ⟨1, by decide⟩
  refine ⟨by decide, h, ?_⟩
  rintro ⟨r, hr⟩
  cases Returns_unique _ _ _ _ h hr

/-- C6 (what the code does): `mode` allows only `fast` and `slow`, yet
`["-m", "turbo"]` parses without an error and sets `mode` to `turbo`: the
branch of lines 583-589 assigns the next token without calling
`isAllowedOptionValue`. -/
theorem separate_short_option_value_not_validated :
    sampleRegistry.optionsAbbr.get? (runeOf (byteOf 'm')) = some (str "mode") ∧
    isAllowedOptionValue sampleRegistry (str "mode") (str "turbo") = false ∧
    Returns sampleRegistry [str "-m", str "turbo"]
      (.ok ((initResults sampleRegistry).setOption (str "mode") (str "turbo"))) ∧
    ((initResults sampleRegistry).setOption (str "mode") (str "turbo")).Option.get? (str "mode") =
      some (str "turbo") ∧
    Returns sampleRegistry [str "--mode", str "turbo"]
      (.err (.invalidValue (str "mode") (str "turbo"))) := by
  refine ⟨by decide, by decide, ⟨1, by decide⟩, by decide, ⟨1, by decide⟩⟩

/-! ## Missing values -/

/-- C7 (as the code has it): in a registry without commands, for a declared
option `n` (non-empty, without `=`) and every token `t` that starts with `-`,
`Parse` fails with a missing-value error on `["--n"]`, `["--n", t]` and
`["--n="]`, and, for a byte `x` that abbreviates `n` and no flag, on `["-x"]`
and `["-x", t]` when `x` is not `-`, and on `["-x="]` when `x` is not `=`. -/
theorem missing_value_errors (ap : Parser) (hR : Reachable ap) (hcmd : ap.commands.len = 0)
    (n t : GoString) (o : option) (hn : n ≠ []) (hne : equalsSign ∉ n)
    (ho : ap.options.get? n = some o) (ht : t.head? = some dash) :
    Returns ap [dash :: dash :: n] (.err (.missingValue n)) ∧
    Returns ap [dash :: dash :: n, t] (.err (.missingValue n)) ∧
    Returns ap [dash :: dash :: (n ++ [equalsSign])] (.err (.missingValue n)) ∧
    (Error.missingValue n).isMissingValue = true ∧
    (∀ x : Byte, ap.optionsAbbr.get? (runeOf x) = some n →
      ap.flagsAbbr.get? (runeOf x) = none →
      (x ≠ dash → Returns ap [[dash, x]] (.err (.missingValue [dash, x])) ∧
        Returns ap [[dash, x], t] (.err (.missingValue [dash, x])) ∧
        (Error.missingValue [dash, x]).isMissingValue = true) ∧
      (x ≠ equalsSign →
        ∃ e, Returns ap [[dash, x, equalsSign]] (.err e) ∧ e.isMissingValue = true)) := by
  have hfl : ap.flags.get? n = none := by
    by_contra hc
    have := (Invariant_of_Reachable ap hR).1 n hc
    rw [ho] at this
    cases this
  obtain ⟨c, m, rfl⟩ : ∃ c m, n = c :: m := by
    cases n with
    | nil => exact absurd rfl hn
    | cons c m => exact ⟨c, m, rfl⟩
  refine ⟨?_, ?_, ?_, rfl, ?_⟩
  · apply Returns_of_classify_err ap [dash :: dash :: c :: m] (dash :: dash :: c :: m) _ hcmd
      rfl (long_ne_terminator c _)
    rw [classify_to_parseLong]
    exact parseLong_missing ap _ _ (c :: m) o hne hfl ho (by intro t1 h1; cases h1)
  · apply Returns_of_classify_err ap [dash :: dash :: c :: m, t] (dash :: dash :: c :: m) _ hcmd
      rfl (long_ne_terminator c _)
    rw [classify_to_parseLong]
    refine parseLong_missing ap _ _ (c :: m) o hne hfl ho ?_
    intro t1 h1
    cases h1
    exact ht
  · apply Returns_of_classify_err ap [dash :: dash :: (c :: m ++ [equalsSign])]
      (dash :: dash :: (c :: m ++ [equalsSign])) _ hcmd rfl (long_ne_terminator c _)
    rw [List.cons_append, classify_to_parseLong, ← List.cons_append]
    exact parseLong_equals_empty ap _ _ (c :: m) hne
  · intro x hx hxf
    constructor
    · intro hxd
      refine ⟨?_, ?_, rfl⟩
      · apply Returns_of_classify_err ap [[dash, x]] [dash, x] _ hcmd rfl
          (short_ne_terminator x _ hxd)
        rw [classify_to_parseTwo]
        exact parseTwo_missing ap _ _ x (c :: m) hxf hx (by intro t1 h1; cases h1)
      · apply Returns_of_classify_err ap [[dash, x], t] [dash, x] _ hcmd rfl
          (short_ne_terminator x _ hxd)
        rw [classify_to_parseTwo]
        refine parseTwo_missing ap _ _ x (c :: m) hxf hx ?_
        intro t1 h1
        cases h1
        exact ht
    · intro hxe
      by_cases hxd : x = dash
      · subst hxd
        refine ⟨.missingValue [], ?_, rfl⟩
        apply Returns_of_classify_err ap [[dash, dash, equalsSign]] [dash, dash, equalsSign] _
          hcmd rfl (long_ne_terminator equalsSign _)
        rw [classify_to_parseLong]
        exact parseLong_equals_empty ap _ _ [] (by simp)
      · refine ⟨.missingValueAbbr x, ?_, isPrefixOf_append_self _ _⟩
        apply Returns_of_classify_err ap [[dash, x, equalsSign]] [dash, x, equalsSign] _
          hcmd rfl (short_ne_terminator x _ hxd)
        rw [classify_to_parseShort ap _ _ x equalsSign [] hxd,
          parseShort_equals ap _ x (c :: m) [] hxe hx]
        simp

theorem missing_value_errors_witness :
    Reachable sampleRegistry ∧ sampleRegistry.commands.len = 0 ∧ str "out" ≠ [] ∧
    equalsSign ∉ str "out" ∧
    sampleRegistry.options.get? (str "out") = some ⟨[], [], []⟩ ∧
    (str "--verbose").head? = some dash ∧
    sampleRegistry.optionsAbbr.get? (runeOf (byteOf 'o')) = some (str "out") ∧
    sampleRegistry.flagsAbbr.get? (runeOf (byteOf 'o')) = none ∧
    byteOf 'o' ≠ dash ∧
    Returns sampleRegistry [dash :: dash :: str "out", str "--verbose"]
      (.err (.missingValue (str "out"))) ∧
    Returns sampleRegistry [[dash, byteOf 'o'], str "--verbose"]
      (.err (.missingValue [dash, byteOf 'o'])) :=
  have h := missing_value_errors sampleRegistry sampleRegistry_reachable (by decide) (str "out")
    (str "--verbose") ⟨[], [], []⟩ (by decide) (by decide) (by decide) (by decide)
  ⟨sampleRegistry_reachable, by decide, by decide, by decide, by decide, by decide, by decide,
   by decide, by decide, h.2.1,
   ((h.2.2.2.2 (byteOf 'o') (by decide) (by decide)).1 (by decide)).2.1⟩

/-- C7 fails for an option abbreviated `-` or `=`: `-x` is then the terminator
`--`, on which `Parse` returns results, with or without a token after it, and
`-x=` is `-==`, which is scanned as flags followed by an option and ignored. -/
theorem missing_value_counterexample :
    dashAbbrRegistry.optionsAbbr.get? (runeOf dash) = some (str "n") ∧
    dashAbbrRegistry.flagsAbbr.get? (runeOf dash) = none ∧
    Returns dashAbbrRegistry [[dash, dash]] (.ok (initResults dashAbbrRegistry)) ∧
    Returns dashAbbrRegistry [[dash, dash], str "-t"]
      (.ok { initResults dashAbbrRegistry with Positional := [str "-t"] }) ∧
    equalsAbbrRegistry.optionsAbbr.get? (runeOf equalsSign) = some (str "n") ∧
    equalsAbbrRegistry.flagsAbbr.get? (runeOf equalsSign) = none ∧
    Returns equalsAbbrRegistry [[dash, equalsSign, equalsSign]]
      (.ok (initResults equalsAbbrRegistry)) := by
  refine ⟨by decide, by decide, ⟨1, by decide⟩, ⟨1, by decide⟩, by decide, by decide,
    ⟨1, by decide⟩⟩

/-! ## Reachable registries -/

/-- C20: in every registry built from `Init` by calls of `AddFlag`, `AddOption`
and `AddCommand`, whatever they return, no long name is both a declared flag and
a declared option, no rune is both a flag abbreviation and an option
abbreviation, every flag abbreviation is bound to a declared flag and every
option abbreviation to a declared option. -/
theorem reachable_registry_invariant (ap : Parser) (h : Reachable ap) :
    (∀ n, ¬ (ap.flags.get? n ≠ none ∧ ap.options.get? n ≠ none)) ∧
    (∀ c, ¬ (ap.flagsAbbr.get? c ≠ none ∧ ap.optionsAbbr.get? c ≠ none)) ∧
    (∀ c n, ap.flagsAbbr.get? c = some n → ap.flags.get? n ≠ none) ∧
    (∀ c n, ap.optionsAbbr.get? c = some n → ap.options.get? n ≠ none) := by
  obtain ⟨h1, h2, h3, h4⟩ := Invariant_of_Reachable ap h
  exact ⟨fun n hn => hn.2 (h1 n hn.1), fun c hc => hc.2 (h2 c hc.1), h3, h4⟩

theorem reachable_registry_invariant_witness :
    Reachable sampleRegistry ∧
    sampleRegistry.flagsAbbr.get? (runeOfChar 'v') = some (str "verbose") ∧
    sampleRegistry.flags.get? (str "verbose") ≠ none ∧
    ¬ (sampleRegistry.flags.get? (str "verbose") ≠ none ∧
        sampleRegistry.options.get? (str "verbose") ≠ none) :=
  have h := reachable_registry_invariant sampleRegistry sampleRegistry_reachable
  ⟨sampleRegistry_reachable, by decide, h.2.2.1 (runeOfChar 'v') (str "verbose") (by decide),
   h.1 (str "verbose")⟩

/-! ## Long names that are not declared -/

/-- C17 (what the code does): `unknown` is neither a flag nor an option of the
sample registry, yet `--unknown=1` parses without an error and the returned
option map has the key `unknown`: the branch of lines 512-529 assigns
`results.Option[op]` without looking `op` up in `ap.options`. -/
theorem undeclared_key_added_to_options :
    sampleRegistry.options.get? (str "unknown") = none ∧
    Returns sampleRegistry [str "--unknown=1"]
      (.ok ((initResults sampleRegistry).setOption (str "unknown") (str "1"))) ∧
    ((initResults sampleRegistry).setOption (str "unknown") (str "1")).Option.get?
      (str "unknown") = some (str "1") := by
  refine ⟨by decide, ⟨1, by decide⟩, by decide⟩

/-- C18 (what the code does): with `unknown` neither a flag nor an option,
`--unknown` is rejected with an invalid-argument error, but `--unknown=1`, alone
or followed by other tokens, is accepted. -/
theorem undeclared_long_name_with_value_accepted :
    sampleRegistry.flags.get? (str "unknown") = none ∧
    sampleRegistry.options.get? (str "unknown") = none ∧
    Returns sampleRegistry [str "--unknown"] (.err (.invalidArgument (str "unknown"))) ∧
    Returns sampleRegistry [str "--unknown=1"]
      (.ok ((initResults sampleRegistry).setOption (str "unknown") (str "1"))) ∧
    Returns sampleRegistry [str "--unknown=1", str "file"]
      (.ok (((initResults sampleRegistry).setOption (str "unknown") (str "1")).addPositional
        (str "file"))) := by
  refine ⟨by decide, by decide, ⟨1, by decide⟩, ⟨1, by decide⟩, ⟨2, by decide⟩⟩

/-! ## The classification reads only the flags and the options -/

theorem flagLoop_congr_registry (ap1 ap2 : Parser) (cur : GoString)
    (hfa : ap1.flagsAbbr = ap2.flagsAbbr) (n : Nat) :
    ∀ (ii : Int) (r : Results), flagLoop ap1 cur n ii r = flagLoop ap2 cur n ii r := by
  induction n with
  | zero => intro ii r; rfl
  | succ n ih =>
    intro ii r
    simp only [flagLoop, hfa, ih]

theorem isAllowedOptionValue_congr_registry (ap1 ap2 : Parser) (ho : ap1.options = ap2.options)
    (opt val : GoString) : isAllowedOptionValue ap1 opt val = isAllowedOptionValue ap2 opt val := by
  simp only [isAllowedOptionValue, ho]

theorem classify_congr_registry (ap1 ap2 : Parser) (args : List GoString) (cur : GoString)
    (s : State) (hf : ap1.flags = ap2.flags) (hfa : ap1.flagsAbbr = ap2.flagsAbbr)
    (ho : ap1.options = ap2.options) (hoa : ap1.optionsAbbr = ap2.optionsAbbr) :
    classify ap1 args cur s = classify ap2 args cur s := by
  unfold classify parseShort parseLong parseTwo
  simp only [hf, hfa, ho, hoa, flagLoop_congr_registry ap1 ap2 cur hfa,
    isAllowedOptionValue_congr_registry ap1 ap2 ho]

theorem initResults_congr_registry (ap1 ap2 : Parser) (hf : ap1.flags = ap2.flags)
    (ho : ap1.options = ap2.options) : initResults ap1 = initResults ap2 := by
  simp only [initResults, hf, ho]

theorem flagLoop_err (ap : Parser) (cur : GoString) (n : Nat) :
    ∀ (ii : Int) (r : Results) (e : Error), flagLoop ap cur n ii r = .err e →
      ∃ c, e = .flagDoesNotExist c := by
  induction n with
  | zero => intro ii r e h; cases h
  | succ n ih =>
    intro ii r e h
    simp only [flagLoop, orPanic] at h
    split at h
    · split at h
      · exact ih _ _ _ h
      · cases h
        exact ⟨_, rfl⟩
    · cases h

theorem parseShort_skip (ap : Parser) (cur : GoString) (s s1 : State)
    (h : parseShort ap cur s = .ok s1) : s1.skipCommandCheck = s.skipCommandCheck := by
  unfold parseShort at h
  simp only [orPanic] at h
  repeat' split at h
  all_goals (cases h <;> simp)

theorem parseLong_skip (ap : Parser) (args : List GoString) (cur : GoString) (s s1 : State)
    (h : parseLong ap args cur s = .ok s1) : s1.skipCommandCheck = s.skipCommandCheck := by
  unfold parseLong at h
  simp only [orPanic] at h
  repeat' split at h
  all_goals (cases h <;> simp)

theorem parseTwo_skip (ap : Parser) (args : List GoString) (cur : GoString) (s s1 : State)
    (h : parseTwo ap args cur s = .ok s1) : s1.skipCommandCheck = s.skipCommandCheck := by
  unfold parseTwo at h
  simp only [orPanic] at h
  repeat' split at h
  all_goals (cases h <;> simp)

theorem classify_skip (ap : Parser) (args : List GoString) (cur : GoString) (s s1 : State)
    (h : classify ap args cur s = .ok s1) : s1.skipCommandCheck = s.skipCommandCheck := by
  unfold classify at h
  simp only [orPanic] at h
  repeat' split at h
  · exact parseShort_skip ap cur s s1 h
  · exact parseLong_skip ap args cur s s1 h
  · cases h
  · cases h; simp
  · cases h
  · exact parseTwo_skip ap args cur s s1 h
  · cases h; simp

/-! ## Past the command check -/

theorem body_past_preserved (ap : Parser) (args : List GoString) (s s1 : State)
    (hpast : s.pastCommandCheck ap) (hi : s.i < args.length) (hb : body ap args s = .ok s1) :
    s1.pastCommandCheck ap := by
  have hcur : args.get? s.i = some (args.get ⟨s.i, hi⟩) := List.get?_eq_get hi
  generalize args.get ⟨s.i, hi⟩ = cur at hcur
  rw [body_of_past ap args s cur hcur hpast] at hb
  split at hb
  · cases hb
    rcases hpast with h | h | h
    · exact Or.inl h
    · exact Or.inr (Or.inl (by simp only; omega))
    · exact Or.inr (Or.inr h)
  · rcases hpast with h | h | h
    · exact Or.inl ((classify_skip ap args cur s s1 hb).trans h)
    · refine Or.inr (Or.inl ?_)
      rcases classify_cursor ap args cur s s1 hb with h1 | h1 | ⟨h1, _⟩ <;> omega
    · exact Or.inr (Or.inr h)

theorem body_congr_commandRequired (ap : Parser) (b : Bool) (args : List GoString) (s : State)
    (h : ap.commands.len = 0) :
    body { ap with CommandRequired := b } args s = body ap args s := by
  have hc : ∀ cur, classify { ap with CommandRequired := b } args cur s =
      classify ap args cur s :=
    fun cur => classify_congr_registry _ _ _ _ _ rfl rfl rfl rfl
  unfold body
  simp [h, hc]

theorem loop_congr_commandRequired (ap : Parser) (b : Bool) (args : List GoString)
    (h : ap.commands.len = 0) (fuel : Nat) :
    ∀ s : State, loop { ap with CommandRequired := b } args fuel s = loop ap args fuel s := by
  induction fuel with
  | zero => intro s; rfl
  | succ n ih =>
    intro s
    simp only [loop, body_congr_commandRequired ap b args s h, ih]

/-! ## The command as first token -/

theorem flagLoop_withCommand (ap : Parser) (cur c : GoString) (n : Nat) :
    ∀ (ii : Int) (r : Results),
      flagLoop ap cur n ii (r.withCommand c) =
        (flagLoop ap cur n ii r).map (fun r1 => r1.withCommand c) := by
  induction n with
  | zero => intro ii r; rfl
  | succ n ih =>
    intro ii r
    simp only [flagLoop, orPanic]
    split
    · split
      · rename_i fl _
        exact ih (ii + 1) (r.setFlag fl)
      · rfl
    · rfl

theorem parseShort_afterCommand (ap : Parser) (cur c : GoString) (s : State) :
    parseShort ap cur (s.afterCommand c) = (parseShort ap cur s).map (State.afterCommand c) := by
  unfold parseShort
  simp only [orPanic, State.afterCommand, flagLoop_withCommand]
  generalize flagLoop ap cur (IndexRune cur equalsSign - 1 - 1).toNat 1 s.results = fl1
  generalize flagLoop ap cur ((cur.length : Int) - 1).toNat 1 s.results = fl2
  cases fl1 <;> cases fl2 <;> simp only [Outcome.map] <;>
  repeat' (first
    | rfl
    | (split <;> try simp only [*, if_true, if_false, not_true_eq_false, not_false_eq_true,
        Outcome.map, ne_eq]))

theorem parseLong_afterCommand (ap : Parser) (args : List GoString) (a cur c : GoString)
    (s : State) :
    parseLong ap (a :: args) cur (s.afterCommand c) =
      (parseLong ap args cur s).map (State.afterCommand c) := by
  unfold parseLong
  simp only [orPanic, State.afterCommand, List.length_cons, List.get?_cons_succ,
    Nat.add_lt_add_iff_right]
  repeat' (first
    | rfl
    | (split <;> try simp only [*, if_true, if_false, not_true_eq_false, not_false_eq_true,
        Outcome.map, ne_eq]))

theorem parseTwo_afterCommand (ap : Parser) (args : List GoString) (a cur c : GoString)
    (s : State) :
    parseTwo ap (a :: args) cur (s.afterCommand c) =
      (parseTwo ap args cur s).map (State.afterCommand c) := by
  unfold parseTwo
  simp only [orPanic, State.afterCommand, List.length_cons, List.get?_cons_succ,
    Nat.add_lt_add_iff_right]
  repeat' (first
    | rfl
    | (split <;> try simp only [*, if_true, if_false, not_true_eq_false, not_false_eq_true,
        Outcome.map, ne_eq]))

theorem classify_afterCommand (ap : Parser) (args : List GoString) (a cur c : GoString)
    (s : State) :
    classify ap (a :: args) cur (s.afterCommand c) =
      (classify ap args cur s).map (State.afterCommand c) := by
  unfold classify
  simp only [orPanic, parseShort_afterCommand, parseLong_afterCommand, parseTwo_afterCommand]
  repeat' (first
    | rfl
    | (split <;> try simp only [*, if_true, if_false, not_true_eq_false, not_false_eq_true,
        Outcome.map, ne_eq]))

theorem body_afterCommand (ap : Parser) (args : List GoString) (a c : GoString) (s : State) :
    body ap (a :: args) (s.afterCommand c) =
      (body ap.withoutCommands args s).map (State.afterCommand c) := by
  have hcl : ∀ cur, classify ap.withoutCommands args cur s = classify ap args cur s :=
    fun cur => classify_congr_registry _ _ _ _ _ rfl rfl rfl rfl
  have hlen : ap.withoutCommands.commands.len = 0 := rfl
  have hget : (a :: args).get? (s.afterCommand c).i = args.get? s.i := by
    simp [State.afterCommand]
  have hpast : (s.afterCommand c).pastCommandCheck ap := Or.inl rfl
  unfold body
  rw [hget, commandCheck_eq_false ap _ hpast,
    commandCheck_eq_false ap.withoutCommands s (Or.inr (Or.inr hlen))]
  cases args.get? s.i with
  | none => rfl
  | some cur =>
    simp only [orPanic, if_false, Bool.false_eq_true, hcl, classify_afterCommand]
    split
    · simp [Outcome.map, State.afterCommand, Results.withCommand]
    · rfl

theorem loop_afterCommand (ap : Parser) (args : List GoString) (a c : GoString) (fuel : Nat) :
    ∀ s : State,
      loop ap (a :: args) fuel (s.afterCommand c) =
        (loop ap.withoutCommands args fuel s).map (Outcome.map fun r => r.withCommand c) := by
  have hlt : ∀ s : State, (s.afterCommand c).i < (a :: args).length ↔ s.i < args.length := by
    intro s
    simp [State.afterCommand]
  induction fuel with
  | zero =>
    intro s
    by_cases hi : s.i < args.length
    · have hi2 := (hlt s).mpr hi
      simp only [loop, hi, hi2, if_true]
      rfl
    · rw [loop_done _ _ _ _ hi, loop_done _ _ _ _ (fun h => hi ((hlt s).mp h))]
      rfl
  | succ n ih =>
    intro s
    by_cases hi : s.i < args.length
    · rw [loop_succ _ _ _ _ hi, loop_succ _ _ _ _ ((hlt s).mpr hi), body_afterCommand]
      cases body ap.withoutCommands args s with
      | ok s1 => exact ih s1
      | err e => rfl
      | panic => rfl
    · rw [loop_done _ _ _ _ hi, loop_done _ _ _ _ (fun h => hi ((hlt s).mp h))]
      rfl

theorem ParseFuel_command (ap : Parser) (c : GoString) (rest : List GoString)
    (hc : ap.commands.get? c ≠ none) (fuel : Nat) :
    ParseFuel ap (c :: rest) (fuel + 1) =
      (ParseFuel ap.withoutCommands rest fuel).map (Outcome.map fun r => r.withCommand c) := by
  have hlen : ap.commands.len ≠ 0 := fun h => hc ((GoMap.len_eq_zero _).mp h c)
  obtain ⟨v, hv⟩ := Option.ne_none_iff_exists'.mp hc
  unfold ParseFuel
  rw [loop_succ _ _ _ _ (by simp [initState]),
    body_commandCheck ap (c :: rest) (initState ap) c rfl rfl rfl hlen, hv]
  exact loop_afterCommand ap rest c c fuel (initState ap.withoutCommands)

/-- C11: when `c` is a declared command, `Parse` returns results on `c :: rest`
exactly when it does on `rest` for the registry with the same flags and options
and no command, and the results on `c :: rest` are those results with `Command`
set to `c`. -/
theorem command_consumed (ap : Parser) (c : GoString) (rest : List GoString)
    (hc : ap.commands.get? c ≠ none) :
    (∀ r0, Returns ap.withoutCommands rest (.ok r0) →
      Returns ap (c :: rest) (.ok (r0.withCommand c))) ∧
    (∀ r, Returns ap (c :: rest) (.ok r) →
      ∃ r0, Returns ap.withoutCommands rest (.ok r0) ∧ r = r0.withCommand c) := by
  constructor
  · rintro r0 ⟨fuel, h⟩
    refine ⟨fuel + 1, ?_⟩
    rw [ParseFuel_command ap c rest hc fuel, h]
    rfl
  · rintro r ⟨fuel, h⟩
    cases fuel with
    | zero => simp [ParseFuel, loop, initState] at h
    | succ n =>
      rw [ParseFuel_command ap c rest hc n] at h
      cases h0 : ParseFuel ap.withoutCommands rest n with
      | none => rw [h0] at h; cases h
      | some out =>
        rw [h0] at h
        cases out with
        | ok r0 =>
          simp only [Option.map_some', Outcome.map, Option.some.injEq, Outcome.ok.injEq] at h
          exact ⟨r0, ⟨n, h0⟩, h.symm⟩
        | err e => simp [Outcome.map] at h
        | panic => simp [Outcome.map] at h

theorem command_consumed_witness :
    sampleWithCommand.commands.get? (str "run") ≠ none ∧
    Returns sampleWithCommand.withoutCommands [str "-v", str "run", str "--mode=slow"]
      (.ok ((((initResults sampleWithCommand.withoutCommands).setFlag (str "verbose")).addPositional
        (str "run")).setOption (str "mode") (str "slow"))) ∧
    Returns sampleWithCommand [str "run", str "-v", str "run", str "--mode=slow"]
      (.ok (((((initResults sampleWithCommand.withoutCommands).setFlag
        (str "verbose")).addPositional (str "run")).setOption (str "mode")
        (str "slow")).withCommand (str "run"))) :=
  ⟨by decide, ⟨3, by decide⟩,
   (command_consumed sampleWithCommand (str "run") [str "-v", str "run", str "--mode=slow"]
     (by decide)).1 _ ⟨3, by decide⟩⟩

/-! ## Tokens handled in one pass each -/

theorem loop_fold (ap : Parser) (args : List GoString) (g : GoString → Results → Results)
    (hstep : ∀ (s : State) (t : GoString), s.pastCommandCheck ap → args.get? s.i = some t →
      body ap args s = .ok { s with results := g t s.results, i := s.i + 1 })
    (n : Nat) :
    ∀ s : State, s.pastCommandCheck ap → args.length - s.i ≤ n →
      loop ap args n s = some (.ok ((args.drop s.i).foldl (fun r t => g t r) s.results)) := by
  induction n with
  | zero =>
    intro s _ hn
    have hi : ¬ s.i < args.length := by omega
    rw [loop_done _ _ _ _ hi, List.drop_eq_nil_of_le (by omega)]
    rfl
  | succ n ih =>
    intro s hpast hn
    by_cases hi : s.i < args.length
    · have hcur : args.get? s.i = some (args.get ⟨s.i, hi⟩) := List.get?_eq_get hi
      rw [loop_succ_ok _ _ _ _ _ hi (hstep s _ hpast hcur)]
      rw [ih _ (Or.inr (Or.inl (Nat.succ_ne_zero _))) (by simp only; omega)]
      have hdrop : args.drop s.i = args.get ⟨s.i, hi⟩ :: args.drop (s.i + 1) := by
        rw [List.get_eq_getElem]
        exact List.drop_eq_getElem_cons hi
      rw [hdrop]
      rfl
    · rw [loop_done _ _ _ _ hi, List.drop_eq_nil_of_le (by omega)]
      rfl

theorem Returns_fold (ap : Parser) (args : List GoString) (g : GoString → Results → Results)
    (hcmd : ap.commands.len = 0)
    (hstep : ∀ (s : State) (t : GoString), s.pastCommandCheck ap → args.get? s.i = some t →
      body ap args s = .ok { s with results := g t s.results, i := s.i + 1 }) :
    Returns ap args (.ok (args.foldl (fun r t => g t r) (initResults ap))) :=
  ⟨args.length, loop_fold ap args g hstep args.length (initState ap) (Or.inr (Or.inr hcmd))
    (Nat.sub_le _ _)⟩

theorem body_positionalShaped (ap : Parser) (args : List GoString) (s : State) (cur : GoString)
    (hcur : args.get? s.i = some cur) (hpast : s.pastCommandCheck ap)
    (hshape : isPositionalShaped cur = true) :
    body ap args s = .ok { s with results := s.results.addPositional cur, i := s.i + 1 } := by
  by_cases hd : cur.head? = some dash
  · have he : cur = [dash] := by simpa [isPositionalShaped, hd] using hshape
    subst he
    rw [body_of_past ap args s _ hcur hpast]
    simp [terminator, classify]
  · exact body_positional ap args s cur hcur hpast hd

theorem parseLong_flag (ap : Parser) (args : List GoString) (s : State) (n : GoString)
    (hne : equalsSign ∉ n) (hfl : ap.flags.get? n ≠ none) :
    parseLong ap args (dash :: dash :: n) s =
      .ok { s with results := s.results.setFlag n, i := s.i + 1 } := by
  have hidx : IndexRune (dash :: dash :: n) equalsSign = -1 :=
    IndexRune_of_not_mem _ _ (by simp [hne]; decide)
  obtain ⟨v, hv⟩ := Option.ne_none_iff_exists'.mp hfl
  unfold parseLong
  simp only [hidx, ne_eq, not_true_eq_false, if_false, sliceFrom_two, orPanic, hv]

theorem body_long_flag (ap : Parser) (args : List GoString) (s : State) (n : GoString)
    (hcur : args.get? s.i = some (dash :: dash :: n)) (hpast : s.pastCommandCheck ap)
    (hn : n ≠ []) (hne : equalsSign ∉ n) (hfl : ap.flags.get? n ≠ none) :
    body ap args s = .ok { s with results := s.results.setFlag n, i := s.i + 1 } := by
  cases n with
  | nil => exact absurd rfl hn
  | cons c m =>
    rw [body_of_past ap args s _ hcur hpast, if_neg (long_ne_terminator c m),
      classify_to_parseLong, parseLong_flag ap args s (c :: m) hne hfl]

/-! ## Positional arguments -/

theorem Positional_foldl_shaped (l : List GoString) :
    ∀ r : Results,
      (l.foldl (fun r1 t => if isPositionalShaped t then r1.addPositional t
        else r1.setFlag (t.drop 2)) r).Positional =
        r.Positional ++ l.filter isPositionalShaped := by
  induction l with
  | nil => intro r; simp
  | cons t l ih =>
    intro r
    rw [List.foldl_cons, ih]
    by_cases ht : isPositionalShaped t = true
    · simp [ht, Results.addPositional]
    · simp [ht, Results.setFlag]

/-- C13 (as the code has it): in a registry without commands, when every token
is positional-shaped (empty, the lone `-`, or not starting with `-`) or is
`--f` for a declared flag `f` whose name is non-empty and has no `=`, `Parse`
returns results whose `Positional` is the list of the positional-shaped tokens,
in input order and with duplicates kept. -/
theorem positional_order (ap : Parser) (hcmd : ap.commands.len = 0) (args : List GoString)
    (hargs : ∀ t ∈ args, isPositionalShaped t = true ∨
      ∃ f, t = dash :: dash :: f ∧ f ≠ [] ∧ equalsSign ∉ f ∧ ap.flags.get? f ≠ none) :
    ∃ r, Returns ap args (.ok r) ∧ r.Positional = args.filter isPositionalShaped := by
  refine ⟨_, Returns_fold ap args (fun t r => if isPositionalShaped t then r.addPositional t
    else r.setFlag (t.drop 2)) hcmd ?_, ?_⟩
  · intro s t hpast hcur
    have hmem : t ∈ args := List.get?_mem hcur
    rcases hargs t hmem with hs | ⟨f, rfl, hf, hfe, hfl⟩
    · rw [body_positionalShaped ap args s t hcur hpast hs]
      simp [hs]
    · rw [body_long_flag ap args s f hcur hpast hf hfe hfl]
      simp [isPositionalShaped]
  · rw [Positional_foldl_shaped]
    simp [initResults]

theorem positional_order_witness :
    sampleRegistry.commands.len = 0 ∧
    (∀ t ∈ [str "hello", str "--verbose", str "-", str "hello"],
      isPositionalShaped t = true ∨
      ∃ f, t = dash :: dash :: f ∧ f ≠ [] ∧ equalsSign ∉ f ∧
        sampleRegistry.flags.get? f ≠ none) ∧
    [str "hello", str "--verbose", str "-", str "hello"].filter isPositionalShaped =
      [str "hello", str "-", str "hello"] ∧
    ∃ r, Returns sampleRegistry [str "hello", str "--verbose", str "-", str "hello"] (.ok r) ∧
      r.Positional = [str "hello", str "--verbose", str "-", str "hello"].filter
        isPositionalShaped :=
  have hargs : ∀ t ∈ [str "hello", str "--verbose", str "-", str "hello"],
      isPositionalShaped t = true ∨
      ∃ f, t = dash :: dash :: f ∧ f ≠ [] ∧ equalsSign ∉ f ∧
        sampleRegistry.flags.get? f ≠ none := by
    intro t ht
    simp only [List.mem_cons, List.mem_singleton, List.not_mem_nil, or_false] at ht
    rcases ht with rfl | rfl | rfl | rfl
    · exact Or.inl (by decide)
    · exact Or.inr ⟨str "verbose", by decide, by decide, by decide, by decide⟩
    · exact Or.inl (by decide)
    · exact Or.inl (by decide)
  ⟨by decide, hargs, by decide, positional_order sampleRegistry (by decide) _ hargs⟩

/-- C13 fails for a flag with the empty name: `--f` is then the terminator,
so of the tokens `["--", "--"]`, neither of them positional-shaped, the second
ends up in `Positional`. -/
theorem positional_order_counterexample :
    emptyNameFlagRegistry.commands.len = 0 ∧
    emptyNameFlagRegistry.flags.get? [] ≠ none ∧
    [dash :: dash :: [], dash :: dash :: []].filter isPositionalShaped = [] ∧
    Returns emptyNameFlagRegistry [dash :: dash :: [], dash :: dash :: []]
      (.ok { initResults emptyNameFlagRegistry with Positional := [terminator] }) := by
  refine ⟨by decide, by decide, by decide, ⟨1, by decide⟩⟩

/-! ## Runs of flag abbreviations -/

theorem byteAt_append_length (pre rest : GoString) (c : Byte) :
    byteAt (pre ++ c :: rest) (pre.length : Int) = some c := by
  have h : (pre ++ c :: rest).get? pre.length = some c := by
    induction pre with
    | nil => rfl
    | cons a pre ih => simpa using ih
  unfold byteAt
  rw [if_pos (by omega), Int.toNat_ofNat, h]

theorem flagLoop_bound (ap : Parser) (post : GoString) (cs : GoString) :
    ∀ (pre : GoString) (r : Results),
      (∀ c ∈ cs, ap.flagsAbbr.get? (runeOf c) ≠ none) →
      flagLoop ap (pre ++ cs ++ post) cs.length (pre.length : Int) r =
        .ok (r.setFlags (cs.filterMap fun c => ap.flagsAbbr.get? (runeOf c))) := by
  induction cs with
  | nil => intro pre r _; rfl
  | cons c cs ih =>
    intro pre r hb
    obtain ⟨fl, hfl⟩ := Option.ne_none_iff_exists'.mp (hb c (List.mem_cons_self _ _))
    have hstr : pre ++ c :: cs ++ post = pre ++ c :: (cs ++ post) := by simp
    have hstr2 : pre ++ c :: (cs ++ post) = (pre ++ [c]) ++ cs ++ post := by simp
    have hlen : ((pre.length : Int) + 1) = (((pre ++ [c]).length : Nat) : Int) := by simp
    rw [List.length_cons, flagLoop, hstr, byteAt_append_length]
    simp only [orPanic, hfl]
    rw [hstr2, hlen, ih (pre ++ [c]) (r.setFlag fl) (fun c1 h1 => hb c1 (List.mem_cons_of_mem _ h1))]
    simp [List.filterMap_cons, hfl, Results.setFlags]

theorem flagLoop_unbound (ap : Parser) (post : GoString) (cs : GoString) :
    ∀ (pre : GoString) (r : Results),
      (∃ c ∈ cs, ap.flagsAbbr.get? (runeOf c) = none) →
      ∃ c ∈ cs, ap.flagsAbbr.get? (runeOf c) = none ∧
        flagLoop ap (pre ++ cs ++ post) cs.length (pre.length : Int) r =
          .err (.flagDoesNotExist c) := by
  induction cs with
  | nil => intro pre r h; obtain ⟨c, hc, _⟩ := h; cases hc
  | cons c cs ih =>
    intro pre r hb
    have hstr : pre ++ c :: cs ++ post = pre ++ c :: (cs ++ post) := by simp
    have hstr2 : pre ++ c :: (cs ++ post) = (pre ++ [c]) ++ cs ++ post := by simp
    have hlen : ((pre.length : Int) + 1) = (((pre ++ [c]).length : Nat) : Int) := by simp
    cases hfl : ap.flagsAbbr.get? (runeOf c) with
    | none =>
      refine ⟨c, List.mem_cons_self _ _, hfl, ?_⟩
      rw [List.length_cons, flagLoop, hstr, byteAt_append_length]
      simp only [orPanic, hfl]
    | some fl =>
      have hb2 : ∃ c1 ∈ cs, ap.flagsAbbr.get? (runeOf c1) = none := by
        obtain ⟨c1, hc1, hn1⟩ := hb
        rcases List.mem_cons.mp hc1 with h | h
        · subst h; rw [hfl] at hn1; cases hn1
        · exact ⟨c1, h, hn1⟩
      obtain ⟨c1, hc1, hn1, he⟩ := ih (pre ++ [c]) (r.setFlag fl) hb2
      refine ⟨c1, List.mem_cons_of_mem _ hc1, hn1, ?_⟩
      rw [List.length_cons, flagLoop, hstr, byteAt_append_length]
      simp only [orPanic, hfl]
      rw [hstr2, hlen, he]

theorem Flag_setFlags (names : List GoString) (f : GoString) :
    ∀ r : Results, (r.setFlags names).Flag.get? f =
      if f ∈ names then some true else r.Flag.get? f := by
  induction names with
  | nil => intro r; simp [Results.setFlags]
  | cons n names ih =>
    intro r
    have h := ih (r.setFlag n)
    simp only [Results.setFlags, List.foldl_cons] at h ⊢
    rw [h]
    by_cases h1 : f ∈ names
    · simp [h1]
    · by_cases h2 : f = n
      · subst h2; simp [h1, Results.setFlag]
      · simp [h1, h2, Results.setFlag, GoMap.get?_set_ne _ _ _ _ h2]

theorem setFlags_foldl_bind (h : GoString → List GoString) (l : List GoString) :
    ∀ r : Results, l.foldl (fun r1 t => r1.setFlags (h t)) r = r.setFlags (l.flatMap h) := by
  induction l with
  | nil => intro r; rfl
  | cons t l ih =>
    intro r
    rw [List.foldl_cons, ih]
    simp [Results.setFlags, List.foldl_append]

theorem parseShort_flags (ap : Parser) (s : State) (c1 c2 : Byte) (cs : GoString)
    (hne : equalsSign ∉ c1 :: c2 :: cs) (hop : ap.optionsAbbr.get? (runeOf c1) = none)
    (hb : ∀ c ∈ c1 :: c2 :: cs, ap.flagsAbbr.get? (runeOf c) ≠ none) :
    parseShort ap (dash :: c1 :: c2 :: cs) s =
      .ok { s with
            results := s.results.setFlags
              ((c1 :: c2 :: cs).filterMap fun c => ap.flagsAbbr.get? (runeOf c)),
            i := s.i + 1 } := by
  have hidx : IndexRune (dash :: c1 :: c2 :: cs) equalsSign = -1 := by
    apply IndexRune_of_not_mem
    intro h
    rcases List.mem_cons.mp h with h | h
    · exact absurd h (by decide)
    · exact hne h
  have hfl := flagLoop_bound ap [] (c1 :: c2 :: cs) [dash] s.results hb
  have hcount : (((dash :: c1 :: c2 :: cs).length : Int) - 1).toNat = (c1 :: c2 :: cs).length := by
    simp only [List.length_cons]
    omega
  unfold parseShort
  simp only [hidx, ne_eq, not_true_eq_false, if_false, byteAt_one, orPanic, hop, hcount]
  simp only [List.append_nil, List.singleton_append, List.length_singleton, Nat.cast_one] at hfl
  rw [hfl]

theorem parseTwo_flag (ap : Parser) (args : List GoString) (s : State) (c : Byte)
    (fl : GoString) (hfl : ap.flagsAbbr.get? (runeOf c) = some fl) :
    parseTwo ap args [dash, c] s =
      .ok { s with results := s.results.setFlag fl, i := s.i + 1 } := by
  unfold parseTwo
  simp only [byteAt_zero, List.head?_cons, orPanic, if_true, byteAt_one, hfl]

theorem namedFlags_long (ap : Parser) (n : GoString) : namedFlags ap (dash :: dash :: n) = [n] := by
  simp [namedFlags]

theorem namedFlags_short (ap : Parser) (c : Byte) (cs : GoString) (hc : c ≠ dash) :
    namedFlags ap (dash :: c :: cs) =
      (c :: cs).filterMap fun c1 => ap.flagsAbbr.get? (runeOf c1) := by
  simp [namedFlags, hc]

theorem body_short_flags (ap : Parser) (hinv : ap.Invariant) (args : List GoString) (s : State)
    (cs : GoString) (hcur : args.get? s.i = some (dash :: cs)) (hpast : s.pastCommandCheck ap)
    (hcs : cs ≠ []) (hd : ap.flagsAbbr.get? (runeOf dash) = none)
    (he : ap.flagsAbbr.get? (runeOf equalsSign) = none)
    (hb : ∀ c ∈ cs, ap.flagsAbbr.get? (runeOf c) ≠ none) :
    body ap args s =
      .ok { s with results := s.results.setFlags (namedFlags ap (dash :: cs)), i := s.i + 1 } := by
  have hne : equalsSign ∉ cs := fun h => hb _ h he
  cases cs with
  | nil => exact absurd rfl hcs
  | cons c1 rest =>
    have hc1 : c1 ≠ dash := by
      intro e
      subst e
      exact hb _ (List.mem_cons_self _ _) hd
    rw [body_of_past ap args s _ hcur hpast, if_neg (short_ne_terminator c1 rest hc1),
      namedFlags_short ap c1 rest hc1]
    cases rest with
    | nil =>
      obtain ⟨fl, hfl⟩ := Option.ne_none_iff_exists'.mp (hb c1 (List.mem_cons_self _ _))
      rw [classify_to_parseTwo, parseTwo_flag ap args s c1 fl hfl]
      simp [hfl, Results.setFlags]
    | cons c2 rest2 =>
      rw [classify_to_parseShort ap args s c1 c2 rest2 hc1,
        parseShort_flags ap s c1 c2 rest2 hne (hinv.2.1 _ (hb c1 (List.mem_cons_self _ _))) hb]

theorem mem_keys_of_get? {κ ν : Type} [DecidableEq κ] (m : GoMap κ ν) (k : κ)
    (h : m.get? k ≠ none) : k ∈ m.entries.map Prod.fst := by
  by_contra hk
  exact h ((getEntries_eq_none m.entries k).mpr hk)

theorem mem_flatMap_namedFlags (ap : Parser) (args : List GoString) (f : GoString)
    (hd : ap.flagsAbbr.get? (runeOf dash) = none)
    (hargs : ∀ t ∈ args, (∃ n, t = dash :: dash :: n ∧ ap.flags.get? n ≠ none) ∨
      (∃ cs, t = dash :: cs ∧ cs ≠ [] ∧ ∀ c ∈ cs, ap.flagsAbbr.get? (runeOf c) ≠ none)) :
    f ∈ args.flatMap (namedFlags ap) ↔ flagOccurs ap args f := by
  constructor
  · intro h
    obtain ⟨t, ht, hf⟩ := List.mem_flatMap.mp h
    rcases hargs t ht with ⟨n, rfl, _⟩ | ⟨cs, rfl, hcs, hb⟩
    · rw [namedFlags_long, List.mem_singleton] at hf
      subst hf
      exact Or.inl ht
    · cases cs with
      | nil => exact absurd rfl hcs
      | cons c1 rest =>
        have hc1 : c1 ≠ dash := by
          intro e
          subst e
          exact hb _ (List.mem_cons_self _ _) hd
        rw [namedFlags_short ap c1 rest hc1] at hf
        obtain ⟨c, hc, hcf⟩ := List.mem_filterMap.mp hf
        exact Or.inr ⟨c, c1 :: rest, ht, by simp [hc1], hc, hcf⟩
  · rintro (h | ⟨c, cs, ht, hh, hc, hcf⟩)
    · exact List.mem_flatMap.mpr ⟨_, h, by simp [namedFlags_long]⟩
    · cases cs with
      | nil => cases hc
      | cons c1 rest =>
        have hc1 : c1 ≠ dash := by
          intro e
          subst e
          simp at hh
        refine List.mem_flatMap.mpr ⟨_, ht, ?_⟩
        rw [namedFlags_short ap c1 rest hc1]
        exact List.mem_filterMap.mpr ⟨c, hc, hcf⟩

/-- C14: in a reachable registry without commands whose flag names are non-empty
and free of `=` and in which neither `-` nor `=` abbreviates a flag, when every
token is `--n` for a declared flag `n` or `-c1...ck` (`k ≥ 1`) with every `ci` a
flag abbreviation, `Parse` returns results that map a declared flag to `true`
exactly when a token names it, by its name or by its abbreviation, and every
other declared flag to `false`. -/
theorem flags_long_and_combined_short (ap : Parser) (hR : Reachable ap)
    (hcmd : ap.commands.len = 0)
    (hnames : ∀ n, ap.flags.get? n ≠ none → n ≠ [] ∧ equalsSign ∉ n)
    (hd : ap.flagsAbbr.get? (runeOf dash) = none)
    (he : ap.flagsAbbr.get? (runeOf equalsSign) = none) (args : List GoString)
    (hargs : ∀ t ∈ args, (∃ n, t = dash :: dash :: n ∧ ap.flags.get? n ≠ none) ∨
      (∃ cs, t = dash :: cs ∧ cs ≠ [] ∧ ∀ c ∈ cs, ap.flagsAbbr.get? (runeOf c) ≠ none)) :
    ∃ r, Returns ap args (.ok r) ∧
      ∀ f, ap.flags.get? f ≠ none →
        (r.Flag.get? f = some true ↔ flagOccurs ap args f) ∧
        (¬ flagOccurs ap args f → r.Flag.get? f = some false) := by
  have hinv := Invariant_of_Reachable ap hR
  refine ⟨_, Returns_fold ap args (fun t r => r.setFlags (namedFlags ap t)) hcmd ?_, ?_⟩
  · intro s t hpast hcur
    rcases hargs t (List.get?_mem hcur) with ⟨n, rfl, hfl⟩ | ⟨cs, rfl, hcs, hb⟩
    · rw [body_long_flag ap args s n hcur hpast (hnames n hfl).1 (hnames n hfl).2 hfl]
      simp only [namedFlags_long]
      rfl
    · exact body_short_flags ap hinv args s cs hcur hpast hcs hd he hb
  · intro f hf
    have hiff := mem_flatMap_namedFlags ap args f hd hargs
    rw [setFlags_foldl_bind, Flag_setFlags, initResults_Flag]
    by_cases ho : flagOccurs ap args f
    · simp [ho, hiff.mpr ho]
    · have hm : ¬ f ∈ args.flatMap (namedFlags ap) := fun h => ho (hiff.mp h)
      simp [ho, hm, hf]

theorem flagsTestRegistry_reachable : Reachable flagsTestRegistry :=
  Reachable.addFlag _ (str "flag04") [] 0
    (Reachable.addFlag _ (str "flag03") [] (runeOfChar 'F')
      (Reachable.addFlag _ (str "flag02") [] (runeOfChar 'f')
        (Reachable.addFlag _ (str "flag01") [] 0 emptyRegistry_reachable)))

set_option maxRecDepth 8192 in
theorem flags_long_and_combined_short_witness :
    Reachable flagsTestRegistry ∧ flagsTestRegistry.commands.len = 0 ∧
    (∀ n, flagsTestRegistry.flags.get? n ≠ none → n ≠ [] ∧ equalsSign ∉ n) ∧
    flagsTestRegistry.flagsAbbr.get? (runeOf dash) = none ∧
    flagsTestRegistry.flagsAbbr.get? (runeOf equalsSign) = none ∧
    (∀ t ∈ [str "--flag01", str "-fF"],
      (∃ n, t = dash :: dash :: n ∧ flagsTestRegistry.flags.get? n ≠ none) ∨
      (∃ cs, t = dash :: cs ∧ cs ≠ [] ∧
        ∀ c ∈ cs, flagsTestRegistry.flagsAbbr.get? (runeOf c) ≠ none)) ∧
    ∃ r, Returns flagsTestRegistry [str "--flag01", str "-fF"] (.ok r) ∧
      ∀ f, flagsTestRegistry.flags.get? f ≠ none →
        (r.Flag.get? f = some true ↔ flagOccurs flagsTestRegistry [str "--flag01", str "-fF"] f) ∧
        (¬ flagOccurs flagsTestRegistry [str "--flag01", str "-fF"] f →
          r.Flag.get? f = some false) :=
  have hnames : ∀ n, flagsTestRegistry.flags.get? n ≠ none → n ≠ [] ∧ equalsSign ∉ n :=
    fun n hn => (by decide : ∀ n ∈ flagsTestRegistry.flags.entries.map Prod.fst,
      n ≠ [] ∧ equalsSign ∉ n) n (mem_keys_of_get? _ n hn)
  have hargs : ∀ t ∈ [str "--flag01", str "-fF"],
      (∃ n, t = dash :: dash :: n ∧ flagsTestRegistry.flags.get? n ≠ none) ∨
      (∃ cs, t = dash :: cs ∧ cs ≠ [] ∧
        ∀ c ∈ cs, flagsTestRegistry.flagsAbbr.get? (runeOf c) ≠ none) := by
    intro t ht
    simp only [List.mem_cons, List.mem_singleton, List.not_mem_nil, or_false] at ht
    rcases ht with rfl | rfl
    · exact Or.inl ⟨str "flag01", by decide, by decide⟩
    · exact Or.inr ⟨str "fF", by decide, by decide, by decide⟩
  ⟨flagsTestRegistry_reachable, by decide, hnames, by decide, by decide, hargs,
   flags_long_and_combined_short flagsTestRegistry flagsTestRegistry_reachable (by decide)
     hnames (by decide) (by decide) _ hargs⟩

/-! ## An option given several times -/

theorem get?_append_cons_length {α : Type} (front rest : List α) (a : α) :
    (front ++ a :: rest).get? front.length = some a := by
  induction front with
  | nil => rfl
  | cons b front ih => simpa using ih

theorem get?_append_cons_cons_length {α : Type} (front rest : List α) (a b : α) :
    (front ++ a :: b :: rest).get? (front.length + 1) = some b := by
  have h := get?_append_cons_length (front ++ [a]) rest b
  simpa using h

theorem Option_setOptionEach (n : GoString) (vs : List GoString) :
    ∀ (r : Results) (d : GoString), r.Option.get? n = some d →
      (r.setOptionEach n vs).Option.get? n = some (vs.getLast?.getD d) := by
  induction vs with
  | nil => intro r d h; simpa [Results.setOptionEach] using h
  | cons v vs ih =>
    intro r d h
    have h1 := ih (r.setOption n v) v (by simp [Results.setOption])
    simp only [Results.setOptionEach, List.foldl_cons] at h1 ⊢
    rw [h1]
    cases vs with
    | nil => rfl
    | cons w ws =>
      cases hl : (w :: ws).getLast? with
      | none => simp at hl
      | some z => simp [hl]

theorem body_long_equals (ap : Parser) (args : List GoString) (s : State) (n v : GoString)
    (hcur : args.get? s.i = some (longEquals n v)) (hpast : s.pastCommandCheck ap)
    (hn : n ≠ []) (hne : equalsSign ∉ n) (hv : v ≠ [])
    (ha : isAllowedOptionValue ap n v = true) :
    body ap args s = .ok { s with results := s.results.setOption n v, i := s.i + 1 } := by
  cases n with
  | nil => exact absurd rfl hn
  | cons c m =>
    unfold longEquals at hcur
    rw [body_of_past ap args s _ hcur hpast, List.cons_append,
      if_neg (long_ne_terminator c _), classify_to_parseLong, ← List.cons_append,
      parseLong_equals ap args s (c :: m) v hne hv, if_pos ha]

theorem body_long_value (ap : Parser) (args : List GoString) (s : State) (n v : GoString)
    (o : option) (hcur : args.get? s.i = some (longName n))
    (hnext : args.get? (s.i + 1) = some v) (hpast : s.pastCommandCheck ap)
    (hn : n ≠ []) (hne : equalsSign ∉ n) (hfl : ap.flags.get? n = none)
    (hop : ap.options.get? n = some o) (hd : v.head? ≠ some dash)
    (ha : v ≠ [] → isAllowedOptionValue ap n v = true) :
    body ap args s = .ok { s with results := s.results.setOption n v, i := s.i + 2 } := by
  cases n with
  | nil => exact absurd rfl hn
  | cons c m =>
    unfold longName at hcur
    have hlt : s.i + 1 < args.length := (List.get?_eq_some.mp hnext).1
    rw [body_of_past ap args s _ hcur hpast, if_neg (long_ne_terminator c _),
      classify_to_parseLong]
    cases v with
    | nil =>
      rw [parseLong_name ap args s (c :: m) o hne hfl hop, if_pos hlt, hnext]
      simp [orPanic]
    | cons b w =>
      rw [parseLong_value ap args s (c :: m) (b :: w) o hne hfl hop hnext (by simp) hd,
        if_pos (ha (by simp))]

theorem loop_pairs (ap : Parser) (n : GoString) (o : option) (hn : n ≠ [])
    (hne : equalsSign ∉ n) (hfl : ap.flags.get? n = none) (hop : ap.options.get? n = some o)
    (vs : List GoString) :
    ∀ (front : List GoString) (s : State), s.pastCommandCheck ap → s.i = front.length →
      (∀ v ∈ vs, v ≠ [] ∧ v.head? ≠ some dash ∧ o.accepts v) →
      loop ap (front ++ vs.flatMap fun v => [longName n, v]) vs.length s =
        some (.ok (s.results.setOptionEach n vs)) := by
  induction vs with
  | nil =>
    intro front s _ hi _
    rw [loop_done _ _ _ _ (by simp [hi])]
    rfl
  | cons v vs ih =>
    intro front s hpast hi hvs
    obtain ⟨hv, hd, ha⟩ := hvs v (List.mem_cons_self _ _)
    have hargs : front ++ (v :: vs).flatMap (fun v => [longName n, v]) =
        (front ++ [longName n, v]) ++ vs.flatMap (fun v => [longName n, v]) := by simp
    have hcur : (front ++ (v :: vs).flatMap fun v => [longName n, v]).get? s.i =
        some (longName n) := by
      rw [hi]
      exact get?_append_cons_length _ _ _
    have hnext : (front ++ (v :: vs).flatMap fun v => [longName n, v]).get? (s.i + 1) =
        some v := by
      rw [hi]
      exact get?_append_cons_cons_length _ _ _ _
    have hlt : s.i < (front ++ (v :: vs).flatMap fun v => [longName n, v]).length :=
      (List.get?_eq_some.mp hcur).1
    rw [List.length_cons, loop_succ_ok _ _ _ _ _ hlt
      (body_long_value ap _ s n v o hcur hnext hpast hn hne hfl hop hd
        (fun _ => (isAllowedOptionValue_iff ap n v o hop).mpr ha)), hargs]
    rw [ih (front ++ [longName n, v]) _ (Or.inr (Or.inl (by simp))) (by simp [hi])
      (fun w hw => hvs w (List.mem_cons_of_mem _ hw))]
    rfl

theorem drop_longEquals (n v : GoString) : (longEquals n v).drop (n.length + 3) = v := by
  have h : longEquals n v = (dash :: dash :: (n ++ [equalsSign])) ++ v := by
    simp [longEquals]
  have hl : (dash :: dash :: (n ++ [equalsSign])).length = n.length + 3 := by simp
  rw [h, ← hl, List.drop_left]

theorem foldl_longEquals (n : GoString) (vs : List GoString) :
    ∀ r : Results,
      (vs.map (longEquals n)).foldl (fun r1 t => r1.setOption n (t.drop (n.length + 3))) r =
        r.setOptionEach n vs := by
  induction vs with
  | nil => intro r; rfl
  | cons v vs ih =>
    intro r
    rw [List.map_cons, List.foldl_cons, drop_longEquals, ih]
    rfl

/-- In a reachable registry without commands, for a declared option `n` whose
name is non-empty and has no `=`, and non-empty values `vs` that the option
accepts, the tokens `--n=v` for `v` in `vs`, and, when no value starts with
`-`, the tokens `--n`, `v` for `v` in `vs`, parse to the initial results with
the values assigned to `n` in order; in them `n` has the last value, or its
default when `vs` is empty. -/
theorem repeated_option_forms (ap : Parser) (hR : Reachable ap) (hcmd : ap.commands.len = 0)
    (n : GoString) (o : option) (hn : n ≠ []) (hne : equalsSign ∉ n)
    (hop : ap.options.get? n = some o) (vs : List GoString)
    (hvs : ∀ v ∈ vs, v ≠ [] ∧ o.accepts v) :
    Returns ap (vs.map (longEquals n)) (.ok ((initResults ap).setOptionEach n vs)) ∧
    ((∀ v ∈ vs, v.head? ≠ some dash) →
      Returns ap (vs.flatMap fun v => [longName n, v])
        (.ok ((initResults ap).setOptionEach n vs))) ∧
    ((initResults ap).setOptionEach n vs).Option.get? n =
      some (vs.getLast?.getD o.DefaultsTo) := by
  have hfl : ap.flags.get? n = none := by
    by_contra hc
    have := (Invariant_of_Reachable ap hR).1 n hc
    rw [hop] at this
    cases this
  refine ⟨?_, ?_, ?_⟩
  · have h := Returns_fold ap (vs.map (longEquals n))
      (fun t r => r.setOption n (t.drop (n.length + 3))) hcmd (by
        intro s t hpast hcur
        obtain ⟨v, hv, rfl⟩ := List.mem_map.mp (List.get?_mem hcur)
        rw [body_long_equals ap _ s n v hcur hpast hn hne (hvs v hv).1
          ((isAllowedOptionValue_iff ap n v o hop).mpr (hvs v hv).2)]
        simp only [drop_longEquals])
    rw [foldl_longEquals] at h
    exact h
  · intro hd
    refine ⟨vs.length, ?_⟩
    have h := loop_pairs ap n o hn hne hfl hop vs [] (initState ap) (Or.inr (Or.inr hcmd)) rfl
      (fun v hv => ⟨(hvs v hv).1, hd v hv, (hvs v hv).2⟩)
    simpa [ParseFuel] using h
  · apply Option_setOptionEach
    rw [initResults_Option, hop]
    rfl

/-! ## Flags and one option in a single token -/

theorem IndexRune_combined (fs : GoString) (o : Byte) (v : GoString)
    (hne : equalsSign ∉ fs) (ho : o ≠ equalsSign) :
    IndexRune (combinedToken fs o v) equalsSign = ((fs.length + 2 : Nat) : Int) := by
  have h := IndexRune_append_cons (dash :: (fs ++ [o])) v equalsSign (by
    intro hm
    rcases List.mem_cons.mp hm with h1 | h1
    · exact absurd h1 (by decide)
    · rcases List.mem_append.mp h1 with h2 | h2
      · exact hne h2
      · exact ho (List.mem_singleton.mp h2).symm)
  simpa [combinedToken] using h

theorem parseShort_combined (ap : Parser) (s : State) (f1 : Byte) (fs : GoString) (o : Byte)
    (v : GoString) (hne : equalsSign ∉ f1 :: fs) (ho : o ≠ equalsSign) :
    parseShort ap (combinedToken (f1 :: fs) o v) s =
      match flagLoop ap (combinedToken (f1 :: fs) o v) (f1 :: fs).length 1 s.results with
      | .ok r =>
          if v ≠ [] then
            match ap.optionsAbbr.get? (runeOf o) with
            | some op =>
                if isAllowedOptionValue ap op v then
                  .ok { s with results := r.setOption op v, i := s.i + 1 }
                else .err (.missingValueAbbr f1)
            | none => .ok { s with results := r, i := s.i + 1 }
          else .err (.missingValueAbbr f1)
      | .err e => .err e
      | .panic => .panic := by
  have hidx := IndexRune_combined (f1 :: fs) o v hne ho
  have h1 : ((((f1 :: fs).length + 2 : Nat) : Int)) ≠ -1 := by omega
  have h2 : ¬ ((((f1 :: fs).length + 2 : Nat) : Int)) = 2 := by
    simp only [List.length_cons]
    omega
  have hcount : ((((f1 :: fs).length + 2 : Nat) : Int) - 1 - 1).toNat = (f1 :: fs).length := by
    omega
  have hbo : byteAt (combinedToken (f1 :: fs) o v) ((((f1 :: fs).length + 2 : Nat) : Int) - 1) =
      some o := by
    have h := byteAt_append_length (dash :: f1 :: fs) (equalsSign :: v) o
    have e : ((((f1 :: fs).length + 2 : Nat) : Int) - 1) =
        (((dash :: f1 :: fs).length : Nat) : Int) := by
      simp only [List.length_cons]
      omega
    rw [e]
    simpa [combinedToken] using h
  have hsf : sliceFrom (combinedToken (f1 :: fs) o v) ((((f1 :: fs).length + 2 : Nat) : Int) + 1) =
      some v := by
    have h := sliceFrom_after (dash :: (f1 :: fs ++ [o, equalsSign])) v
    have e : ((((f1 :: fs).length + 2 : Nat) : Int) + 1) =
        (((dash :: (f1 :: fs ++ [o, equalsSign])).length : Nat) : Int) := by
      simp only [List.length_cons, List.length_append, List.length_nil]
      omega
    rw [e]
    simpa [combinedToken] using h
  have hb1 : byteAt (combinedToken (f1 :: fs) o v) 1 = some f1 := byteAt_one _ _ _
  have hlt : ((((f1 :: fs).length + 2 : Nat) : Int) + 1 <
      ((combinedToken (f1 :: fs) o v).length : Int)) ↔ v ≠ [] := by
    cases v with
    | nil =>
      simp only [combinedToken, List.length_cons, List.length_append, List.length_nil, ne_eq,
        not_true_eq_false, iff_false]
      omega
    | cons b w =>
      simp only [combinedToken, List.length_cons, List.length_append, ne_eq, reduceCtorEq,
        not_false_eq_true, iff_true]
      omega
  unfold parseShort
  simp only [hidx, h1, ne_eq, not_false_eq_true, if_true, h2, if_false, hcount, hbo, hsf, hb1,
    orPanic, hlt]

theorem classify_combined (ap : Parser) (args : List GoString) (s : State) (f1 : Byte)
    (fs : GoString) (o : Byte) (v : GoString) (hf1 : f1 ≠ dash) :
    classify ap args (combinedToken (f1 :: fs) o v) s =
      parseShort ap (combinedToken (f1 :: fs) o v) s := by
  cases fs with
  | nil => exact classify_to_parseShort ap args s f1 o (equalsSign :: v) hf1
  | cons f2 fs2 =>
    exact classify_to_parseShort ap args s f1 f2 (fs2 ++ o :: equalsSign :: v) hf1

theorem combinedToken_ne_terminator (f1 : Byte) (fs : GoString) (o : Byte) (v : GoString)
    (hf1 : f1 ≠ dash) : combinedToken (f1 :: fs) o v ≠ terminator :=
  short_ne_terminator f1 _ hf1

theorem parseTwo_unknown (ap : Parser) (args : List GoString) (s : State) (x : Byte)
    (hfl : ap.flagsAbbr.get? (runeOf x) = none) (hop : ap.optionsAbbr.get? (runeOf x) = none) :
    parseTwo ap args [dash, x] s = .err (.invalidArgumentAbbr x) := by
  unfold parseTwo
  simp only [byteAt_zero, List.head?_cons, orPanic, if_true, byteAt_one, hfl, hop]

theorem flagLoop_combined_unbound (ap : Parser) (r : Results) (fs : GoString) (o : Byte)
    (v : GoString) (hb : ∃ c ∈ fs, ap.flagsAbbr.get? (runeOf c) = none) :
    ∃ c ∈ fs, ap.flagsAbbr.get? (runeOf c) = none ∧
      flagLoop ap (combinedToken fs o v) fs.length 1 r = .err (.flagDoesNotExist c) := by
  obtain ⟨c, hc, hn, h⟩ := flagLoop_unbound ap (o :: equalsSign :: v) fs [dash] r hb
  exact ⟨c, hc, hn, by simpa [combinedToken] using h⟩

/-- The short tokens that do not resolve and that `Parse` rejects: in a registry
without commands, `Parse` fails with an invalid-argument error on every
sequence whose first token is `-x` with `x` other than `-` and neither a flag
nor an option abbreviation, or is `-f1...fk o=v` (`k ≥ 1`, `f1` not `-`, none
of `f1`, ..., `fk`, `o` being `=`) with some `fi` that is not a flag
abbreviation; the error names such an `fi`. -/
theorem unresolvable_short_rejected (ap : Parser) (hcmd : ap.commands.len = 0)
    (rest : List GoString) :
    (∀ x : Byte, x ≠ dash → ap.flagsAbbr.get? (runeOf x) = none →
      ap.optionsAbbr.get? (runeOf x) = none →
      Returns ap ([dash, x] :: rest) (.err (.invalidArgumentAbbr x))) ∧
    (∀ (f1 : Byte) (fs : GoString) (o : Byte) (v : GoString), f1 ≠ dash →
      equalsSign ∉ f1 :: fs → o ≠ equalsSign →
      (∃ c ∈ f1 :: fs, ap.flagsAbbr.get? (runeOf c) = none) →
      ∃ c ∈ f1 :: fs, ap.flagsAbbr.get? (runeOf c) = none ∧
        Returns ap (combinedToken (f1 :: fs) o v :: rest) (.err (.flagDoesNotExist c))) ∧
    (∀ c : Byte, (Error.invalidArgumentAbbr c).isInvalidArgument = true ∧
      (Error.flagDoesNotExist c).isInvalidArgument = true) := by
  refine ⟨?_, ?_, fun c => ⟨isPrefixOf_append_self _ _, isInvalidArgument_flagDoesNotExist c⟩⟩
  · intro x hxd hfl hop
    apply Returns_of_classify_err ap ([dash, x] :: rest) [dash, x] _ hcmd rfl
      (short_ne_terminator x _ hxd)
    rw [classify_to_parseTwo, parseTwo_unknown ap _ _ x hfl hop]
  · intro f1 fs o v hf1 hne ho hb
    obtain ⟨c, hc, hn, hfl⟩ :=
      flagLoop_combined_unbound ap (initState ap).results (f1 :: fs) o v hb
    refine ⟨c, hc, hn, ?_⟩
    apply Returns_of_classify_err ap (combinedToken (f1 :: fs) o v :: rest)
      (combinedToken (f1 :: fs) o v) _ hcmd rfl (combinedToken_ne_terminator f1 fs o v hf1)
    rw [classify_combined ap _ _ f1 fs o v hf1, parseShort_combined ap _ f1 fs o v hne ho, hfl]

theorem unresolvable_short_rejected_witness :
    sampleRegistry.commands.len = 0 ∧ byteOf 'q' ≠ dash ∧
    sampleRegistry.flagsAbbr.get? (runeOf (byteOf 'q')) = none ∧
    sampleRegistry.optionsAbbr.get? (runeOf (byteOf 'q')) = none ∧
    Returns sampleRegistry ([dash, byteOf 'q'] :: [str "file"])
      (.err (.invalidArgumentAbbr (byteOf 'q'))) :=
  ⟨by decide, by decide, by decide, by decide,
   (unresolvable_short_rejected sampleRegistry (by decide) [str "file"]).1 (byteOf 'q')
     (by decide) (by decide) (by decide)⟩

/-- C19 (what the code does): the sample registry has no command, and neither
`z` nor `x` abbreviates one of its options.  On `-vz=1`, where `v` is a flag,
the branch of lines 466-477 has no `else` for an unbound option byte: `Parse`
returns results with `verbose` set and nothing assigned, not an error.  On
`-x=1` the branch of lines 436-454 has no `else` either and `Parse` returns
nothing at all.  The sibling forms `-z`, `-zv=1` (an unbound flag byte) and
`--zeta` are rejected with an invalid-argument error. -/
theorem unbound_short_option_not_rejected :
    sampleRegistry.commands.len = 0 ∧
    sampleRegistry.flagsAbbr.get? (runeOf (byteOf 'v')) = some (str "verbose") ∧
    sampleRegistry.optionsAbbr.get? (runeOf (byteOf 'z')) = none ∧
    combinedToken [byteOf 'v'] (byteOf 'z') (str "1") = str "-vz=1" ∧
    Returns sampleRegistry [str "-vz=1"]
      (.ok ((initResults sampleRegistry).setFlag (str "verbose"))) ∧
    (∀ e, ¬ Returns sampleRegistry [str "-vz=1"] (.err e)) ∧
    sampleRegistry.optionsAbbr.get? (runeOf (byteOf 'x')) = none ∧
    (∀ out, ¬ Returns sampleRegistry [str "-x=1"] out) ∧
    Returns sampleRegistry [str "-z"] (.err (.invalidArgumentAbbr (byteOf 'z'))) ∧
    Returns sampleRegistry [str "-zv=1"] (.err (.flagDoesNotExist (byteOf 'z'))) ∧
    Returns sampleRegistry [str "--zeta"] (.err (.invalidArgument (str "zeta"))) ∧
    (Error.invalidArgumentAbbr (byteOf 'z')).isInvalidArgument = true ∧
    (Error.flagDoesNotExist (byteOf 'z')).isInvalidArgument = true ∧
    (Error.invalidArgument (str "zeta")).isInvalidArgument = true := by
  have hok : Returns sampleRegistry [str "-vz=1"]
      (.ok ((initResults sampleRegistry).setFlag (str "verbose"))) := ⟨1, by decide⟩
  have hdiv : Diverges sampleRegistry [str "-x=1"] :=
    loop_stuck sampleRegistry [str "-x=1"] _ (by decide) (by decide)
  refine ⟨by decide, by decide, by decide, by decide, hok, ?_, by decide, ?_, ⟨1, by decide⟩,
    ⟨1, by decide⟩, ⟨1, by decide⟩, by decide, by decide, by decide⟩
  · intro e h
    cases Returns_unique _ _ _ _ h hok
  · rintro out ⟨fuel, h⟩
    rw [hdiv fuel] at h
    cases h

/-- The token `-x` with `x = '-'`, which abbreviates nothing in the sample
registry, is the terminator: `Parse` returns results on it. -/
theorem short_dash_is_terminator :
    sampleRegistry.flagsAbbr.get? (runeOf dash) = none ∧
    sampleRegistry.optionsAbbr.get? (runeOf dash) = none ∧
    Returns sampleRegistry [[dash, dash], str "-q"]
      (.ok { initResults sampleRegistry with Positional := [str "-q"] }) := by
  refine ⟨by decide, by decide, ⟨1, by decide⟩⟩

/-! ## The kind and the subject of the errors of short forms -/

/-- C21 (what the code does): `mode` allows only `fast` and `slow`; the attached
form `-mturbo` and the combined form `-vm=turbo` give it the non-empty value
`turbo`, and `Parse` returns an error of the missing-value kind (lines 492-494
and 473-475), while the forms `-m=turbo`, `--mode=turbo` and `--mode turbo`
return one of the invalid-value kind. -/
theorem disallowed_value_reported_as_missing :
    isAllowedOptionValue sampleRegistry (str "mode") (str "turbo") = false ∧
    Returns sampleRegistry [str "-mturbo"] (.err (.missingValueAbbr (byteOf 'm'))) ∧
    Returns sampleRegistry [str "-vm=turbo"] (.err (.missingValueAbbr (byteOf 'v'))) ∧
    (Error.missingValueAbbr (byteOf 'm')).isInvalidValue = false ∧
    (Error.missingValueAbbr (byteOf 'm')).isMissingValue = true ∧
    Returns sampleRegistry [str "-m=turbo"]
      (.err (.invalidValueAbbr (byteOf 'm') (str "turbo"))) ∧
    Returns sampleRegistry [str "--mode=turbo"]
      (.err (.invalidValue (str "mode") (str "turbo"))) ∧
    Returns sampleRegistry [str "--mode", str "turbo"]
      (.err (.invalidValue (str "mode") (str "turbo"))) := by
  refine ⟨by decide, ⟨1, by decide⟩, ⟨1, by decide⟩, rfl, rfl, ⟨1, by decide⟩, ⟨1, by decide⟩,
    ⟨1, by decide⟩⟩

/-- C24 (what the code does): in `-vm=` the flag `v` is followed by the option
`m` with nothing after `=`; the missing-value error that `Parse` returns is
built from `args[i][1]` (lines 479-481), so it names `v`, not the option `m`
whose value is missing. -/
theorem combined_missing_value_names_first_flag :
    sampleRegistry.flagsAbbr.get? (runeOf (byteOf 'v')) = some (str "verbose") ∧
    sampleRegistry.optionsAbbr.get? (runeOf (byteOf 'm')) = some (str "mode") ∧
    combinedToken [byteOf 'v'] (byteOf 'm') [] = str "-vm=" ∧
    Returns sampleRegistry [combinedToken [byteOf 'v'] (byteOf 'm') []]
      (.err (.missingValueAbbr (byteOf 'v'))) ∧
    Error.missingValueAbbr (byteOf 'v') ≠ Error.missingValueAbbr (byteOf 'm') ∧
    Returns sampleRegistry [str "-m="] (.err (.missingValueAbbr (byteOf 'm'))) := by
  refine ⟨by decide, by decide, by decide, ⟨1, by decide⟩, by decide, ⟨1, by decide⟩⟩

/-! ## The empty string as a value -/

/-- C23 (as the code has it): in a reachable registry without commands, for a
declared option `n` whose name is non-empty and has no `=`, whatever its allowed
values, `["--n", ""]` parses to the initial results with `n` set to the empty
string, and so does `["-x", ""]` for a byte `x` other than `-` that abbreviates
`n` and no flag; nothing is added to `Positional`. -/
theorem empty_value_accepted (ap : Parser) (hR : Reachable ap) (hcmd : ap.commands.len = 0)
    (n : GoString) (o : option) (hn : n ≠ []) (hne : equalsSign ∉ n)
    (hop : ap.options.get? n = some o) :
    Returns ap [longName n, []] (.ok ((initResults ap).setOption n [])) ∧
    (∀ x : Byte, x ≠ dash → ap.optionsAbbr.get? (runeOf x) = some n →
      ap.flagsAbbr.get? (runeOf x) = none →
      Returns ap [[dash, x], []] (.ok ((initResults ap).setOption n []))) ∧
    ((initResults ap).setOption n []).Option.get? n = some [] ∧
    ((initResults ap).setOption n []).Positional = [] := by
  have hfl : ap.flags.get? n = none := by
    by_contra hc
    have := (Invariant_of_Reachable ap hR).1 n hc
    rw [hop] at this
    cases this
  refine ⟨?_, ?_, by simp [Results.setOption], rfl⟩
  · refine ⟨1, ?_⟩
    unfold ParseFuel
    rw [loop_succ_ok ap [longName n, []] 0 (initState ap) _ (by simp [initState])
      (body_long_value ap [longName n, []] (initState ap) n [] o rfl rfl (Or.inr (Or.inr hcmd))
        hn hne hfl hop (by simp) (fun h => absurd rfl h))]
    exact loop_done _ _ _ _ (by simp [initState])
  · intro x hxd hx hxf
    apply Returns_of_classify_ok ap [[dash, x], []] [dash, x]
      { initState ap with results := (initState ap).results.setOption n [],
                          i := (initState ap).i + 2 } hcmd rfl (short_ne_terminator x _ hxd)
    · rw [classify_to_parseTwo]
      exact parseTwo_value ap _ _ x n [] hxf hx rfl (by simp)
    · simp [initState]

theorem empty_value_accepted_witness :
    Reachable sampleRegistry ∧ sampleRegistry.commands.len = 0 ∧ str "mode" ≠ [] ∧
    equalsSign ∉ str "mode" ∧
    sampleRegistry.options.get? (str "mode") = some ⟨[], str "fast", [str "fast", str "slow"]⟩ ∧
    byteOf 'm' ≠ dash ∧
    sampleRegistry.optionsAbbr.get? (runeOf (byteOf 'm')) = some (str "mode") ∧
    sampleRegistry.flagsAbbr.get? (runeOf (byteOf 'm')) = none ∧
    Returns sampleRegistry [longName (str "mode"), []]
      (.ok ((initResults sampleRegistry).setOption (str "mode") [])) ∧
    Returns sampleRegistry [[dash, byteOf 'm'], []]
      (.ok ((initResults sampleRegistry).setOption (str "mode") [])) :=
  have h := empty_value_accepted sampleRegistry sampleRegistry_reachable (by decide)
    (str "mode") ⟨[], str "fast", [str "fast", str "slow"]⟩ (by decide) (by decide) (by decide)
  ⟨sampleRegistry_reachable, by decide, by decide, by decide, by decide, by decide, by decide,
   by decide, h.1, h.2.1 (byteOf 'm') (by decide) (by decide) (by decide)⟩

/-- C23 fails for an option abbreviated `-` and for an option with the empty
name: `-x`, respectively `--n`, is then the terminator, so the empty string
after it goes to `Positional` and the option keeps its default `d`. -/
theorem empty_value_counterexample :
    dashAbbrRegistry.optionsAbbr.get? (runeOf dash) = some (str "n") ∧
    dashAbbrRegistry.flagsAbbr.get? (runeOf dash) = none ∧
    Returns dashAbbrRegistry [[dash, dash], []]
      (.ok { initResults dashAbbrRegistry with Positional := [[]] }) ∧
    ({ initResults dashAbbrRegistry with Positional := [[]] } : Results).Option.get? (str "n") =
      some (str "d") ∧
    emptyNameOptionRegistry.options.get? [] = some ⟨[], str "d", []⟩ ∧
    Returns emptyNameOptionRegistry [longName [], []]
      (.ok { initResults emptyNameOptionRegistry with Positional := [[]] }) ∧
    ({ initResults emptyNameOptionRegistry with Positional := [[]] } : Results).Option.get? [] =
      some (str "d") := by
  refine ⟨by decide, by decide, ⟨1, by decide⟩, by decide, by decide, ⟨1, by decide⟩, by decide⟩

/-! ## The command is set by the first pass only -/

theorem flagLoop_Command (ap : Parser) (cur : GoString) (n : Nat) :
    ∀ (ii : Int) (r r1 : Results), flagLoop ap cur n ii r = .ok r1 → r1.Command = r.Command := by
  induction n with
  | zero => intro ii r r1 h; cases h; rfl
  | succ n ih =>
    intro ii r r1 h
    simp only [flagLoop, orPanic] at h
    split at h
    · split at h
      · exact ih _ (r.setFlag _) r1 h
      · cases h
    · cases h

theorem parseShort_Command (ap : Parser) (cur : GoString) (s s1 : State)
    (h : parseShort ap cur s = .ok s1) : s1.results.Command = s.results.Command := by
  have hF : ∀ (n : Nat) (r1 : Results), flagLoop ap cur n 1 s.results = .ok r1 →
      r1.Command = s.results.Command := fun n r1 => flagLoop_Command ap cur n 1 s.results r1
  unfold parseShort at h
  simp only [orPanic] at h
  repeat' split at h
  all_goals (try cases h)
  all_goals first
    | rfl
    | (have hc := hF _ _ (by assumption); exact hc)

theorem parseLong_Command (ap : Parser) (args : List GoString) (cur : GoString) (s s1 : State)
    (h : parseLong ap args cur s = .ok s1) : s1.results.Command = s.results.Command := by
  unfold parseLong at h
  simp only [orPanic] at h
  repeat' split at h
  all_goals (cases h <;> rfl)

theorem parseTwo_Command (ap : Parser) (args : List GoString) (cur : GoString) (s s1 : State)
    (h : parseTwo ap args cur s = .ok s1) : s1.results.Command = s.results.Command := by
  unfold parseTwo at h
  simp only [orPanic] at h
  repeat' split at h
  all_goals (cases h <;> rfl)

theorem classify_Command (ap : Parser) (args : List GoString) (cur : GoString) (s s1 : State)
    (h : classify ap args cur s = .ok s1) : s1.results.Command = s.results.Command := by
  unfold classify at h
  simp only [orPanic] at h
  repeat' split at h
  · exact parseShort_Command ap cur s s1 h
  · exact parseLong_Command ap args cur s s1 h
  · cases h
  · cases h; rfl
  · cases h
  · exact parseTwo_Command ap args cur s s1 h
  · cases h; rfl

theorem body_past_Command (ap : Parser) (args : List GoString) (s s1 : State)
    (hpast : s.pastCommandCheck ap) (hi : s.i < args.length) (hb : body ap args s = .ok s1) :
    s1.results.Command = s.results.Command := by
  have hcur : args.get? s.i = some (args.get ⟨s.i, hi⟩) := List.get?_eq_get hi
  generalize args.get ⟨s.i, hi⟩ = cur at hcur
  rw [body_of_past ap args s cur hcur hpast] at hb
  split at hb
  · cases hb; rfl
  · exact classify_Command ap args cur s s1 hb

theorem loop_past_Command (ap : Parser) (args : List GoString) (fuel : Nat) :
    ∀ (s : State) (r : Results), s.pastCommandCheck ap → loop ap args fuel s = some (.ok r) →
      r.Command = s.results.Command := by
  induction fuel with
  | zero =>
    intro s r _ h
    by_cases hi : s.i < args.length
    · simp [loop, hi] at h
    · rw [loop_done _ _ _ _ hi] at h
      cases h
      rfl
  | succ n ih =>
    intro s r hpast h
    by_cases hi : s.i < args.length
    · rw [loop_succ _ _ _ _ hi] at h
      cases hb : body ap args s with
      | ok s1 =>
        rw [hb] at h
        rw [ih s1 r (body_past_preserved ap args s s1 hpast hi hb) h]
        exact body_past_Command ap args s s1 hpast hi hb
      | err e => rw [hb] at h; cases h
      | panic => rw [hb] at h; cases h
    · rw [loop_done _ _ _ _ hi] at h
      cases h
      rfl

/-- C22 (as the code has it): when `Parse` returns results, their `Command` is
empty or it is the first token, which is then a declared command.  A pass at a
later position never changes `Command`, whatever the token there, and when the
token it classifies is positional-shaped, a declared command name included, it
appends it to `Positional`. -/
theorem command_only_from_first_token (ap : Parser) (args : List GoString) :
    (∀ r, Returns ap args (.ok r) →
      r.Command = [] ∨ ∃ rest, args = r.Command :: rest ∧ ap.commands.get? r.Command ≠ none) ∧
    (∀ s s1 : State, s.i ≠ 0 → s.i < args.length → body ap args s = .ok s1 →
      s1.results.Command = s.results.Command) ∧
    (∀ (s : State) (t : GoString), s.i ≠ 0 → args.get? s.i = some t →
      isPositionalShaped t = true →
      body ap args s = .ok { s with results := s.results.addPositional t, i := s.i + 1 }) := by
  refine ⟨?_, ?_, ?_⟩
  · rintro r ⟨fuel, h⟩
    unfold ParseFuel at h
    by_cases hpast : (initState ap).pastCommandCheck ap
    · exact Or.inl (loop_past_Command ap args fuel _ r hpast h)
    · obtain ⟨hskip, hi0, hlen⟩ := not_pastCommandCheck ap _ hpast
      cases args with
      | nil =>
        rw [loop_done _ _ _ _ (by simp)] at h
        cases h
        exact Or.inl rfl
      | cons a rest =>
        cases fuel with
        | zero => simp [loop, initState] at h
        | succ n =>
          rw [loop_succ _ _ _ _ (by simp [initState]),
            body_commandCheck ap (a :: rest) (initState ap) a rfl hskip hi0 hlen] at h
          cases hc : ap.commands.get? a with
          | some v =>
            rw [hc] at h
            have hr := loop_past_Command ap _ n _ r (Or.inl rfl) h
            simp only at hr
            refine Or.inr ⟨rest, by rw [hr], ?_⟩
            rw [hr, hc]
            simp
          | none =>
            rw [hc] at h
            by_cases hr : ap.CommandRequired = true
            · simp [hr] at h
            · simp only [hr, if_false, Bool.false_eq_true] at h
              exact Or.inl (loop_past_Command ap _ n _ r (Or.inl rfl) h)
  · intro s s1 hs hi hb
    exact body_past_Command ap args s s1 (Or.inr (Or.inl hs)) hi hb
  · intro s t hs hcur hshape
    exact body_positionalShaped ap args s t hcur (Or.inr (Or.inl hs)) hshape

theorem command_only_from_first_token_witness :
    Returns sampleWithCommand [str "run", str "file", str "run"]
      (.ok { initResults sampleWithCommand with
             Command := str "run", Positional := [str "file", str "run"] }) ∧
    ((str "run" : GoString) = [] ∨
      ∃ rest, [str "run", str "file", str "run"] = str "run" :: rest ∧
        sampleWithCommand.commands.get? (str "run") ≠ none) :=
  ⟨⟨3, by decide⟩,
   (command_only_from_first_token sampleWithCommand [str "run", str "file", str "run"]).1
     { initResults sampleWithCommand with
       Command := str "run", Positional := [str "file", str "run"] } ⟨3, by decide⟩⟩

/-- C22 fails for a command name that follows an option: in
`["run", "--out", "run"]` the second `run` is taken as the value of `out` and
`Positional` stays empty. -/
theorem later_command_name_counterexample :
    sampleWithCommand.commands.get? (str "run") ≠ none ∧
    Returns sampleWithCommand [str "run", str "--out", str "run"]
      (.ok { (initResults sampleWithCommand).setOption (str "out") (str "run") with
             Command := str "run" }) ∧
    ({ (initResults sampleWithCommand).setOption (str "out") (str "run") with
       Command := str "run" } : Results).Positional = [] := by
  refine ⟨by decide, ⟨2, by decide⟩, rfl⟩

/-! ## Indices and slices stay within bounds -/

theorem IndexRune_spec (c : Byte) (t : GoString) :
    IndexRune t c = -1 ∨
      (0 ≤ IndexRune t c ∧ IndexRune t c < (t.length : Int) ∧ byteAt t (IndexRune t c) = some c) := by
  induction t with
  | nil => exact Or.inl rfl
  | cons b t ih =>
    rw [IndexRune_cons]
    by_cases hb : b = c
    · subst hb
      refine Or.inr ?_
      simp only [if_true, List.length_cons]
      exact ⟨le_refl _, by omega, by simp [byteAt]⟩
    · rw [if_neg hb]
      rcases ih with h | ⟨h0, h1, h2⟩
      · exact Or.inl (by rw [if_pos h])
      · have hne : ¬ IndexRune t c = -1 := by omega
        rw [if_neg hne]
        refine Or.inr ⟨by omega, by simp only [List.length_cons]; omega, ?_⟩
        unfold byteAt at h2 ⊢
        rw [if_pos h0] at h2
        rw [if_pos (by omega)]
        have e : (IndexRune t c + 1).toNat = (IndexRune t c).toNat + 1 := by omega
        rw [e, List.get?_cons_succ, h2]

theorem byteAt_ne_none (t : GoString) (k : Int) (h0 : 0 ≤ k) (h1 : k < (t.length : Int)) :
    byteAt t k ≠ none := by
  unfold byteAt
  rw [if_pos h0]
  intro h
  rw [List.get?_eq_none] at h
  omega

theorem sliceFrom_ne_none (t : GoString) (lo : Int) (h0 : 0 ≤ lo) (h1 : lo ≤ (t.length : Int)) :
    sliceFrom t lo ≠ none := by
  unfold sliceFrom
  rw [if_pos ⟨h0, h1⟩]
  simp

theorem slice_ne_none (t : GoString) (lo hi : Int) (h0 : 0 ≤ lo) (h1 : lo ≤ hi)
    (h2 : hi ≤ (t.length : Int)) : slice t lo hi ≠ none := by
  unfold slice
  rw [if_pos ⟨h0, h1, h2⟩]
  simp

theorem flagLoop_ne_panic (ap : Parser) (cur : GoString) (n : Nat) :
    ∀ (ii : Int) (r : Results), 0 ≤ ii → ii + (n : Int) ≤ (cur.length : Int) →
      flagLoop ap cur n ii r ≠ .panic := by
  induction n with
  | zero => intro ii r _ _ h; cases h
  | succ n ih =>
    intro ii r h0 h1 h
    simp only [flagLoop, orPanic] at h
    split at h
    · split at h
      · exact ih (ii + 1) _ (by omega) (by push_cast at h1; omega) h
      · cases h
    · rename_i hb
      exact byteAt_ne_none cur ii h0 (by push_cast at h1; omega) hb

theorem parseShort_ne_panic (ap : Parser) (cur : GoString) (s : State)
    (hlen : cur.length > 2) (h0 : byteAt cur 0 = some dash) : parseShort ap cur s ≠ .panic := by
  have hIR := IndexRune_spec equalsSign cur
  have hne0 : IndexRune cur equalsSign ≠ 0 := by
    intro e
    rcases hIR with h | ⟨_, _, h⟩
    · omega
    · rw [e, h0] at h
      exact absurd h (by decide)
  have hF : ∀ (n : Nat), (1 : Int) + (n : Int) ≤ (cur.length : Int) →
      flagLoop ap cur n 1 s.results ≠ .panic :=
    fun n hn => flagLoop_ne_panic ap cur n 1 s.results (by omega) hn
  have hl : (2 : Int) < (cur.length : Int) := by omega
  intro h
  unfold parseShort at h
  simp only [orPanic] at h
  repeat' split at h
  all_goals (try cases h)
  all_goals first
    | (refine absurd (by assumption) (byteAt_ne_none cur _ ?_ ?_) <;> omega)
    | (refine absurd (by assumption) (sliceFrom_ne_none cur _ ?_ ?_) <;> omega)
    | (refine absurd (by assumption) (hF _ ?_); omega)

theorem parseLong_ne_panic (ap : Parser) (args : List GoString) (cur : GoString) (s : State)
    (hlen : cur.length > 2) (h0 : byteAt cur 0 = some dash) (h1 : byteAt cur 1 = some dash) :
    parseLong ap args cur s ≠ .panic := by
  have hIR := IndexRune_spec equalsSign cur
  have hne0 : IndexRune cur equalsSign ≠ 0 := by
    intro e
    rcases hIR with h | ⟨_, _, h⟩
    · omega
    · rw [e, h0] at h
      exact absurd h (by decide)
  have hne1 : IndexRune cur equalsSign ≠ 1 := by
    intro e
    rcases hIR with h | ⟨_, _, h⟩
    · omega
    · rw [e, h1] at h
      exact absurd h (by decide)
  have hl : (2 : Int) < (cur.length : Int) := by omega
  have hnext : ∀ next : GoString, ¬ next.length = 0 → byteAt next 0 ≠ none :=
    fun next hn => byteAt_ne_none next 0 (le_refl _) (by omega)
  have hargs : s.i + 1 < args.length → args.get? (s.i + 1) ≠ none := by
    intro hlt h
    rw [List.get?_eq_none] at h
    omega
  intro h
  unfold parseLong at h
  simp only [orPanic] at h
  repeat' split at h
  all_goals (try cases h)
  all_goals first
    | (refine absurd (by assumption) (slice_ne_none cur _ _ ?_ ?_ ?_) <;> omega)
    | (refine absurd (by assumption) (sliceFrom_ne_none cur _ ?_ ?_) <;> omega)
    | exact absurd (by assumption) (hnext _ (by assumption))
    | exact absurd (by assumption) (hargs (by assumption))

theorem parseTwo_ne_panic (ap : Parser) (args : List GoString) (cur : GoString) (s : State)
    (hlen : cur.length = 2) : parseTwo ap args cur s ≠ .panic := by
  have hl : (2 : Int) = (cur.length : Int) := by omega
  have hnext : ∀ next : GoString, ¬ next.length = 0 → byteAt next 0 ≠ none :=
    fun next hn => byteAt_ne_none next 0 (le_refl _) (by omega)
  have hargs : s.i + 1 < args.length → args.get? (s.i + 1) ≠ none := by
    intro hlt h
    rw [List.get?_eq_none] at h
    omega
  intro h
  unfold parseTwo at h
  simp only [orPanic] at h
  repeat' split at h
  all_goals (try cases h)
  all_goals first
    | (refine absurd (by assumption) (byteAt_ne_none cur _ ?_ ?_) <;> omega)
    | exact absurd (by assumption) (hnext _ (by assumption))
    | exact absurd (by assumption) (hargs (by assumption))

theorem classify_ne_panic (ap : Parser) (args : List GoString) (cur : GoString) (s : State) :
    classify ap args cur s ≠ .panic := by
  intro h
  unfold classify at h
  simp only [orPanic] at h
  split at h
  · rename_i hlen
    have hl : (2 : Int) < (cur.length : Int) := by omega
    split at h
    · split at h
      · split at h
        · split at h
          · rename_i h0 _ _ h1 _
            subst h0
            exact parseShort_ne_panic ap cur s hlen (by assumption) h
          · rename_i h0 _ c1 h1 hc1
            subst h0
            have e : c1 = dash := by simpa using hc1
            subst e
            exact parseLong_ne_panic ap args cur s hlen (by assumption) (by assumption) h
        · exact absurd (by assumption) (byteAt_ne_none cur 1 (by omega) (by omega))
      · cases h
    · exact absurd (by assumption) (byteAt_ne_none cur 0 (by omega) (by omega))
  · split at h
    · exact parseTwo_ne_panic ap args cur s (by assumption) h
    · cases h

theorem body_ne_panic (ap : Parser) (args : List GoString) (s : State)
    (hi : s.i < args.length) : body ap args s ≠ .panic := by
  have hcur : args.get? s.i = some (args.get ⟨s.i, hi⟩) := List.get?_eq_get hi
  generalize args.get ⟨s.i, hi⟩ = cur at hcur
  by_cases hpast : s.pastCommandCheck ap
  · rw [body_of_past ap args s cur hcur hpast]
    split
    · intro h; cases h
    · exact classify_ne_panic ap args cur s
  · obtain ⟨hskip, hi0, hlen⟩ := not_pastCommandCheck ap s hpast
    rw [body_commandCheck ap args s cur hcur hskip hi0 hlen]
    split
    · intro h; cases h
    · split <;> (intro h; cases h)

theorem body_cursor_le (ap : Parser) (args : List GoString) (s s1 : State)
    (hi : s.i < args.length) (hb : body ap args s = .ok s1) : s1.i ≤ args.length := by
  have hcur : args.get? s.i = some (args.get ⟨s.i, hi⟩) := List.get?_eq_get hi
  generalize args.get ⟨s.i, hi⟩ = cur at hcur
  by_cases hpast : s.pastCommandCheck ap
  · rw [body_of_past ap args s cur hcur hpast] at hb
    split at hb
    · cases hb
      exact Nat.le_refl _
    · rcases classify_cursor ap args cur s s1 hb with h | h | ⟨h, next, hn, _⟩
      · omega
      · omega
      · have := (List.get?_eq_some.mp hn).1
        omega
  · obtain ⟨hskip, hi0, hlen⟩ := not_pastCommandCheck ap s hpast
    rw [body_commandCheck ap args s cur hcur hskip hi0 hlen] at hb
    split at hb
    · cases hb
      exact hi
    · split at hb
      · cases hb
      · cases hb
        exact Nat.le_of_lt hi

theorem loop_ne_panic (ap : Parser) (args : List GoString) (fuel : Nat) :
    ∀ s : State, loop ap args fuel s ≠ some .panic := by
  induction fuel with
  | zero =>
    intro s h
    by_cases hi : s.i < args.length
    · simp [loop, hi] at h
    · rw [loop_done _ _ _ _ hi] at h
      cases h
  | succ n ih =>
    intro s h
    by_cases hi : s.i < args.length
    · rw [loop_succ _ _ _ _ hi] at h
      cases hb : body ap args s with
      | ok s1 => rw [hb] at h; exact ih s1 h
      | err e => rw [hb] at h; cases h
      | panic => exact body_ne_panic ap args s hi hb
    · rw [loop_done _ _ _ _ hi] at h
      cases h

/-- C25: on every registry and every token sequence, no pass of the loop of
`Parse` takes an index or a slice out of range (`args[i]`, `args[i+1]`,
`args[i][0]`, `args[i][1]`, `args[i][ii]`, `args[i][equals-1]`,
`args[i][2:equals]`, `args[i][equals+1:]`, `args[i][2:]`, `args[i][3:]`), so
`Parse` never panics, and the cursor never exceeds the number of tokens. -/
theorem index_safety (ap : Parser) (args : List GoString) :
    (∀ s : State, s.i < args.length → body ap args s ≠ .panic) ∧
    (∀ fuel, ParseFuel ap args fuel ≠ some .panic) ∧
    (∀ s : State, Visits ap args s → s.i ≤ args.length) := by
  refine ⟨body_ne_panic ap args, fun fuel => loop_ne_panic ap args fuel _, ?_⟩
  intro s hs
  induction hs with
  | entry => exact Nat.zero_le _
  | pass s s1 _ hi hb _ => exact body_cursor_le ap args s s1 hi hb

theorem index_safety_witness :
    Visits sampleRegistry [str "--out"] (initState sampleRegistry) ∧
    (initState sampleRegistry).i ≤ [str "--out"].length ∧
    ParseFuel sampleRegistry [[], str "-", str "-=v", str "--=v", str "---", str "--out"] 7 ≠
      some .panic ∧
    ParseFuel sampleRegistry [str "-=", str "--="] 3 ≠ some .panic :=
  ⟨Visits.entry,
   (index_safety sampleRegistry [str "--out"]).2.2 _ Visits.entry,
   (index_safety sampleRegistry _).2.1 7, (index_safety sampleRegistry _).2.1 3⟩

/-! ## The message of the command check -/

theorem stringOfRune_length_le (r : Rune) : (stringOfRune r).length ≤ 4 := by
  unfold stringOfRune
  split
  · simp
  · simp only
    repeat' split
    all_goals simp

theorem notACommand_eq_invalidArgument (a : GoString) :
    Error.notACommand a = Error.invalidArgument (notACommandText a) := rfl

theorem invalidArgument_injective (x y : GoString)
    (h : Error.invalidArgument x = Error.invalidArgument y) : x = y := by
  unfold Error.invalidArgument at h
  exact List.append_cancel_left (Error.mk.inj h)

theorem notACommand_injective (a b : GoString) (h : Error.notACommand a = Error.notACommand b) :
    a = b := by
  have h1 := invalidArgument_injective _ _ h
  unfold notACommandText at h1
  exact List.append_cancel_right (List.cons.inj h1).2

theorem missingValue_ne_notACommand (x a : GoString) :
    Error.missingValue x ≠ Error.notACommand a := by
  intro h
  have h1 := congrArg Error.isMissingValue h
  have h2 : (Error.missingValue x).isMissingValue = true := isPrefixOf_append_self _ _
  have h3 : (Error.notACommand a).isMissingValue = false := rfl
  rw [h2, h3] at h1
  cases h1

theorem missingValueAbbr_ne_notACommand (c : Byte) (a : GoString) :
    Error.missingValueAbbr c ≠ Error.notACommand a :=
  missingValue_ne_notACommand _ a

theorem invalidValue_ne_notACommand (x v a : GoString) :
    Error.invalidValue x v ≠ Error.notACommand a := by
  intro h
  have h1 := congrArg Error.isInvalidValue h
  have h2 : (Error.invalidValue x v).isInvalidValue = true := isPrefixOf_append_self _ _
  have h3 : (Error.notACommand a).isInvalidValue = false := rfl
  rw [h2, h3] at h1
  cases h1

theorem invalidValueAbbr_ne_notACommand (c : Byte) (v a : GoString) :
    Error.invalidValueAbbr c v ≠ Error.notACommand a :=
  invalidValue_ne_notACommand _ v a

theorem flagDoesNotExist_ne_notACommand (c : Byte) (a : GoString) :
    Error.flagDoesNotExist c ≠ Error.notACommand a := by
  intro h
  have h1 := congrArg (fun e => e.message.get? 18) h
  have h2 : (Error.flagDoesNotExist c).message.get? 18 = some (byteOf 'f') := rfl
  have h3 : (Error.notACommand a).message.get? 18 = some quote := rfl
  simp only [h2, h3] at h1
  exact absurd h1 (by decide)

theorem invalidArgumentAbbr_ne_notACommand (c : Byte) (a : GoString) :
    Error.invalidArgumentAbbr c ≠ Error.notACommand a := by
  intro h
  have h1 := congrArg List.length (invalidArgument_injective _ _ h)
  have h2 := stringOfRune_length_le (runeOf c)
  have h3 : (str " is not a command").length = 17 := by decide
  simp only [notACommandText, List.length_cons, List.length_append, h3] at h1
  omega

theorem IndexRune_of_mem (t : GoString) (c : Byte) (h : c ∈ t) : IndexRune t c ≠ -1 := by
  rcases IndexRune_spec c t with h1 | ⟨h1, _, _⟩
  · induction t with
    | nil => cases h
    | cons b t ih =>
      rw [IndexRune_cons] at h1
      by_cases hb : b = c
      · rw [if_pos hb] at h1
        cases h1
      · rw [if_neg hb] at h1
        rcases List.mem_cons.mp h with e | e
        · exact absurd e.symm hb
        · by_cases h2 : IndexRune t c = -1
          · exact absurd h2 (ih e h2)
          · rw [if_neg h2] at h1
            have := IndexRune_spec c t
            omega
  · omega

theorem parseShort_ne_notACommand (ap : Parser) (cur : GoString) (s : State) (a : GoString) :
    parseShort ap cur s ≠ .err (.notACommand a) := by
  intro h
  unfold parseShort at h
  simp only [orPanic] at h
  repeat' split at h
  all_goals first
    | exact absurd (Outcome.err.inj h) (missingValueAbbr_ne_notACommand _ _)
    | exact absurd (Outcome.err.inj h) (invalidValueAbbr_ne_notACommand _ _ _)
    | (cases h; done)
    | (rename_i hfl
       obtain ⟨c, hc⟩ := flagLoop_err _ _ _ _ _ _ hfl
       rw [hc] at h
       exact absurd (Outcome.err.inj h) (flagDoesNotExist_ne_notACommand _ _))

theorem parseTwo_ne_notACommand (ap : Parser) (args : List GoString) (cur : GoString)
    (s : State) (a : GoString) : parseTwo ap args cur s ≠ .err (.notACommand a) := by
  intro h
  unfold parseTwo at h
  simp only [orPanic] at h
  repeat' split at h
  all_goals first
    | exact absurd (Outcome.err.inj h) (missingValue_ne_notACommand _ _)
    | exact absurd (Outcome.err.inj h) (invalidArgumentAbbr_ne_notACommand _ _)
    | cases h

theorem parseLong_eq_notACommand (ap : Parser) (args : List GoString) (cur : GoString)
    (s : State) (a : GoString) (h : parseLong ap args cur s = .err (.notACommand a)) :
    IndexRune cur equalsSign = -1 ∧ sliceFrom cur 2 = some (notACommandText a) ∧
      ap.flags.get? (notACommandText a) = none ∧ ap.options.get? (notACommandText a) = none := by
  unfold parseLong at h
  simp only [orPanic] at h
  repeat' split at h
  all_goals first
    | exact absurd (Outcome.err.inj h) (missingValue_ne_notACommand _ _)
    | exact absurd (Outcome.err.inj h) (invalidValue_ne_notACommand _ _ _)
    | (cases h; done)
    | skip
  rename_i hidx _ arg harg _ hfl _ hop
  have e := invalidArgument_injective _ _ (Outcome.err.inj h)
  subst e
  exact ⟨not_not.mp hidx, harg, hfl, hop⟩

theorem eq_of_long_shape (cur x : GoString) (h0 : byteAt cur 0 = some dash)
    (h1 : byteAt cur 1 = some dash) (hsl : sliceFrom cur 2 = some x) :
    cur = dash :: dash :: x := by
  match cur, h0, h1, hsl with
  | [], h0, _, _ => simp [byteAt] at h0
  | [b0], _, h1, _ => simp [byteAt] at h1
  | b0 :: b1 :: rest, h0, h1, hsl =>
    simp only [byteAt_zero, List.head?_cons, Option.some.injEq, byteAt_one] at h0 h1
    rw [sliceFrom_two] at hsl
    simp only [Option.some.injEq] at hsl
    rw [h0, h1, hsl]

theorem classify_eq_notACommand (ap : Parser) (args : List GoString) (cur : GoString)
    (s : State) (a : GoString) (h : classify ap args cur s = .err (.notACommand a)) :
    cur = longName (notACommandText a) ∧ equalsSign ∉ a ∧
      ap.flags.get? (notACommandText a) = none ∧ ap.options.get? (notACommandText a) = none := by
  unfold classify at h
  simp only [orPanic] at h
  repeat' split at h
  · exact absurd h (parseShort_ne_notACommand ap cur s a)
  · rename_i hlen _ c0 h0 hc0 _ c1 h1 hc1
    obtain ⟨hidx, hsl, hfl, hop⟩ := parseLong_eq_notACommand ap args cur s a h
    rw [hc0] at h0
    rw [not_not.mp hc1] at h1
    have hcur := eq_of_long_shape cur _ h0 h1 hsl
    refine ⟨hcur, ?_, hfl, hop⟩
    intro hm
    apply IndexRune_of_mem cur equalsSign _ hidx
    rw [hcur]
    simp [notACommandText, hm]
  · cases h
  · cases h
  · cases h
  · exact absurd h (parseTwo_ne_notACommand ap args cur s a)
  · cases h

theorem Returns_of_Visits (ap : Parser) (args : List GoString) (s : State)
    (hv : Visits ap args s) :
    ∀ (out : Outcome Results) (fuel : Nat), loop ap args fuel s = some out →
      Returns ap args out := by
  induction hv with
  | entry => exact fun out fuel h => ⟨fuel, h⟩
  | pass s s1 _ hi hb ih =>
    intro out fuel h
    exact ih out (fuel + 1) (by rw [loop_succ_ok ap args fuel s s1 hi hb]; exact h)

theorem loop_err_Visits (ap : Parser) (args : List GoString) (e : Error) (fuel : Nat) :
    ∀ s : State, Visits ap args s → loop ap args fuel s = some (.err e) →
      ∃ s1, Visits ap args s1 ∧ s1.i < args.length ∧ body ap args s1 = .err e := by
  induction fuel with
  | zero =>
    intro s _ h
    by_cases hi : s.i < args.length
    · simp [loop, hi] at h
    · rw [loop_done _ _ _ _ hi] at h
      cases h
  | succ n ih =>
    intro s hv h
    by_cases hi : s.i < args.length
    · rw [loop_succ _ _ _ _ hi] at h
      cases hb : body ap args s with
      | ok s1 =>
        rw [hb] at h
        exact ih s1 (Visits.pass s s1 hv hi hb) h
      | err e1 =>
        rw [hb] at h
        simp only [Option.some.injEq, Outcome.err.injEq] at h
        exact ⟨s, hv, hi, by rw [hb, h]⟩
      | panic => rw [hb] at h; cases h
    · rw [loop_done _ _ _ _ hi] at h
      cases h

theorem parseLong_unknown (ap : Parser) (args : List GoString) (s : State) (n : GoString)
    (hne : equalsSign ∉ n) (hfl : ap.flags.get? n = none) (hop : ap.options.get? n = none) :
    parseLong ap args (dash :: dash :: n) s = .err (.invalidArgument n) := by
  have hidx : IndexRune (dash :: dash :: n) equalsSign = -1 :=
    IndexRune_of_not_mem _ _ (by simp [hne]; decide)
  unfold parseLong
  simp only [hidx, ne_eq, not_true_eq_false, if_false, sliceFrom_two, orPanic, hfl, hop]

/-- C12 (as the code has it): `Parse` returns the error with the message
`invalid argument: "a" is not a command` exactly when either at least one
command is registered, `CommandRequired` is set, and `a` is the first token
and not a registered command, or the scan comes, past the command check, to a
token `--"a" is not a command` without `=` whose text after the dashes is
neither a declared flag nor a declared option.  An empty token sequence gives
no error at all, and with no command registered the value of `CommandRequired`
changes nothing in what `Parse` does. -/
theorem required_command_error_iff (ap : Parser) (args : List GoString) :
    (∀ a, Returns ap args (.err (.notACommand a)) ↔
      ((ap.commands.len ≠ 0 ∧ ap.CommandRequired = true ∧
          ∃ rest, args = a :: rest ∧ ap.commands.get? a = none) ∨
        (∃ s, Visits ap args s ∧ s.pastCommandCheck ap ∧
          args.get? s.i = some (longName (notACommandText a)) ∧ equalsSign ∉ a ∧
          ap.flags.get? (notACommandText a) = none ∧
          ap.options.get? (notACommandText a) = none))) ∧
    (∀ e, ¬ Returns ap [] (.err e)) ∧
    (ap.commands.len = 0 → ∀ (b : Bool) (fuel : Nat),
      ParseFuel { ap with CommandRequired := b } args fuel = ParseFuel ap args fuel) := by
  refine ⟨fun a => ⟨?_, ?_⟩, fun e h => ?_, ?_⟩
  · rintro ⟨fuel, h⟩
    obtain ⟨s, hv, hi, hb⟩ := loop_err_Visits ap args _ fuel _ Visits.entry h
    have hcur : args.get? s.i = some (args.get ⟨s.i, hi⟩) := List.get?_eq_get hi
    generalize args.get ⟨s.i, hi⟩ = cur at hcur
    by_cases hpast : s.pastCommandCheck ap
    · rw [body_of_past ap args s cur hcur hpast] at hb
      split at hb
      · cases hb
      · obtain ⟨hc, hne, hfl, hop⟩ := classify_eq_notACommand ap args cur s a hb
        exact Or.inr ⟨s, hv, hpast, by rw [hcur, hc], hne, hfl, hop⟩
    · obtain ⟨hskip, hi0, hlen⟩ := not_pastCommandCheck ap s hpast
      rw [body_commandCheck ap args s cur hcur hskip hi0 hlen] at hb
      cases hc : ap.commands.get? cur with
      | some v => rw [hc] at hb; cases hb
      | none =>
        rw [hc] at hb
        by_cases hr : ap.CommandRequired = true
        · simp only [hr, if_true] at hb
          have e := notACommand_injective _ _ (Outcome.err.inj hb)
          subst e
          refine Or.inl ⟨hlen, hr, args.tail, ?_, hc⟩
          rw [hi0] at hcur
          cases args with
          | nil => cases hcur
          | cons t rest =>
            simp only [List.get?_cons_zero, Option.some.injEq] at hcur
            rw [hcur]
            rfl
        · simp only [hr, if_false, Bool.false_eq_true] at hb
          cases hb
  · rintro (⟨hlen, hr, rest, rfl, hc⟩ | ⟨s, hv, hpast, hcur, hne, hfl, hop⟩)
    · refine ⟨1, ?_⟩
      unfold ParseFuel
      rw [loop_succ _ _ _ _ (by simp [initState]),
        body_commandCheck ap (a :: rest) (initState ap) a rfl rfl rfl hlen, hc]
      simp [hr]
    · have hi : s.i < args.length := (List.get?_eq_some.mp hcur).1
      have hne2 : equalsSign ∉ notACommandText a := by
        intro hm
        simp only [notACommandText, List.mem_cons, List.mem_append] at hm
        rcases hm with h1 | h1 | h1 | h1
        · exact absurd h1 (by decide)
        · exact hne h1
        · exact absurd h1 (by decide)
        · exact absurd h1 (by decide)
      have hb : body ap args s = .err (.notACommand a) := by
        rw [body_of_past ap args s _ hcur hpast]
        unfold longName notACommandText
        rw [if_neg (long_ne_terminator _ _), classify_to_parseLong]
        exact parseLong_unknown ap args s (notACommandText a) hne2 hfl hop
      exact Returns_of_Visits ap args s hv _ 1 (loop_succ_err ap args 0 s _ hi hb)
  · have h0 : Returns ap [] (.ok (initResults ap)) := ⟨0, rfl⟩
    cases Returns_unique ap [] _ _ h h0
  · intro hlen b fuel
    unfold ParseFuel
    rw [loop_congr_commandRequired ap b args hlen fuel]
    rfl

theorem required_command_error_iff_witness :
    sampleRegistry.commands.len = 0 ∧
    Returns { sampleWithCommand with CommandRequired := true } [str "walk", str "file"]
      (.err (.notACommand (str "walk"))) ∧
    ParseFuel { sampleRegistry with CommandRequired := true } [str "walk", str "file"] 3 =
      ParseFuel sampleRegistry [str "walk", str "file"] 3 :=
  ⟨by decide,
   ((required_command_error_iff { sampleWithCommand with CommandRequired := true }
      [str "walk", str "file"]).1 (str "walk")).2
      (Or.inl ⟨by decide, by decide, [str "file"], rfl, by decide⟩),
   (required_command_error_iff sampleRegistry [str "walk", str "file"]).2.2 (by decide) true 3⟩

/-- C12 fails for a token that spells the message: `"walk" is not a command` is
neither a flag nor an option, so on the token `--"walk" is not a command` the
long-name branch (lines 564-566) returns the message
`invalid argument: "walk" is not a command`, with no command registered and
also after the registered command `run` has been taken. -/
theorem required_command_message_counterexample :
    emptyRegistry.commands.len = 0 ∧
    Returns emptyRegistry [longName (notACommandText (str "walk"))]
      (.err (.notACommand (str "walk"))) ∧
    sampleWithCommand.commands.get? (str "run") ≠ none ∧
    Returns sampleWithCommand [str "run", longName (notACommandText (str "walk"))]
      (.err (.notACommand (str "walk"))) := by
  refine ⟨by decide, ⟨1, by decide⟩, by decide, ⟨2, by decide⟩⟩

/-! ## The last assignment to an option -/

theorem takeWhile_length_le {α : Type} (p : α → Bool) (l : List α) :
    (l.takeWhile p).length ≤ l.length := by
  induction l with
  | nil => simp
  | cons a l ih =>
    rw [List.takeWhile_cons]
    split <;> simp only [List.length_cons, List.length_nil] <;> omega

theorem take_takeWhile_length {α : Type} (p : α → Bool) (l : List α) :
    l.take (l.takeWhile p).length = l.takeWhile p := by
  have h := List.take_left (l.takeWhile p) (l.dropWhile p)
  rwa [List.takeWhile_append_dropWhile] at h

theorem drop_takeWhile_length {α : Type} (p : α → Bool) (l : List α) :
    l.drop (l.takeWhile p).length = l.dropWhile p := by
  have h := List.drop_left (l.takeWhile p) (l.dropWhile p)
  rwa [List.takeWhile_append_dropWhile] at h

theorem IndexRune_eq_length_beforeEquals (t : GoString) (h : equalsSign ∈ t) :
    IndexRune t equalsSign = ((beforeEquals t).length : Int) := by
  induction t with
  | nil => cases h
  | cons b t ih =>
    rw [IndexRune_cons]
    by_cases hb : b = equalsSign
    · subst hb
      simp [beforeEquals]
    · rw [if_neg hb]
      have ht : equalsSign ∈ t := by
        rcases List.mem_cons.mp h with e | e
        · exact absurd e.symm hb
        · exact e
      have hne : IndexRune t equalsSign ≠ -1 := by
        rw [ih ht]
        omega
      rw [if_neg hne, ih ht]
      have hbb : (b != equalsSign) = true := by simpa using hb
      simp [beforeEquals, List.takeWhile_cons, hbb]

theorem afterEquals_eq_drop (t : GoString) :
    afterEquals t = t.drop ((beforeEquals t).length + 1) := by
  unfold afterEquals beforeEquals
  rw [← drop_takeWhile_length, List.drop_drop]

theorem beforeEquals_eq_take (t : GoString) :
    beforeEquals t = t.take (beforeEquals t).length :=
  (take_takeWhile_length _ t).symm

theorem beforeEquals_length_lt (t : GoString) (h : equalsSign ∈ t) :
    (beforeEquals t).length < t.length := by
  induction t with
  | nil => cases h
  | cons b t ih =>
    by_cases hb : b = equalsSign
    · subst hb
      simp [beforeEquals]
    · have ht : equalsSign ∈ t := by
        rcases List.mem_cons.mp h with e | e
        · exact absurd e.symm hb
        · exact e
      have hbb : (b != equalsSign) = true := by simpa using hb
      have := ih ht
      simp only [beforeEquals, List.takeWhile_cons, hbb, if_true, List.length_cons] at this ⊢
      omega

theorem sliceFrom_eq_some (t : GoString) (lo : Int) (x : GoString)
    (h : sliceFrom t lo = some x) : 0 ≤ lo ∧ lo ≤ (t.length : Int) ∧ x = t.drop lo.toNat := by
  unfold sliceFrom at h
  split at h
  · rename_i hc
    simp only [Option.some.injEq] at h
    exact ⟨hc.1, hc.2, h.symm⟩
  · cases h

theorem slice_eq_some (t : GoString) (lo hi : Int) (x : GoString)
    (h : slice t lo hi = some x) :
    0 ≤ lo ∧ lo ≤ hi ∧ hi ≤ (t.length : Int) ∧ x = (t.take hi.toNat).drop lo.toNat := by
  unfold slice at h
  split at h
  · rename_i hc
    simp only [Option.some.injEq] at h
    exact ⟨hc.1, hc.2.1, hc.2.2, h.symm⟩
  · cases h

theorem byteAt_eq_some (t : GoString) (k : Int) (b : Byte) (h : byteAt t k = some b) :
    0 ≤ k ∧ t.get? k.toNat = some b := by
  unfold byteAt at h
  split at h
  · rename_i hc
    exact ⟨hc, h⟩
  · cases h

theorem getLast?_take {α : Type} (l : List α) (k : Nat) (hk : k + 1 ≤ l.length) :
    (l.take (k + 1)).getLast? = l.get? k := by
  induction l generalizing k with
  | nil => simp at hk
  | cons a l ih =>
    cases k with
    | zero => simp
    | succ k =>
      simp only [List.length_cons] at hk
      have h1 := ih k (by omega)
      rw [List.take_succ_cons, List.get?_cons_succ, ← h1]
      cases hl : l.take (k + 1) with
      | nil => simp at hl; subst hl; simp at hk
      | cons x xs => simp [List.getLast?_cons_cons]

theorem flagLoop_Option (ap : Parser) (cur : GoString) (n : Nat) :
    ∀ (ii : Int) (r r1 : Results), flagLoop ap cur n ii r = .ok r1 → r1.Option = r.Option := by
  induction n with
  | zero => intro ii r r1 h; cases h; rfl
  | succ n ih =>
    intro ii r r1 h
    simp only [flagLoop, orPanic] at h
    split at h
    · split at h
      · exact ih _ (r.setFlag _) r1 h
      · cases h
    · cases h

theorem specAttached_short_noEquals (ap : Parser) (b c : Byte) (rest : GoString)
    (hb : b ≠ dash) (hm : equalsSign ∉ dash :: b :: c :: rest) :
    specAttached ap (dash :: b :: c :: rest) =
      (ap.optionsAbbr.get? (runeOf b)).map fun n => (n, c :: rest) := by
  simp only [specAttached, ne_eq, not_true_eq_false, if_false, if_neg hm, if_neg hb]

theorem specAttached_short_equals (ap : Parser) (b c : Byte) (rest : GoString)
    (hb : b ≠ dash) (hm : equalsSign ∈ dash :: b :: c :: rest) :
    specAttached ap (dash :: b :: c :: rest) =
      if afterEquals (dash :: b :: c :: rest) = [] then none
      else
        match (beforeEquals (dash :: b :: c :: rest)).getLast? with
        | some o => (ap.optionsAbbr.get? (runeOf o)).map fun n =>
            (n, afterEquals (dash :: b :: c :: rest))
        | none => none := by
  unfold specAttached
  simp only [ne_eq, not_true_eq_false, if_false, if_pos hm, if_neg hb]

/-- What the index of the first `=` says about the text around it. -/
theorem equals_index_facts (cur : GoString) (hm : equalsSign ∈ cur) :
    (∀ a, byteAt cur (IndexRune cur equalsSign - 1) = some a →
      (beforeEquals cur).getLast? = some a) ∧
    (∀ x, sliceFrom cur (IndexRune cur equalsSign + 1) = some x → x = afterEquals cur) ∧
    (IndexRune cur equalsSign + 1 < (cur.length : Int) → afterEquals cur ≠ []) ∧
    (∀ lo x, slice cur lo (IndexRune cur equalsSign) = some x →
      x = (beforeEquals cur).drop lo.toNat) := by
  have hE := IndexRune_eq_length_beforeEquals _ hm
  have hlt := beforeEquals_length_lt _ hm
  have hA := afterEquals_eq_drop cur
  have hB := beforeEquals_eq_take cur
  generalize (beforeEquals cur).length = e at *
  refine ⟨?_, ?_, ?_, ?_⟩
  · intro a h
    obtain ⟨h0, h1⟩ := byteAt_eq_some _ _ _ h
    rw [hE] at h0 h1
    obtain ⟨k, rfl⟩ : ∃ k, e = k + 1 := ⟨e - 1, by omega⟩
    have hk : ((k + 1 : Nat) : Int) - 1 = (k : Int) := by push_cast; omega
    rw [hk, Int.toNat_natCast] at h1
    rw [hB, getLast?_take cur k (by omega), h1]
  · intro x h
    obtain ⟨_, _, h1⟩ := sliceFrom_eq_some _ _ _ h
    rw [hE] at h1
    have hk : ((e : Int) + 1).toNat = e + 1 := by omega
    rw [hk] at h1
    rw [h1, hA]
  · intro h
    rw [hE] at h
    rw [hA]
    intro hd
    have := congrArg List.length hd
    simp only [List.length_drop, List.length_nil] at this
    omega
  · intro lo x h
    obtain ⟨_, _, _, h1⟩ := slice_eq_some _ _ _ _ h
    rw [hE, Int.toNat_natCast, ← hB] at h1
    exact h1

theorem parseShort_assigns (ap : Parser) (s s1 : State) (b c : Byte) (rest : GoString)
    (hb : b ≠ dash) (h : parseShort ap (dash :: b :: c :: rest) s = .ok s1) :
    s1 = s ∨ (s1.i = s.i + 1 ∧ s1.results.Option =
      match specAttached ap (dash :: b :: c :: rest) with
      | some p => s.results.Option.set p.1 p.2
      | none => s.results.Option) := by
  by_cases hm : equalsSign ∈ dash :: b :: c :: rest
  · rw [specAttached_short_equals ap b c rest hb hm]
    obtain ⟨hlast, hafter, hne, _⟩ := equals_index_facts _ hm
    generalize dash :: b :: c :: rest = cur at *
    unfold parseShort at h
    simp only [orPanic] at h
    split at h
    · split at h
      · rename_i hE2
        rw [hE2] at hlast hafter hne
        simp only [Int.reduceSub, Int.reduceAdd] at hlast hafter hne
        repeat' split at h
        all_goals try (cases h; done)
        · rename_i a1 ha1 _ op hop hlen _ tmp htmp hal
          cases h
          refine Or.inr ⟨rfl, ?_⟩
          have h3 : (3 : Int) < cur.length := hlen
          rw [if_neg (hne h3)]
          simp only [hlast _ ha1, hop, Option.map_some', ← hafter _ htmp]
          rfl
        · cases h
          exact Or.inl rfl
      · repeat' split at h
        all_goals try (cases h; done)
        · rename_i r hr hlen _ a1 ha1 _ op hop _ tmp htmp hal
          cases h
          refine Or.inr ⟨rfl, ?_⟩
          rw [if_neg (hne hlen)]
          simp only [hlast _ ha1, hop, Option.map_some', ← hafter _ htmp]
          simp only [Results.setOption, flagLoop_Option _ _ _ _ _ _ hr]
        · rename_i r hr hlen _ a1 ha1 _ hop
          cases h
          refine Or.inr ⟨rfl, ?_⟩
          rw [if_neg (hne hlen)]
          simp only [hlast _ ha1, hop, Option.map_none']
          exact flagLoop_Option _ _ _ _ _ _ hr
    · rename_i hidx
      exact absurd (not_not.mp hidx) (IndexRune_of_mem _ _ hm)
  · rw [specAttached_short_noEquals ap b c rest hb hm]
    have hidx := IndexRune_of_not_mem _ _ hm
    unfold parseShort at h
    simp only [hidx, ne_eq, not_true_eq_false, if_false, byteAt_one, sliceFrom_two, orPanic] at h
    repeat' split at h
    all_goals try (cases h; done)
    · rename_i op hop hal
      cases h
      refine Or.inr ⟨rfl, ?_⟩
      simp only [hop, Option.map_some']
      rfl
    · rename_i hop _ r hr
      cases h
      refine Or.inr ⟨rfl, ?_⟩
      simp only [hop, Option.map_none']
      exact flagLoop_Option _ _ _ _ _ _ hr

theorem specSeparate_long (ap : Parser) (c : Byte) (rest : GoString) :
    specSeparate ap (dash :: dash :: c :: rest) =
      if equalsSign ∉ dash :: dash :: c :: rest ∧ ap.flags.get? (c :: rest) = none ∧
          ap.options.get? (c :: rest) ≠ none then
        some (c :: rest)
      else none := by
  unfold specSeparate
  simp only [true_and]

theorem specAttached_long (ap : Parser) (c : Byte) (rest : GoString) :
    specAttached ap (dash :: dash :: c :: rest) =
      if equalsSign ∈ dash :: dash :: c :: rest then
        if afterEquals (dash :: dash :: c :: rest) = [] then none
        else some ((beforeEquals (dash :: dash :: c :: rest)).drop 2,
          afterEquals (dash :: dash :: c :: rest))
      else none := by
  unfold specAttached
  simp only [ne_eq, not_true_eq_false, if_false, if_true]

theorem parseLong_assigns (ap : Parser) (args : List GoString) (s s1 : State) (c : Byte)
    (rest : GoString) (h : parseLong ap args (dash :: dash :: c :: rest) s = .ok s1) :
    match specSeparate ap (dash :: dash :: c :: rest) with
    | some m => ∃ w, args.get? (s.i + 1) = some w ∧ s1.i = s.i + 2 ∧
        s1.results.Option = s.results.Option.set m w
    | none => s1.i = s.i + 1 ∧ s1.results.Option =
        match specAttached ap (dash :: dash :: c :: rest) with
        | some p => s.results.Option.set p.1 p.2
        | none => s.results.Option := by
  rw [specSeparate_long, specAttached_long]
  by_cases hm : equalsSign ∈ dash :: dash :: c :: rest
  · have hnm : ¬ (equalsSign ∉ dash :: dash :: c :: rest ∧ ap.flags.get? (c :: rest) = none ∧
        ap.options.get? (c :: rest) ≠ none) := fun hc => hc.1 hm
    rw [if_neg hnm, if_pos hm]
    obtain ⟨_, hafter, hne, hbefore⟩ := equals_index_facts _ hm
    generalize dash :: dash :: c :: rest = cur at *
    unfold parseLong at h
    simp only [orPanic] at h
    repeat' split at h
    all_goals try (cases h; done)
    · rename_i _ op hop hlen _ val hval hal
      cases h
      refine ⟨rfl, ?_⟩
      rw [if_neg (hne hlen)]
      have e1 := hbefore _ _ hop
      have e2 : (2 : Int).toNat = 2 := rfl
      rw [e2] at e1
      simp only [← hafter _ hval, ← e1]
      rfl
    all_goals exact absurd (not_not.mp (by assumption)) (IndexRune_of_mem _ _ hm)
  · rw [if_neg hm]
    have hidx := IndexRune_of_not_mem _ _ hm
    unfold parseLong at h
    simp only [hidx, ne_eq, not_true_eq_false, if_false, sliceFrom_two, orPanic] at h
    repeat' split at h
    all_goals try (cases h; done)
    · rename_i fl hfl
      cases h
      have hn : ¬ (equalsSign ∉ dash :: dash :: c :: rest ∧ ap.flags.get? (c :: rest) = none ∧
          ap.options.get? (c :: rest) ≠ none) := by
        intro hc
        rw [hc.2.1] at hfl
        cases hfl
      rw [if_neg hn]
      exact ⟨rfl, rfl⟩
    · rename_i hfl _ o hop hlt _ w hw hl
      cases h
      rw [if_pos ⟨hm, hfl, by rw [hop]; exact Option.some_ne_none _⟩]
      exact ⟨w, hw, rfl, rfl⟩
    · rename_i hfl _ o hop hlt _ w hw hl _ w0 hw0 hd hal
      cases h
      rw [if_pos ⟨hm, hfl, by rw [hop]; exact Option.some_ne_none _⟩]
      exact ⟨w, hw, rfl, rfl⟩

theorem parseTwo_assigns (ap : Parser) (args : List GoString) (s s1 : State) (a b : Byte)
    (h : parseTwo ap args [a, b] s = .ok s1) :
    match specSeparate ap [a, b] with
    | some m => ∃ w, args.get? (s.i + 1) = some w ∧ s1.i = s.i + 2 ∧
        s1.results.Option = s.results.Option.set m w
    | none => s1.i = s.i + 1 ∧ s1.results.Option = s.results.Option := by
  have hsep : specSeparate ap [a, b] =
      if a = dash ∧ ap.flagsAbbr.get? (runeOf b) = none then ap.optionsAbbr.get? (runeOf b)
      else none := rfl
  rw [hsep]
  unfold parseTwo at h
  simp only [byteAt_zero, List.head?_cons, orPanic, byteAt_one] at h
  repeat' split at h
  all_goals try (cases h; done)
  · rename_i ha _ fl hfl
    cases h
    have hn : ¬ (a = dash ∧ ap.flagsAbbr.get? (runeOf b) = none) := by
      intro hc
      rw [hc.2] at hfl
      cases hfl
    rw [if_neg hn]
    exact ⟨rfl, rfl⟩
  · rename_i ha _ hfl _ op hop hlt _ w hw hl
    cases h
    rw [if_pos ⟨ha, hfl⟩, hop]
    exact ⟨w, hw, rfl, rfl⟩
  · rename_i ha _ hfl _ op hop hlt _ w hw hl _ w0 hw0 hd
    cases h
    rw [if_pos ⟨ha, hfl⟩, hop]
    exact ⟨w, hw, rfl, rfl⟩
  · rename_i ha
    cases h
    have hn : ¬ (a = dash ∧ ap.flagsAbbr.get? (runeOf b) = none) := fun hc => ha hc.1
    rw [if_neg hn]
    exact ⟨rfl, rfl⟩

/-- What a pass that classifies the token `cur` does to the cursor and to the
options, read off the shape of `cur`. -/
theorem classify_assigns (ap : Parser) (args : List GoString) (cur : GoString) (s s1 : State)
    (h : classify ap args cur s = .ok s1) :
    match specSeparate ap cur with
    | some m => ∃ w, args.get? (s.i + 1) = some w ∧ s1.i = s.i + 2 ∧
        s1.results.Option = s.results.Option.set m w
    | none => s1 = s ∨ (s1.i = s.i + 1 ∧ s1.results.Option =
        match specAttached ap cur with
        | some p => s.results.Option.set p.1 p.2
        | none => s.results.Option) := by
  match cur, h with
  | [], h =>
    simp only [classify, List.length_nil, gt_iff_lt, Nat.not_lt_zero, if_false,
      OfNat.zero_ne_ofNat] at h
    cases h
    exact Or.inr ⟨rfl, rfl⟩
  | [a], h =>
    simp only [classify, List.length_singleton, gt_iff_lt, Nat.not_ofNat_lt_one, if_false,
      OfNat.one_ne_ofNat] at h
    cases h
    exact Or.inr ⟨rfl, rfl⟩
  | [a, b], h =>
    rw [classify_to_parseTwo] at h
    have h2 := parseTwo_assigns ap args s s1 a b h
    have hat : specAttached ap [a, b] = none := rfl
    rw [hat]
    cases hs : specSeparate ap [a, b] with
    | some m => rw [hs] at h2; exact h2
    | none => rw [hs] at h2; exact Or.inr h2
  | a :: b :: c :: rest, h =>
    by_cases ha : a = dash
    · subst ha
      by_cases hb : b = dash
      · subst hb
        rw [classify_to_parseLong] at h
        have h2 := parseLong_assigns ap args s s1 c rest h
        cases hs : specSeparate ap (dash :: dash :: c :: rest) with
        | some m => rw [hs] at h2; exact h2
        | none => rw [hs] at h2; exact Or.inr h2
      · rw [classify_to_parseShort ap args s b c rest hb] at h
        have hs : specSeparate ap (dash :: b :: c :: rest) = none := by
          unfold specSeparate
          simp [hb]
        rw [hs]
        exact parseShort_assigns ap s s1 b c rest hb h
    · have hs : specSeparate ap (a :: b :: c :: rest) = none := by
        unfold specSeparate
        simp [ha]
      have hat : specAttached ap (a :: b :: c :: rest) = none := by
        unfold specAttached
        simp [ha]
      rw [hs, hat]
      unfold classify at h
      simp only [List.length_cons, gt_iff_lt, byteAt_zero, List.head?_cons, orPanic, ha,
        if_false] at h
      split at h
      · cases h
        exact Or.inr ⟨rfl, rfl⟩
      · omega

theorem specAssignments_terminator (ap : Parser) (rest : List GoString) :
    specAssignments ap (terminator :: rest) = [] := by
  cases rest <;> simp [specAssignments]

theorem specAssignments_separate (ap : Parser) (t w : GoString) (rest : List GoString)
    (m : GoString) (ht : t ≠ terminator) (hs : specSeparate ap t = some m) :
    specAssignments ap (t :: w :: rest) = (m, w) :: specAssignments ap rest := by
  simp [specAssignments, ht, hs]

theorem specAssignments_alone (ap : Parser) (t : GoString) (rest : List GoString)
    (ht : t ≠ terminator) (hs : specSeparate ap t = none) :
    specAssignments ap (t :: rest) = (specAttached ap t).toList ++ specAssignments ap rest := by
  cases rest <;> simp [specAssignments, ht, hs]

theorem valuesOf_cons (n m v : GoString) (as : List (GoString × GoString)) :
    valuesOf n ((m, v) :: as) = if m = n then v :: valuesOf n as else valuesOf n as := by
  unfold valuesOf
  by_cases h : m = n
  · simp [h]
  · simp [h]

theorem getLast?_cons_getD {α : Type} (v d : α) (l : List α) :
    (v :: l).getLast?.getD d = l.getLast?.getD v := by
  cases l with
  | nil => rfl
  | cons w ws =>
    rw [List.getLast?_cons_cons]
    cases hl : (w :: ws).getLast? with
    | none => simp at hl
    | some z => rfl

theorem drop_of_get? {α : Type} (l : List α) (i : Nat) (a : α) (h : l.get? i = some a) :
    l.drop i = a :: l.drop (i + 1) := by
  induction l generalizing i with
  | nil => cases h
  | cons b l ih =>
    cases i with
    | zero =>
      simp only [List.get?_cons_zero, Option.some.injEq] at h
      subst h
      rfl
    | succ i =>
      simp only [List.get?_cons_succ] at h
      simpa using ih i h

/-- The value of the option `n` after a pass: the value that the assignment of
the pass gives it, or the value before the pass. -/
theorem body_last_assigned (ap : Parser) (args : List GoString) (n : GoString) (s s1 : State)
    (d : GoString) (hpast : s.pastCommandCheck ap) (hi : s.i < args.length)
    (hd : s.results.Option.get? n = some d) (hb : body ap args s = .ok s1) :
    ∃ d1, s1.results.Option.get? n = some d1 ∧
      (valuesOf n (specAssignments ap (args.drop s1.i))).getLast?.getD d1 =
        (valuesOf n (specAssignments ap (args.drop s.i))).getLast?.getD d := by
  have hcur : args.get? s.i = some (args.get ⟨s.i, hi⟩) := List.get?_eq_get hi
  generalize args.get ⟨s.i, hi⟩ = cur at hcur
  have hdrop := drop_of_get? args s.i cur hcur
  rw [body_of_past ap args s cur hcur hpast] at hb
  split at hb
  · rename_i ht
    cases hb
    refine ⟨d, hd, ?_⟩
    rw [hdrop, ht, specAssignments_terminator]
    simp [specAssignments, valuesOf]
  · rename_i ht
    have hc := classify_assigns ap args cur s s1 hb
    cases hs : specSeparate ap cur with
    | some m =>
      rw [hs] at hc
      obtain ⟨w, hw, hi1, ho⟩ := hc
      have hdrop1 := drop_of_get? args (s.i + 1) w hw
      rw [hdrop, hdrop1, specAssignments_separate ap cur w _ m ht hs, valuesOf_cons, hi1, ho]
      by_cases hm : m = n
      · subst hm
        refine ⟨w, GoMap.get?_set_self _ _ _, ?_⟩
        rw [if_pos rfl, getLast?_cons_getD]
      · refine ⟨d, ?_, ?_⟩
        · rw [GoMap.get?_set_ne _ _ _ _ (fun e => hm e.symm)]
          exact hd
        · rw [if_neg hm]
    | none =>
      rw [hs] at hc
      rcases hc with rfl | ⟨hi1, ho⟩
      · exact ⟨d, hd, rfl⟩
      · rw [hdrop, specAssignments_alone ap cur _ ht hs, hi1, ho]
        cases ha : specAttached ap cur with
        | none =>
          refine ⟨d, hd, ?_⟩
          simp
        | some p =>
          obtain ⟨m, v⟩ := p
          simp only [Option.toList_some, List.singleton_append, valuesOf_cons]
          by_cases hm : m = n
          · subst hm
            refine ⟨v, GoMap.get?_set_self _ _ _, ?_⟩
            rw [if_pos rfl, getLast?_cons_getD]
          · refine ⟨d, ?_, ?_⟩
            · rw [GoMap.get?_set_ne _ _ _ _ (fun e => hm e.symm)]
              exact hd
            · rw [if_neg hm]

theorem loop_last_assigned (ap : Parser) (args : List GoString) (n : GoString) (fuel : Nat) :
    ∀ (s : State) (d : GoString) (r : Results), s.pastCommandCheck ap →
      s.results.Option.get? n = some d → loop ap args fuel s = some (.ok r) →
      r.Option.get? n =
        some ((valuesOf n (specAssignments ap (args.drop s.i))).getLast?.getD d) := by
  have hend : ∀ (s : State) (d : GoString) (r : Results), ¬ s.i < args.length →
      s.results.Option.get? n = some d → some (Outcome.ok s.results) = some (.ok r) →
      r.Option.get? n =
        some ((valuesOf n (specAssignments ap (args.drop s.i))).getLast?.getD d) := by
    intro s d r hi hd h
    simp only [Option.some.injEq, Outcome.ok.injEq] at h
    subst h
    rw [List.drop_eq_nil_of_le (by omega), hd]
    rfl
  induction fuel with
  | zero =>
    intro s d r _ hd h
    by_cases hi : s.i < args.length
    · simp [loop, hi] at h
    · rw [loop_done _ _ _ _ hi] at h
      exact hend s d r hi hd h
  | succ k ih =>
    intro s d r hpast hd h
    by_cases hi : s.i < args.length
    · rw [loop_succ _ _ _ _ hi] at h
      cases hb : body ap args s with
      | ok s1 =>
        rw [hb] at h
        obtain ⟨d1, hd1, he⟩ := body_last_assigned ap args n s s1 d hpast hi hd hb
        rw [ih s1 d1 r (body_past_preserved ap args s s1 hpast hi hb) hd1 h, he]
      | err e => rw [hb] at h; cases h
      | panic => rw [hb] at h; cases h
    · rw [loop_done _ _ _ _ hi] at h
      exact hend s d r hi hd h

/-- In results that `Parse` returns, a declared option has the value that the
last token (pair) assigning it gives it, or its default when no token assigns
it. -/
theorem Returns_last_assigned (ap : Parser) (args : List GoString) (n : GoString) (o : option)
    (r : Results) (hop : ap.options.get? n = some o) (h : Returns ap args (.ok r)) :
    r.Option.get? n = some ((specAssignedValues ap n args).getLast?.getD o.DefaultsTo) := by
  obtain ⟨fuel, h⟩ := h
  unfold ParseFuel at h
  have hd : (initState ap).results.Option.get? n = some o.DefaultsTo := by
    show (initResults ap).Option.get? n = _
    rw [initResults_Option, hop]
    rfl
  unfold specAssignedValues
  by_cases hpast : (initState ap).pastCommandCheck ap
  · have hlen : ap.commands.len = 0 := by
      rcases hpast with h1 | h1 | h1
      · cases h1
      · exact absurd rfl h1
      · exact h1
    have hw : specClassified ap args = args := by
      cases args with
      | nil => rfl
      | cons a rest => simp [specClassified, hlen]
    rw [hw]
    exact loop_last_assigned ap args n fuel _ _ r hpast hd h
  · obtain ⟨hskip, hi0, hlen⟩ := not_pastCommandCheck ap _ hpast
    cases args with
    | nil =>
      rw [loop_done _ _ _ _ (by simp [initState])] at h
      simp only [Option.some.injEq, Outcome.ok.injEq] at h
      subst h
      rw [hd]
      rfl
    | cons a rest =>
      cases fuel with
      | zero => simp [loop, initState] at h
      | succ k =>
        rw [loop_succ _ _ _ _ (by simp [initState]),
          body_commandCheck ap (a :: rest) (initState ap) a rfl hskip hi0 hlen] at h
        cases hc : ap.commands.get? a with
        | some v =>
          rw [hc] at h
          have hw : specClassified ap (a :: rest) = rest := by
            simp [specClassified, hlen, hc]
          have h2 := loop_last_assigned ap (a :: rest) n k
            { i := (initState ap).i + 1, skipCommandCheck := true,
              results := { (initState ap).results with Command := a } }
            o.DefaultsTo r (Or.inl rfl) hd h
          rw [hw]
          simpa [initState] using h2
        | none =>
          rw [hc] at h
          have hw : specClassified ap (a :: rest) = a :: rest := by
            simp [specClassified, hc]
          by_cases hr : ap.CommandRequired = true
          · simp [hr] at h
          · simp only [hr, if_false, Bool.false_eq_true] at h
            have h2 := loop_last_assigned ap (a :: rest) n k
              { initState ap with skipCommandCheck := true } o.DefaultsTo r (Or.inl rfl) hd h
            rw [hw]
            simpa [initState] using h2

/-- C15 (as the code has it): for a declared option `n`, in every result that
`Parse` returns, on any registry and any token sequence, `n` has the value of
the last token (pair) that assigned it, or its default when no token assigned
it.  And in a reachable registry without commands, when the name `n` is
non-empty and has no `=`, for non-empty values `vs` that the option accepts,
the tokens `--n=v` for `v` in `vs`, and, when no value starts with `-`, the
tokens `--n`, `v` for `v` in `vs`, parse to the initial results with the
values assigned to `n` in order; in them `n` has the last value, or its default
when `vs` is empty. -/
theorem last_occurrence_wins (ap : Parser) (n : GoString) (o : option)
    (hop : ap.options.get? n = some o) :
    (∀ (args : List GoString) (r : Results), Returns ap args (.ok r) →
      r.Option.get? n = some ((specAssignedValues ap n args).getLast?.getD o.DefaultsTo)) ∧
    (Reachable ap → ap.commands.len = 0 → n ≠ [] → equalsSign ∉ n →
      ∀ vs : List GoString, (∀ v ∈ vs, v ≠ [] ∧ o.accepts v) →
        Returns ap (vs.map (longEquals n)) (.ok ((initResults ap).setOptionEach n vs)) ∧
        ((∀ v ∈ vs, v.head? ≠ some dash) →
          Returns ap (vs.flatMap fun v => [longName n, v])
            (.ok ((initResults ap).setOptionEach n vs))) ∧
        ((initResults ap).setOptionEach n vs).Option.get? n =
          some (vs.getLast?.getD o.DefaultsTo)) :=
  ⟨fun args r h => Returns_last_assigned ap args n o r hop h,
   fun hR hcmd hn hne vs hvs => repeated_option_forms ap hR hcmd n o hn hne hop vs hvs⟩

set_option maxRecDepth 8192 in
theorem last_occurrence_wins_witness :
    sampleRegistry.options.get? (str "mode") = some ⟨[], str "fast", [str "fast", str "slow"]⟩ ∧
    Returns sampleRegistry [str "--mode=slow", str "file", str "--mode", str "fast"]
      (.ok ((((initResults sampleRegistry).setOption (str "mode") (str "slow")).addPositional
        (str "file")).setOption (str "mode") (str "fast"))) ∧
    specAssignedValues sampleRegistry (str "mode")
      [str "--mode=slow", str "file", str "--mode", str "fast"] = [str "slow", str "fast"] ∧
    ((((initResults sampleRegistry).setOption (str "mode") (str "slow")).addPositional
        (str "file")).setOption (str "mode") (str "fast")).Option.get? (str "mode") =
      some ((specAssignedValues sampleRegistry (str "mode")
        [str "--mode=slow", str "file", str "--mode", str "fast"]).getLast?.getD (str "fast")) ∧
    Returns sampleRegistry [str "--mode=fast", str "-vm=slow", str "-mfast", str "-m", str "slow"]
      (.ok ((((((initResults sampleRegistry).setOption (str "mode") (str "fast")).setFlag
        (str "verbose")).setOption (str "mode") (str "slow")).setOption (str "mode")
          (str "fast")).setOption (str "mode") (str "slow"))) ∧
    specAssignedValues sampleRegistry (str "mode")
      [str "--mode=fast", str "-vm=slow", str "-mfast", str "-m", str "slow"] =
        [str "fast", str "slow", str "fast", str "slow"] ∧
    Reachable sampleRegistry ∧ sampleRegistry.commands.len = 0 ∧ str "mode" ≠ [] ∧
    equalsSign ∉ str "mode" ∧
    (∀ v ∈ [str "slow", str "fast", str "slow"],
      v ≠ [] ∧ option.accepts ⟨[], str "fast", [str "fast", str "slow"]⟩ v) ∧
    Returns sampleRegistry ([str "slow", str "fast", str "slow"].map (longEquals (str "mode")))
      (.ok ((initResults sampleRegistry).setOptionEach (str "mode")
        [str "slow", str "fast", str "slow"])) ∧
    ((initResults sampleRegistry).setOptionEach (str "mode")
        [str "slow", str "fast", str "slow"]).Option.get? (str "mode") = some (str "slow") :=
  have hR : Returns sampleRegistry [str "--mode=slow", str "file", str "--mode", str "fast"]
      (.ok ((((initResults sampleRegistry).setOption (str "mode") (str "slow")).addPositional
        (str "file")).setOption (str "mode") (str "fast"))) := ⟨3, by decide⟩
  have hvs : ∀ v ∈ [str "slow", str "fast", str "slow"],
      v ≠ [] ∧ option.accepts ⟨[], str "fast", [str "fast", str "slow"]⟩ v := by
    intro v hv
    simp only [List.mem_cons, List.mem_singleton, List.not_mem_nil, or_false] at hv
    rcases hv with rfl | rfl | rfl
    · exact ⟨by decide, Or.inr (by decide)⟩
    · exact ⟨by decide, Or.inr (by decide)⟩
    · exact ⟨by decide, Or.inr (by decide)⟩
  have h := last_occurrence_wins sampleRegistry (str "mode")
    ⟨[], str "fast", [str "fast", str "slow"]⟩ (by decide)
  have h2 := h.2 sampleRegistry_reachable (by decide) (by decide) (by decide)
    [str "slow", str "fast", str "slow"] hvs
  ⟨by decide, hR, by decide, h.1 _ _ hR, ⟨4, by decide⟩, by decide,
   sampleRegistry_reachable, by decide, by decide, by decide, hvs, h2.1, h2.2.2⟩

/-- C15 fails for an option with the empty name: `--n` is then the terminator,
so `["--", "a", "--", "b"]` assigns nothing and the option keeps its default. -/
theorem last_occurrence_counterexample :
    emptyNameOptionRegistry.commands.len = 0 ∧
    emptyNameOptionRegistry.options.get? [] = some ⟨[], str "d", []⟩ ∧
    Returns emptyNameOptionRegistry [longName [], str "a", longName [], str "b"]
      (.ok { initResults emptyNameOptionRegistry with
             Positional := [str "a", longName [], str "b"] }) ∧
    ({ initResults emptyNameOptionRegistry with
       Positional := [str "a", longName [], str "b"] } : Results).Option.get? [] =
      some (str "d") := by
  refine ⟨by decide, by decide, ⟨1, by decide⟩, by decide⟩

end Args
